import Mathlib

/-!
# cwistaw: buffer (`smartstring`) and HTTP message layer

A shallow embedding of `src/smartstring/smartstring.c` and `src/http/http.c`.

Conventions of the embedding

* A C string (`char *` to NUL-terminated bytes) is the list of the characters that precede
  the terminator (`CStr`).  A `char *` that may be `NULL` is an `Option CStr`.
* A function that writes through a `smartstring *` takes the buffer and returns the buffer it
  leaves behind, next to the C return value.  The handle itself is never `NULL` in the model,
  so the `if (!str)` guards (which only return `ERR_SMARTSTRING_NULL_STRING`) have no branch.
* `malloc` / `realloc` succeed where the size asked for is the length of a text that is in
  memory already (`smartstring_assign`, `smartstring_append`, the copies of the parser): the
  out-of-memory branches are not taken there.  `smartstring_change_size` asks for a size of the
  caller's choice, so its `realloc` is modelled with its outcomes (`realloc`), the request
  `new_size + 1` being taken modulo `2 ^ 64`.
* Lengths and offsets of objects in memory (`size_t`, or an `int` that holds a pointer
  difference in the parser) are natural numbers.  The `int` arguments of `smartstring_substr`
  are integers: their sum and the conversion of a length to `int` wrap to 32 bits, and the
  conversion of an `int` to `size_t` is taken modulo `2 ^ 64`, as on the two's-complement
  targets the code is built for.  Where the code lets a `size_t` wrap (the `end--` and
  `end + 1` of `smartstring_rtrim`, the `size -= start` of `smartstring_ltrim`) the arithmetic
  is modulo `2 ^ 64`.
-/

namespace Cwistaw

/-- A NUL-terminated C string, given by the characters before its terminator. -/
abbrev CStr := List Char

/-- C `strlen`. -/
def strlen (s : CStr) : Nat := s.length

/-- C `strcmp`, by its sign (the C standard fixes nothing else): the first position where the
strings differ decides, and a string that ends first is the smaller one. -/
def strcmp : CStr → CStr → Int
  | [], [] => 0
  | [], _ :: _ => -1
  | _ :: _, [] => 1
  | a :: as, b :: bs => if a = b then strcmp as bs else if a < b then -1 else 1

/-! ## Errors -/

/-- The error codes of `enum smartstring_error_t` (smartstring.h). -/
inductive smartstring_error_t
  | ERR_SMARTSTRING_OKAY
  | ERR_SMARTSTRING_ZERO_LENGTH
  | ERR_SMARTSTRING_NULL_STRING
  | ERR_SMARTSTRING_CONSTANT
  | ERR_SMARTSTRING_RESIZE_TOO_SMALL
  | ERR_SMARTSTRING_RESIZE_TOO_LARGE
  | ERR_SMARTSTRING_OUTOFBOUND
  deriving DecidableEq, Repr

/-- Modelled from the spec: the tag `errtype` of a `cwist_error_t`.  The header
`cwistaw/err/cwist_err.h` is not among the sources; the three tags are the ones the callers
pass to `make_error`. -/
inductive cwist_errtype_t
  | CWIST_ERR_INT8
  | CWIST_ERR_INT16
  | CWIST_ERR_JSON
  deriving DecidableEq, Repr

/-- Modelled from the spec: the discriminated result `cwist_error_t` of `cwist_err.h` (absent
from the sources): `make_error (tag)` followed by the store into the matching union member.
A JSON error carries the key/value pairs added by `cJSON_AddStringToObject`. -/
inductive cwist_error_t
  | err_i8 (code : smartstring_error_t)
  | err_i16 (code : Int)
  | err_json (fields : List (String × String))
  deriving DecidableEq, Repr

/-- The field `errtype` of an error value. -/
def cwist_error_t.errtype : cwist_error_t → cwist_errtype_t
  | .err_i8 _ => .CWIST_ERR_INT8
  | .err_i16 _ => .CWIST_ERR_INT16
  | .err_json _ => .CWIST_ERR_JSON

/-! ## smartstring -/

/-- The record `struct smartstring`: `data` is `NULL` or the text held in the allocation,
`is_fixed` the mode, `size` the length field. -/
structure smartstring where
  data : Option CStr
  is_fixed : Bool
  size : Nat
  deriving DecidableEq, Repr

/-- C `smartstring_create`: dynamic, size 0, no content. -/
def smartstring_create : smartstring :=
  { data := none, is_fixed := false, size := 0 }

/-- The local `current_len = str->data ? strlen(str->data) : 0`. -/
def current_len (str : smartstring) : Nat :=
  match str.data with
  | some d => strlen d
  | none => 0

/-- The largest `size_t`. -/
def SIZE_MAX : Nat := 2 ^ 64 - 1

/-- Addition of `size_t` values. -/
def size_t_add (a b : Nat) : Nat := (a + b) % 2 ^ 64

/-- Subtraction of `size_t` values. -/
def size_t_sub (a b : Nat) : Nat := (a + 2 ^ 64 - b) % 2 ^ 64

/-- What a call `realloc (p, n)` hands back: a block of `n` bytes that starts with the old
bytes (`bytes` are the characters of the old text that fit), or `NULL` with the old block
untouched, or `NULL` with the old block released. -/
inductive realloc_t
  | block (bytes : CStr)
  | null
  | null_released
  deriving DecidableEq, Repr

/-- C library `realloc (p, n)`, where `p` is `NULL` or a block that holds the text `d`.
`grant n` tells whether the allocator can provide `n` bytes at this call.

* `p == NULL`: the call is `malloc (n)`.
* `n == 0` on a block: the block is released and `NULL` comes back (the C standard leaves the
  case to the implementation; this is what glibc does).
* A request that the block covers already (at most the text and its terminator) is served in
  place.
* Any other request is up to the allocator; when it refuses, the old block is untouched. -/
def realloc (grant : Nat → Bool) (p : Option CStr) (n : Nat) : realloc_t :=
  match p with
  | none => if grant n then .block [] else .null
  | some d =>
    if n = 0 then .null_released
    else if n ≤ strlen d + 1 ∨ grant n = true then .block (d.take n)
    else .null

/-- How a call of `smartstring_change_size` ends: it returns `err` and leaves the buffer `str`;
or it returns `err` while `str->data` points to a block that `realloc` has released, so that
the buffer holds no text any more; or it stores a byte through `str->data == NULL` and does
not return. -/
inductive change_size_t
  | returned (err : cwist_error_t) (str : smartstring)
  | dangling (err : cwist_error_t)
  | null_write
  deriving DecidableEq, Repr

/-- C `smartstring_change_size`.  `new_size` is a `size_t`; the request `new_size + 1` passed
to `realloc` wraps to 0 at `SIZE_MAX`.  `grant` is the allocator of `realloc`. -/
def smartstring_change_size (grant : Nat → Bool) (str : smartstring) (new_size : Nat)
    (blow_data : Bool) : change_size_t :=
  if str.is_fixed then
    .returned (.err_i8 .ERR_SMARTSTRING_CONSTANT) str
  else
    let current_len := current_len str
    if new_size < current_len ∧ blow_data = false then
      .returned
        (.err_json [("err", "New size is smaller than current data length and blow_data is false.")])
        str
    else
      match realloc grant str.data (size_t_add new_size 1) with
      | .null =>
        -- if (!new_data && new_size > 0) return; otherwise str->data = NULL is written to
        if new_size > 0 then .returned (.err_i8 .ERR_SMARTSTRING_RESIZE_TOO_LARGE) str
        else .null_write
      | .null_released =>
        if new_size > 0 then .dangling (.err_i8 .ERR_SMARTSTRING_RESIZE_TOO_LARGE)
        else .null_write
      | .block new_data =>
        let data : CStr :=
          if new_size ≥ current_len then
            (if current_len = 0 then [] else new_data)
          else
            new_data.take new_size
        .returned (.err_i8 .ERR_SMARTSTRING_OKAY) { str with data := some data, size := new_size }

/-- C `smartstring_assign`. -/
def smartstring_assign (str : smartstring) (data : Option CStr) : cwist_error_t × smartstring :=
  let data_len := match data with
    | some d => strlen d
    | none => 0
  if str.is_fixed then
    if data_len > str.size then
      (.err_json [("err", "string's assigned size is smaller than given data")], str)
    else
      match str.data with
      | some _ => (.err_i8 .ERR_SMARTSTRING_OKAY, { str with data := some (data.getD []) })
      | none => (.err_i8 .ERR_SMARTSTRING_OKAY, str)
  else
    (.err_i8 .ERR_SMARTSTRING_OKAY, { str with data := some (data.getD []), size := data_len })

/-- The block after `// Append logic` in `smartstring_append`: when the buffer has an
allocation, reset it to the empty text if `current_len` was 0, then `strcat`. -/
def append_logic (str : smartstring) (current_len : Nat) (data : CStr) : smartstring :=
  match str.data with
  | some old => { str with data := some ((if current_len = 0 then [] else old) ++ data) }
  | none => str

/-- C `smartstring_append`.  In the dynamic branch the block returned by `realloc` keeps the old
text; when there was none its bytes are unspecified, and `append_logic` resets them because
`current_len` is 0 there. -/
def smartstring_append (str : smartstring) (data : Option CStr) : cwist_error_t × smartstring :=
  match data with
  | none => (.err_i8 .ERR_SMARTSTRING_OKAY, str)
  | some d =>
    let current_len := current_len str
    let append_len := strlen d
    let new_size := current_len + append_len
    if str.is_fixed then
      if new_size > str.size then
        (.err_json [("err", "Cannot append: would exceed fixed size")], str)
      else
        (.err_i8 .ERR_SMARTSTRING_OKAY, append_logic str current_len d)
    else
      let str1 : smartstring := { str with data := some (str.data.getD []), size := new_size }
      (.err_i8 .ERR_SMARTSTRING_OKAY, append_logic str1 current_len d)

/-- C `smartstring_compare`; `compare_to` may be `NULL`. -/
def smartstring_compare (str : smartstring) (compare_to : Option CStr) : Int :=
  match str.data, compare_to with
  | none, none => 0
  | none, some _ => -1
  | some _, none => 1
  | some d, some c => strcmp d c

/-- Conversion of an out-of-range value to `int` (32 bits, two's complement). -/
def wrap_int (x : Int) : Int := (x + 2 ^ 31) % 2 ^ 32 - 2 ^ 31

/-- Conversion of an integer to `size_t` (64 bits). -/
def to_size_t (x : Int) : Nat := (x % 2 ^ 64).toNat

/-- The values of C type `int`. -/
def is_int (x : Int) : Prop := -2 ^ 31 ≤ x ∧ x < 2 ^ 31

instance (x : Int) : Decidable (is_int x) := by unfold is_int; infer_instance

/-- C `smartstring_substr`; the result is `none` for `NULL`.  The source buffer is only read
(the code never writes through `str`), so there is no buffer to hand back. -/
def smartstring_substr (str : smartstring) (start length : Int) : Option smartstring :=
  match str.data with
  | none => none
  | some d =>
    if start < 0 ∨ length < 0 then none
    else
      let current_len := strlen d
      if to_size_t start ≥ current_len then none
      else
        let length : Int :=
          if to_size_t (wrap_int (start + length)) > current_len then
            wrap_int ((current_len - to_size_t start : Nat) : Int)
          else length
        -- sub = smartstring_create (); sub->data = malloc (length + 1); sub->size = length;
        -- memcpy (sub->data, str->data + start, length); sub->data[length] = 0
        let sub := smartstring_create
        some { sub with
          data := some ((d.drop (to_size_t start)).take (to_size_t length)),
          size := to_size_t length }

/-- C `isspace` in the "C" locale: space, `\t`, `\n`, `\v`, `\f`, `\r`. -/
def isspace (c : Char) : Bool :=
  c = ' ' ∨ c = '\t' ∨ c = '\n' ∨ c = '\x0b' ∨ c = '\x0c' ∨ c = '\r'

/-- The loop `while (start < len && isspace (data[start])) start++` of `smartstring_ltrim`,
run from the front of the text: the final value of `start`. -/
def ltrim_loop : CStr → Nat
  | [] => 0
  | c :: s => if isspace c then ltrim_loop s + 1 else 0

/-- C `smartstring_ltrim`. -/
def smartstring_ltrim (str : smartstring) : cwist_error_t × smartstring :=
  match str.data with
  | none => (.err_i8 .ERR_SMARTSTRING_NULL_STRING, str)
  | some d =>
    let start := ltrim_loop d
    if start > 0 then
      -- memmove (str->data, str->data + start, len - start + 1); str->size -= start
      (.err_i8 .ERR_SMARTSTRING_OKAY,
        { str with data := some (d.drop start), size := size_t_sub str.size start })
    else
      (.err_i8 .ERR_SMARTSTRING_OKAY, str)

/-- The test `end < len && isspace (data[end])` of the loop of `smartstring_rtrim`. -/
def rtrim_test (data : CStr) (len end_idx : Nat) : Bool :=
  decide (end_idx < len) && (match data[end_idx]? with
    | some c => isspace c
    | none => false)

/-- The loop `while (end < len && isspace (data[end])) end--` of `smartstring_rtrim`, from a
given `end`: the final value of `end`.  Decrementing 0 gives `SIZE_MAX`, where the test
`end < len` ends the loop. -/
def rtrim_loop (data : CStr) (len : Nat) : Nat → Nat
  | 0 => if rtrim_test data len 0 then SIZE_MAX else 0
  | e + 1 => if rtrim_test data len (e + 1) then rtrim_loop data len e else e + 1

/-- C `smartstring_rtrim`: the store `str->data[end + 1] = 0` cuts the text at that index. -/
def smartstring_rtrim (str : smartstring) : cwist_error_t × smartstring :=
  match str.data with
  | none => (.err_i8 .ERR_SMARTSTRING_NULL_STRING, str)
  | some d =>
    let len := strlen d
    if len = 0 then
      (.err_i8 .ERR_SMARTSTRING_ZERO_LENGTH, str)
    else
      let end_idx := rtrim_loop d len (len - 1)
      (.err_i8 .ERR_SMARTSTRING_OKAY, { str with data := some (d.take (size_t_add end_idx 1)) })

/-- C `smartstring_trim`: `smartstring_rtrim`, and `smartstring_ltrim` when that succeeded. -/
def smartstring_trim (str : smartstring) : cwist_error_t × smartstring :=
  let err := smartstring_rtrim str
  if err.1 ≠ .err_i8 .ERR_SMARTSTRING_OKAY then err else smartstring_ltrim err.2

/-- C `smartstring_seek`.  The destination `substr` is `NULL` or a caller's character array,
given by the text it holds; the value is the error and the text the destination holds
afterwards.  The buffer `str` is only read. -/
def smartstring_seek (str : smartstring) (substr : Option CStr) (location : Int) :
    cwist_error_t × Option CStr :=
  match str.data, substr with
  | some d, some dst =>
    let len := strlen d
    if location < 0 ∨ to_size_t location ≥ len then
      (.err_i8 .ERR_SMARTSTRING_OUTOFBOUND, some dst)
    else
      -- strcpy (substr, str->data + location)
      (.err_i8 .ERR_SMARTSTRING_OKAY, some (d.drop (to_size_t location)))
  | _, _ => (.err_i8 .ERR_SMARTSTRING_NULL_STRING, substr)

/-! ## String helpers of the C library used by the parser -/

/-- The line terminator `"\r\n"`. -/
def CRLF : CStr := ['\r', '\n']

/-- C `strstr`: the offset of the first occurrence of `needle` in the string, `none` for
`NULL`. -/
def strstr : CStr → CStr → Option Nat
  | [], needle => if needle = [] then some 0 else none
  | c :: hay, needle =>
    if needle.isPrefixOf (c :: hay) then some 0 else (strstr hay needle).map (· + 1)

/-- C `strchr` for a character other than NUL: the offset of its first occurrence. -/
def strchr : CStr → Char → Option Nat
  | [], _ => none
  | c :: s, ch => if c = ch then some 0 else (strchr s ch).map (· + 1)

/-- C `strtok`, one call: the scan starts at `s` (the string passed, or the pointer saved by the
previous call), skips leading delimiters, and returns the token (`none` for `NULL`) together
with the pointer saved for the next call.  The delimiter that ends the token is overwritten by
NUL and the saved pointer is the byte after it; at the end of the string the saved pointer
stays at the end. -/
def strtok (s delim : CStr) : Option CStr × CStr :=
  match s.dropWhile (fun c => delim.contains c) with
  | [] => (none, [])
  | c :: s1 =>
    let token := (c :: s1).takeWhile (fun x => !delim.contains x)
    let rest := (c :: s1).dropWhile (fun x => !delim.contains x)
    (some token, rest.drop 1)

/-! ## HTTP data model -/

/-- The `enum cwist_http_method_t` (http.h). -/
inductive cwist_http_method_t
  | CWIST_HTTP_GET
  | CWIST_HTTP_POST
  | CWIST_HTTP_PUT
  | CWIST_HTTP_DELETE
  | CWIST_HTTP_PATCH
  | CWIST_HTTP_HEAD
  | CWIST_HTTP_OPTIONS
  | CWIST_HTTP_UNKNOWN
  deriving DecidableEq, Repr

/-- One `struct cwist_http_header_node`; the `next` link is the tail of the list that holds
the node. -/
structure cwist_http_header_node where
  key : smartstring
  value : smartstring
  deriving DecidableEq, Repr

/-- The record `struct cwist_http_request`; `headers` is the linked list, head first. -/
structure cwist_http_request where
  method : cwist_http_method_t
  path : smartstring
  query : smartstring
  version : smartstring
  headers : List cwist_http_header_node
  body : smartstring
  deriving DecidableEq, Repr

/-- The record `struct cwist_http_response`; `status_code` is the `int`-valued enum. -/
structure cwist_http_response where
  version : smartstring
  status_code : Int
  status_text : smartstring
  headers : List cwist_http_header_node
  body : smartstring
  deriving DecidableEq, Repr

/-- C `cwist_http_method_to_string`. -/
def cwist_http_method_to_string (method : cwist_http_method_t) : CStr :=
  match method with
  | .CWIST_HTTP_GET => ['G', 'E', 'T']
  | .CWIST_HTTP_POST => ['P', 'O', 'S', 'T']
  | .CWIST_HTTP_PUT => ['P', 'U', 'T']
  | .CWIST_HTTP_DELETE => ['D', 'E', 'L', 'E', 'T', 'E']
  | .CWIST_HTTP_PATCH => ['P', 'A', 'T', 'C', 'H']
  | .CWIST_HTTP_HEAD => ['H', 'E', 'A', 'D']
  | .CWIST_HTTP_OPTIONS => ['O', 'P', 'T', 'I', 'O', 'N', 'S']
  | _ => ['U', 'N', 'K', 'N', 'O', 'W', 'N']

/-- C `cwist_http_string_to_method`. -/
def cwist_http_string_to_method (method_str : CStr) : cwist_http_method_t :=
  if strcmp method_str ['G', 'E', 'T'] = 0 then .CWIST_HTTP_GET
  else if strcmp method_str ['P', 'O', 'S', 'T'] = 0 then .CWIST_HTTP_POST
  else if strcmp method_str ['P', 'U', 'T'] = 0 then .CWIST_HTTP_PUT
  else if strcmp method_str ['D', 'E', 'L', 'E', 'T', 'E'] = 0 then .CWIST_HTTP_DELETE
  else if strcmp method_str ['P', 'A', 'T', 'C', 'H'] = 0 then .CWIST_HTTP_PATCH
  else if strcmp method_str ['H', 'E', 'A', 'D'] = 0 then .CWIST_HTTP_HEAD
  else if strcmp method_str ['O', 'P', 'T', 'I', 'O', 'N', 'S'] = 0 then .CWIST_HTTP_OPTIONS
  else .CWIST_HTTP_UNKNOWN

/-- C `cwist_http_header_add`: a new node with freshly created key and value buffers, both
assigned, is linked in front of the list. -/
def cwist_http_header_add (head : List cwist_http_header_node) (key value : Option CStr) :
    cwist_error_t × List cwist_http_header_node :=
  let node : cwist_http_header_node :=
    { key := (smartstring_assign smartstring_create key).2,
      value := (smartstring_assign smartstring_create value).2 }
  (.err_i16 0, node :: head)

/-- C `cwist_http_header_get`: the `data` of the value of the first node whose key has content
equal to `key`; `none` for `NULL`. -/
def cwist_http_header_get : List cwist_http_header_node → CStr → Option CStr
  | [], _ => none
  | curr :: next, key =>
    match curr.key.data with
    | some k => if strcmp k key = 0 then curr.value.data else cwist_http_header_get next key
    | none => cwist_http_header_get next key

/-- C `cwist_http_request_create`. -/
def cwist_http_request_create : cwist_http_request :=
  { method := .CWIST_HTTP_GET,
    path := (smartstring_assign smartstring_create (some ['/'])).2,
    query := smartstring_create,
    version :=
      (smartstring_assign smartstring_create (some ['H', 'T', 'T', 'P', '/', '1', '.', '1'])).2,
    headers := [],
    body := smartstring_create }

/-- C `cwist_http_response_create` (`CWIST_HTTP_OK` is 200). -/
def cwist_http_response_create : cwist_http_response :=
  { version :=
      (smartstring_assign smartstring_create (some ['H', 'T', 'T', 'P', '/', '1', '.', '1'])).2,
    status_code := 200,
    status_text := (smartstring_assign smartstring_create (some ['O', 'K'])).2,
    headers := [],
    body := smartstring_create }

/-! ## Request parser -/

/-- The body of the header loop of `cwist_http_parse_request` for one copied `header_line`:
split at the first colon, skip the spaces that follow it, add the header; a line without a
colon adds nothing. -/
def parse_header_line (header_line : CStr) (headers : List cwist_http_header_node) :
    List cwist_http_header_node :=
  match strchr header_line ':' with
  | some colon =>
    let key := header_line.take colon
    let value := (header_line.drop (colon + 1)).dropWhile (fun c => c = ' ')
    (cwist_http_header_add headers (some key) (some value)).2
  | none => headers

/-- The loop `while ((line_end = strstr(line_start, "\r\n")) != NULL)` of
`cwist_http_parse_request`, from the position `line_start` with the header list so far.  It
returns the header list and the final `line_start`.  Every pass moves `line_start` forward by at
least two bytes, so the number of passes is bounded by the length of the input: `fuel` counts
them, and `none` means the bound given was too small. -/
def parse_headers : Nat → CStr → List cwist_http_header_node →
    Option (List cwist_http_header_node × CStr)
  | 0, _, _ => none
  | fuel + 1, line_start, headers =>
    match strstr line_start CRLF with
    | none => some (headers, line_start)
    | some line_end =>
      if line_end = 0 then
        some (headers, line_start.drop 2)
      else
        parse_headers fuel (line_start.drop (line_end + 2))
          (parse_header_line (line_start.take line_end) headers)

/-- Part `// 1. Request Line` of `cwist_http_parse_request` on the copied `request_line`: three
calls of `strtok` with the delimiter `" "`, each token stored when it is not `NULL`. -/
def parse_request_line (request_line : CStr) (req : cwist_http_request) : cwist_http_request :=
  let method_str := strtok request_line [' ']
  let path_str := strtok method_str.2 [' ']
  let version_str := strtok path_str.2 [' ']
  let req := match method_str.1 with
    | some m => { req with method := cwist_http_string_to_method m }
    | none => req
  let req := match path_str.1 with
    | some p => { req with path := (smartstring_assign req.path (some p)).2 }
    | none => req
  match version_str.1 with
  | some v => { req with version := (smartstring_assign req.version (some v)).2 }
  | none => req

/-- Part `// 3. Body` of `cwist_http_parse_request`: `if (*line_start)` the rest of the input is
assigned to the body. -/
def parse_body (line_start : CStr) (req : cwist_http_request) : cwist_http_request :=
  match line_start with
  | [] => req
  | _ :: _ => { req with body := (smartstring_assign req.body (some line_start)).2 }

/-- C `cwist_http_parse_request`; the result is `none` for `NULL`.  The header loop is run with
the length of the input (plus one) as its bound. -/
def cwist_http_parse_request (raw_request : Option CStr) : Option cwist_http_request :=
  match raw_request with
  | none => none
  | some raw =>
    let req := cwist_http_request_create
    match strstr raw CRLF with
    | none => none
    | some line_end =>
      let req := parse_request_line (raw.take line_end) req
      match parse_headers (strlen raw + 1) (raw.drop (line_end + 2)) req.headers with
      | none => none
      | some (headers, line_start) => some (parse_body line_start { req with headers := headers })

/-! ## Response serializer -/

/-- The conversion `%d` of `printf` for an `int`. -/
def fmt_d (n : Int) : CStr :=
  if n < 0 then '-' :: Nat.toDigits 10 n.natAbs else Nat.toDigits 10 n.toNat

/-- The call `snprintf (status_line, sizeof (status_line), "%s %d %s\r\n", ...)` with
`char status_line[256]`: at most 255 characters of the formatted text are stored. -/
def status_line (res : cwist_http_response) : CStr :=
  let version := res.version.data.getD ['H', 'T', 'T', 'P', '/', '1', '.', '1']
  let status_text := res.status_text.data.getD ['O', 'K']
  (version ++ [' '] ++ fmt_d res.status_code ++ [' '] ++ status_text ++ CRLF).take 255

/-- The header loop of `cwist_http_send_response`: every node whose key and value both have
content is appended as `key: value\r\n`; other nodes are skipped. -/
def append_headers : List cwist_http_header_node → smartstring → smartstring
  | [], response_str => response_str
  | curr :: next, response_str =>
    match curr.key.data, curr.value.data with
    | some k, some v =>
      let s1 := (smartstring_append response_str (some k)).2
      let s2 := (smartstring_append s1 (some [':', ' '])).2
      let s3 := (smartstring_append s2 (some v)).2
      let s4 := (smartstring_append s3 (some CRLF)).2
      append_headers next s4
    | _, _ => append_headers next response_str

/-- C `cwist_http_send_response`.  The transport is the parameter `send`, which receives the
block `response_str->data` of `response_str->size` bytes and returns the result of `send(2)`.
The value is the error together with the block handed to `send` (`none` when the function
returns before building it). -/
def cwist_http_send_response (send : Int → CStr → Int) (client_fd : Int)
    (res : Option cwist_http_response) : cwist_error_t × Option CStr :=
  match res with
  | none => (.err_i16 (-1), none)
  | some res =>
    if client_fd < 0 then (.err_i16 (-1), none)
    else
      let response_str := smartstring_create
      -- Status Line
      let response_str := (smartstring_append response_str (some (status_line res))).2
      -- Headers
      let response_str := append_headers res.headers response_str
      -- End of headers
      let response_str := (smartstring_append response_str (some CRLF)).2
      -- Body
      let response_str := match res.body.data with
        | some b => (smartstring_append response_str (some b)).2
        | none => response_str
      -- Send
      let block := (response_str.data.getD []).take response_str.size
      let sent := send client_fd block
      (if sent < 0 then .err_i16 (-1) else .err_i16 0, some block)

/-! ## Wire forms used to state the properties of the parser and the serializer -/

/-- The header lines `key: value\r\n` of a list of key/value texts, in list order. -/
def format_headers : List (CStr × CStr) → CStr
  | [] => []
  | kv :: rest => kv.1 ++ [':', ' '] ++ kv.2 ++ CRLF ++ format_headers rest

/-- The wire form of a request: request line, header lines, blank line, body. -/
def format_request (m p v : CStr) (hs : List (CStr × CStr)) (b : CStr) : CStr :=
  m ++ [' '] ++ p ++ [' '] ++ v ++ CRLF ++ format_headers hs ++ CRLF ++ b

/-- The header node whose key and value buffers hold the given texts, as
`cwist_http_header_add` builds it. -/
def header_node (kv : CStr × CStr) : cwist_http_header_node :=
  { key := { data := some kv.1, is_fixed := false, size := strlen kv.1 },
    value := { data := some kv.2, is_fixed := false, size := strlen kv.2 } }

/-- The text `key: value\r\n` for every node of a header list, head first; a buffer without
content counts as the empty text. -/
def header_block : List cwist_http_header_node → CStr
  | [] => []
  | n :: rest =>
    n.key.data.getD [] ++ [':', ' '] ++ n.value.data.getD [] ++ CRLF ++ header_block rest

/-- The complete status line `version SP decimal (status_code) SP status_text CRLF` of a
response. -/
def status_line_text (res : cwist_http_response) : CStr :=
  res.version.data.getD [] ++ [' '] ++ fmt_d res.status_code ++ [' ']
    ++ res.status_text.data.getD [] ++ CRLF

/-- The wire form of a response: complete status line, header block, blank line, body. -/
def response_text (res : cwist_http_response) : CStr :=
  status_line_text res ++ header_block res.headers ++ CRLF ++ res.body.data.getD []

/-- A response with a status text of 300 characters, so that its status line does not fit
the 256-byte `status_line` array of `cwist_http_send_response`. -/
def long_status_response : cwist_http_response :=
  { cwist_http_response_create with
    status_text := { data := some (List.replicate 300 'a'), is_fixed := false, size := 300 } }

/-- A text that holds no line terminator `"\r\n"`. -/
def no_crlf (l : CStr) : Prop := ¬ ∃ x y : CStr, l = x ++ CRLF ++ y

/-- The text of a sequence of lines, each followed by its terminator `"\r\n"`. -/
def lines_text : List CStr → CStr
  | [] => []
  | l :: rest => l ++ CRLF ++ lines_text rest

/-- The shape of a header line: a line without a colon, or a key without a colon, the colon,
a run of spaces and a value that does not start with a space. -/
inductive header_line
  | plain (line : CStr)
  | field (key spaces value : CStr)

/-- The text of a header line. -/
def header_line.text : header_line → CStr
  | .plain line => line
  | .field key spaces value => key ++ [':'] ++ spaces ++ value

/-- The conditions on the parts of a header line. -/
def header_line.shaped : header_line → Prop
  | .plain line => ':' ∉ line
  | .field key spaces value =>
    ':' ∉ key ∧ (∀ x ∈ spaces, x = ' ') ∧ value.head? ≠ some ' '

/-- The header entry a line stands for: none for a line without a colon, the key and the
value for the others. -/
def header_line.entry : header_line → Option cwist_http_header_node
  | .plain _ => none
  | .field key _ value => some (header_node (key, value))

/-- The buffer invariant: the text length of the content is at most the length field. -/
def buffer_inv (b : smartstring) : Prop := current_len b ≤ b.size

/-- The complete status line of a response as `cwist_http_send_response` formats it, before
it is stored in the 256-byte array: a version or status text without content is replaced by
`HTTP/1.1` or `OK`. -/
def status_line_full (res : cwist_http_response) : CStr :=
  res.version.data.getD ['H', 'T', 'T', 'P', '/', '1', '.', '1'] ++ [' ']
    ++ fmt_d res.status_code ++ [' '] ++ res.status_text.data.getD ['O', 'K'] ++ CRLF

/-- The text `key: value\r\n` of the nodes of a header list whose key and value both hold
content, head first. -/
def header_block_sent : List cwist_http_header_node → CStr
  | [] => []
  | n :: rest =>
    match n.key.data, n.value.data with
    | some k, some v => k ++ [':', ' '] ++ v ++ CRLF ++ header_block_sent rest
    | _, _ => header_block_sent rest

/-- A response with a status text of 242 characters: its complete status line has 257 bytes,
two more than the 256-byte `status_line` array stores. -/
def cut_terminator_response : cwist_http_response :=
  { cwist_http_response_create with
    status_text := { data := some (List.replicate 242 'a'), is_fixed := false, size := 242 } }

/-- The tokens of a line, read from the left: `cur` is the run of characters other than the
space that has been read so far, and a space (or the end of the line) closes it. -/
def tokens_from (cur : CStr) : CStr → List CStr
  | [] => if cur = [] then [] else [cur]
  | c :: l =>
    if c = ' ' then (if cur = [] then tokens_from [] l else cur :: tokens_from [] l)
    else tokens_from (cur ++ [c]) l

/-- The tokens of a request line: its maximal runs of characters other than the space, in
order. -/
def request_tokens (line : CStr) : List CStr := tokens_from [] line

/-- The header that a header line stands for: none when the line holds no colon; otherwise the
key is the text before the first colon and the value is the text after that colon without its
leading spaces. -/
def header_of_line (line : CStr) : Option (CStr × CStr) :=
  if ':' ∈ line then
    some (line.takeWhile (fun c => c != ':'),
      ((line.dropWhile (fun c => c != ':')).drop 1).dropWhile (fun c => c = ' '))
  else none

/-- The dynamic buffer that holds the text `t` in an allocation of its length, as
`smartstring_assign` leaves it. -/
def text_buffer (t : CStr) : smartstring :=
  { data := some t, is_fixed := false, size := strlen t }

/-! ## Lemmas on the C library helpers -/


theorem strcmp_self (s : CStr) : strcmp s s = 0 := by
  induction s with
  | nil => rfl
  | cons a s ih => simp [strcmp, ih]

theorem strcmp_eq_zero_iff (s t : CStr) : strcmp s t = 0 ↔ s = t := by
  induction s generalizing t with
  | nil => cases t <;> simp [strcmp]
  | cons a s ih =>
    cases t with
    | nil => simp [strcmp]
    | cons b t =>
      by_cases hab : a = b
      · simp [strcmp, hab, ih]
      · by_cases hlt : a < b <;> simp [strcmp, hab, hlt]

/-! ## smartstring -/

/-- C5: for every text `t`, assigning `t` to a freshly created buffer and then comparing the
buffer with `t` gives 0. -/
theorem smartstring_compare_assign_create (t : CStr) :
    smartstring_compare (smartstring_assign smartstring_create (some t)).2 (some t) = 0 := by
  simp [smartstring_assign, smartstring_create, smartstring_compare, strcmp_self]

/-- C6: for every dynamic buffer `b`, whatever it holds, and all texts `t1`, `t2`:
`smartstring_assign (b, t1)` followed by `smartstring_append (b, t2)` both succeed and the
content is then `t1 ++ t2`. -/
theorem smartstring_assign_append_dynamic (b : smartstring) (t1 t2 : CStr)
    (hb : b.is_fixed = false) :
    (smartstring_assign b (some t1)).1 = .err_i8 .ERR_SMARTSTRING_OKAY ∧
    (smartstring_append (smartstring_assign b (some t1)).2 (some t2)).1
      = .err_i8 .ERR_SMARTSTRING_OKAY ∧
    (smartstring_append (smartstring_assign b (some t1)).2 (some t2)).2.data
      = some (t1 ++ t2) := by
  refine ⟨?_, ?_, ?_⟩
  · simp [smartstring_assign, hb]
  · simp [smartstring_assign, smartstring_append, hb]
  · simp only [smartstring_assign, smartstring_append, hb, append_logic, current_len, strlen,
      Bool.false_eq_true, if_false, Option.getD_some]
    cases t1 <;> simp

theorem smartstring_assign_append_dynamic_witness :
    (smartstring_append
        (smartstring_assign ⟨some ['o', 'l', 'd'], false, 7⟩ (some ['a', 'b'])).2
        (some ['c'])).2.data = some ['a', 'b', 'c'] :=
  (smartstring_assign_append_dynamic ⟨some ['o', 'l', 'd'], false, 7⟩ ['a', 'b'] ['c'] rfl).2.2

theorem size_t_add_one (n : Nat) (h : n < SIZE_MAX) : size_t_add n 1 = n + 1 := by
  unfold size_t_add
  unfold SIZE_MAX at h
  exact Nat.mod_eq_of_lt (by omega)

theorem realloc_block_length (grant : Nat → Bool) (p : Option CStr) (n : Nat) (x : CStr)
    (h : realloc grant p n = .block x) : x.length ≤ (p.getD []).length := by
  cases p with
  | none =>
    simp only [realloc] at h
    split at h
    · cases h; simp
    · cases h
  | some d =>
    simp only [realloc] at h
    split at h
    · cases h
    · split at h
      · cases h
        simp only [Option.getD_some, List.length_take]
        omega
      · cases h

theorem change_size_returned_cases (grant : Nat → Bool) (b : smartstring) (n : Nat)
    (fl : Bool) (e : cwist_error_t) (b1 : smartstring)
    (h : smartstring_change_size grant b n fl = .returned e b1) :
    b1 = b ∨ (b.is_fixed = false ∧ ∃ x : CStr, b1 = ⟨some x, false, n⟩ ∧ x.length ≤ n) := by
  obtain ⟨d, f, sz⟩ := b
  cases f with
  | true =>
    simp only [smartstring_change_size, if_true] at h
    cases h
    exact Or.inl rfl
  | false =>
    have hcl : (d.getD []).length = current_len ⟨d, false, sz⟩ := by
      cases d <;> simp [current_len, strlen]
    simp only [smartstring_change_size, Bool.false_eq_true, if_false] at h
    split at h
    · cases h
      exact Or.inl rfl
    · split at h
      · split at h
        · cases h
          exact Or.inl rfl
        · cases h
      · split at h <;> cases h
      · rename_i x hx
        have hx1 := realloc_block_length grant d _ x hx
        cases h
        refine Or.inr ⟨rfl, _, rfl, ?_⟩
        split_ifs
        · simp
        · omega
        · simp only [List.length_take]
          omega

/-- C8: on a fixed buffer `smartstring_change_size` returns `ERR_SMARTSTRING_CONSTANT` for
every `new_size` and either value of the flag, and the buffer (content, capacity, mode) is
left as it was; the allocator is not asked. -/
theorem smartstring_change_size_fixed (grant : Nat → Bool) (b : smartstring) (new_size : Nat)
    (blow_data : Bool) (hb : b.is_fixed = true) :
    smartstring_change_size grant b new_size blow_data
      = .returned (.err_i8 .ERR_SMARTSTRING_CONSTANT) b := by
  simp [smartstring_change_size, hb]

theorem smartstring_change_size_fixed_witness :
    smartstring_change_size (fun _ => true) ⟨some ['a', 'b'], true, 4⟩ 9 true
      = .returned (.err_i8 .ERR_SMARTSTRING_CONSTANT) ⟨some ['a', 'b'], true, 4⟩ :=
  smartstring_change_size_fixed (fun _ => true) ⟨some ['a', 'b'], true, 4⟩ 9 true rfl

/-- C9: for a dynamic buffer holding a text `c` (whose length is a `size_t`) and every
`new_size` below the length of `c`: without the flag `smartstring_change_size` fails with a
JSON-typed error and leaves the buffer as it was; with the flag it succeeds, whatever the
allocator grants (the request fits the block that holds `c`), the content becomes the first
`new_size` characters of `c` and the length field becomes `new_size`.  The text `12345`
resized to 2 with the flag becomes `12`. -/
theorem smartstring_change_size_shrink (grant : Nat → Bool) (b : smartstring) (c : CStr)
    (new_size : Nat) (hb : b.is_fixed = false) (hc : b.data = some c)
    (hlen : strlen c ≤ SIZE_MAX) (hn : new_size < strlen c) :
    (∃ e, smartstring_change_size grant b new_size false = .returned e b ∧
      e.errtype = .CWIST_ERR_JSON) ∧
    smartstring_change_size grant b new_size true
      = .returned (.err_i8 .ERR_SMARTSTRING_OKAY)
          { data := some (c.take new_size), is_fixed := false, size := new_size } ∧
    smartstring_change_size (fun _ => false) ⟨some ['1', '2', '3', '4', '5'], false, 5⟩ 2 true
      = .returned (.err_i8 .ERR_SMARTSTRING_OKAY) ⟨some ['1', '2'], false, 2⟩ := by
  obtain ⟨d, f, sz⟩ := b
  simp only at hb hc
  subst hb hc
  have hcur : current_len ⟨some c, false, sz⟩ = strlen c := rfl
  refine ⟨⟨.err_json
      [("err", "New size is smaller than current data length and blow_data is false.")],
      ?_, rfl⟩, ?_, by decide⟩
  · simp only [smartstring_change_size, Bool.false_eq_true, if_false, hcur]
    rw [if_pos ⟨hn, trivial⟩]
  · have h1 : size_t_add new_size 1 = new_size + 1 := size_t_add_one new_size (by omega)
    have h2 : ¬ (new_size ≥ strlen c) := by omega
    have h3 : realloc grant (some c) (new_size + 1) = .block (c.take (new_size + 1)) := by
      simp only [realloc]
      rw [if_neg (by omega), if_pos (Or.inl (by omega))]
    simp only [smartstring_change_size, Bool.false_eq_true, if_false, hcur, and_false, h1, h3,
      h2, List.take_take]
    simp

theorem smartstring_change_size_shrink_witness :
    ∃ e, smartstring_change_size (fun _ => false) ⟨some ['1', '2', '3', '4', '5'], false, 10⟩ 2
        false = .returned e ⟨some ['1', '2', '3', '4', '5'], false, 10⟩ ∧
      e.errtype = .CWIST_ERR_JSON :=
  (smartstring_change_size_shrink (fun _ => false) ⟨some ['1', '2', '3', '4', '5'], false, 10⟩
    ['1', '2', '3', '4', '5'] 2 rfl rfl (by decide) (by decide)).1

/-- C10: for a dynamic buffer and every `new_size` that is at least its text length and below
`SIZE_MAX`, and for either value of the flag: when `realloc` provides the block of
`new_size + 1` bytes (the allocator grants it, or the block at hand has that size already),
`smartstring_change_size` succeeds, the length field becomes `new_size` and the text is
unchanged (a buffer without content then holds the empty text); when the allocator refuses a
request that needs a larger block and `new_size > 0`, the call returns
`ERR_SMARTSTRING_RESIZE_TOO_LARGE` and the buffer is left as it was. -/
theorem smartstring_change_size_grow (grant : Nat → Bool) (b : smartstring) (new_size : Nat)
    (blow_data : Bool) (hb : b.is_fixed = false) (hn : current_len b ≤ new_size)
    (hmax : new_size < SIZE_MAX) :
    ((grant (new_size + 1) = true ∨ (b.data ≠ none ∧ new_size = current_len b)) →
      smartstring_change_size grant b new_size blow_data
        = .returned (.err_i8 .ERR_SMARTSTRING_OKAY)
            { data := some (b.data.getD []), is_fixed := false, size := new_size }) ∧
    (grant (new_size + 1) = false → (b.data = none ∨ current_len b < new_size) →
      0 < new_size →
      smartstring_change_size grant b new_size blow_data
        = .returned (.err_i8 .ERR_SMARTSTRING_RESIZE_TOO_LARGE) b) := by
  obtain ⟨d, f, sz⟩ := b
  simp only at hb
  subst hb
  have h1 : size_t_add new_size 1 = new_size + 1 := size_t_add_one new_size hmax
  have h2 : ¬ (new_size < current_len ⟨d, false, sz⟩ ∧ blow_data = false) := by
    intro h
    omega
  constructor
  · intro hg
    cases d with
    | none =>
      have hg1 : grant (new_size + 1) = true := by
        rcases hg with h | h
        · exact h
        · exact absurd rfl h.1
      simp only [smartstring_change_size, Bool.false_eq_true, if_false]
      rw [if_neg h2]
      simp [realloc, h1, hg1, current_len]
    | some c =>
      have hcur : current_len ⟨some c, false, sz⟩ = c.length := rfl
      rw [hcur] at hn
      have h3 : realloc grant (some c) (new_size + 1) = .block c := by
        simp only [realloc, strlen]
        rw [if_neg (by omega)]
        have hc : c.take (new_size + 1) = c := List.take_of_length_le (by omega)
        rcases hg with h | h
        · rw [if_pos (Or.inr h), hc]
        · rw [if_pos (Or.inl (by rw [hcur] at h; omega)), hc]
      simp only [smartstring_change_size, Bool.false_eq_true, if_false]
      rw [if_neg h2]
      simp only [h1, h3, hcur, ge_iff_le, hn, if_true, Option.getD_some]
      by_cases h0 : c.length = 0
      · have : c = [] := List.length_eq_zero.mp h0
        simp [this]
      · simp [h0]
  · intro hg hlarger hpos
    have h3 : realloc grant d (new_size + 1) = .null := by
      cases d with
      | none => simp [realloc, hg]
      | some c =>
        have hcur : current_len ⟨some c, false, sz⟩ = c.length := rfl
        rcases hlarger with h | h
        · cases h
        · rw [hcur] at h
          simp only [realloc, strlen, hg]
          rw [if_neg (by omega), if_neg (by simp; omega)]
    simp only [smartstring_change_size, Bool.false_eq_true, if_false]
    rw [if_neg h2]
    simp only [h1, h3]
    rw [if_pos hpos]

theorem smartstring_change_size_grow_witness :
    smartstring_change_size (fun _ => true) ⟨some ['1', '2', '3', '4', '5'], false, 5⟩ 10 false
      = .returned (.err_i8 .ERR_SMARTSTRING_OKAY) ⟨some ['1', '2', '3', '4', '5'], false, 10⟩ :=
  (smartstring_change_size_grow (fun _ => true) ⟨some ['1', '2', '3', '4', '5'], false, 5⟩ 10
    false rfl (by decide) (by decide)).1 (Or.inl rfl)

/-- Growing the buffer that holds `12345` to `2 ^ 62` bytes, on a machine whose allocator
provides at most `2 ^ 47` bytes, does not succeed: `realloc` returns `NULL` and the call
returns `ERR_SMARTSTRING_RESIZE_TOO_LARGE`, the buffer being left as it was. -/
theorem smartstring_change_size_grow_refused :
    smartstring_change_size (fun n => decide (n ≤ 2 ^ 47))
        ⟨some ['1', '2', '3', '4', '5'], false, 5⟩ (2 ^ 62) false
      = .returned (.err_i8 .ERR_SMARTSTRING_RESIZE_TOO_LARGE)
          ⟨some ['1', '2', '3', '4', '5'], false, 5⟩ ∧
    smartstring_change_size (fun n => decide (n ≤ 2 ^ 47))
        ⟨some ['1', '2', '3', '4', '5'], false, 5⟩ (2 ^ 62) false
      ≠ .returned (.err_i8 .ERR_SMARTSTRING_OKAY)
          ⟨some ['1', '2', '3', '4', '5'], false, 2 ^ 62⟩ := by
  constructor <;> decide

theorem wrap_int_of_lt (x : Int) (h0 : 0 ≤ x) (h1 : x < 2 ^ 31) : wrap_int x = x := by
  unfold wrap_int; omega

theorem wrap_int_of_ge (x : Int) (h0 : 2 ^ 31 ≤ x) (h1 : x < 2 ^ 32) :
    wrap_int x = x - 2 ^ 32 := by
  unfold wrap_int; omega

theorem to_size_t_of_nonneg (x : Int) (h0 : 0 ≤ x) (h1 : x < 2 ^ 31) :
    to_size_t x = x.toNat := by
  unfold to_size_t; omega

theorem to_size_t_of_neg (x : Int) (h0 : -2 ^ 31 ≤ x) (h1 : x < 0) :
    to_size_t x = (x + 2 ^ 64).toNat := by
  unfold to_size_t; omega

/-- The clipping test of `smartstring_substr` on `int` arguments that passed the guards. -/
theorem substr_clip_iff (n : Nat) (start length : Int) (hn : (n : Int) < 2 ^ 31)
    (h0 : 0 ≤ start) (hs : start < 2 ^ 31) (h1 : 0 ≤ length) (hl : length < 2 ^ 31) :
    to_size_t (wrap_int (start + length)) > n ↔ start.toNat + length.toNat > n := by
  by_cases hsum : start + length < 2 ^ 31
  · rw [wrap_int_of_lt _ (by omega) hsum, to_size_t_of_nonneg _ (by omega) hsum]
    omega
  · rw [wrap_int_of_ge _ (by omega) (by omega), to_size_t_of_neg _ (by omega) (by omega)]
    omega

theorem substr_ok (c : CStr) (f : Bool) (sz : Nat) (start length : Int)
    (hs : is_int start) (hl : is_int length) (hn : (c.length : Int) < 2 ^ 31)
    (h0 : 0 ≤ start) (h1 : 0 ≤ length) (h2 : start < c.length) :
    smartstring_substr ⟨some c, f, sz⟩ start length
      = some { data := some ((c.take (min (start.toNat + length.toNat) c.length)).drop start.toNat),
               is_fixed := false,
               size := min (start.toNat + length.toNat) c.length - start.toNat } := by
  unfold is_int at hs hl
  have e1 : to_size_t start = start.toNat := to_size_t_of_nonneg _ h0 hs.2
  have hcond : ¬ (start < 0 ∨ length < 0) := by omega
  have hcond2 : ¬ (start.toNat ≥ strlen c) := by unfold strlen; omega
  have hclip_iff := substr_clip_iff c.length start length hn h0 hs.2 h1 hl.2
  simp only [smartstring_substr, hcond, e1, hcond2, if_false, smartstring_create]
  by_cases hclip : to_size_t (wrap_int (start + length)) > strlen c
  · have hsum : start.toNat + length.toNat > c.length := hclip_iff.mp hclip
    have e2 : to_size_t (wrap_int ((strlen c - start.toNat : Nat) : Int))
        = c.length - start.toNat := by
      unfold strlen
      rw [wrap_int_of_lt _ (by omega) (by omega), to_size_t_of_nonneg _ (by omega) (by omega)]
      omega
    have hmin : min (start.toNat + length.toNat) c.length = c.length := by omega
    have hdata : List.take (c.length - start.toNat) (List.drop start.toNat c)
        = List.drop start.toNat (List.take c.length c) := by
      rw [List.take_length]
      exact List.take_of_length_le (by simp)
    rw [if_pos hclip, e2, hmin, hdata]
  · have hsum : start.toNat + length.toNat ≤ c.length := by
      have := mt hclip_iff.mpr hclip
      omega
    have e2 : to_size_t length = length.toNat := to_size_t_of_nonneg _ h1 hl.2
    have hmin : min (start.toNat + length.toNat) c.length = start.toNat + length.toNat := by omega
    have hsub : start.toNat + length.toNat - start.toNat = length.toNat := by omega
    rw [if_neg hclip, e2, hmin, List.drop_take, hsub]

/-- C7: `smartstring_substr` on a buffer with content `c` of length `n`, for `int` arguments
`start` and `length` (the content with its terminator being short enough to be measured by an
`int`, so that `length + 1` in the `malloc` call cannot overflow): the result is `NULL` exactly
when `start < 0`, `length < 0` or `start >= n`; otherwise it is a new dynamic buffer whose
content is `c` from index `start` up to `min (start + length, n)` and whose length field is the
size of that slice, which is the whole tail from `start` when `start + length` exceeds `n`.
In particular `substr (b, n, 1)` is `NULL`.  (The source buffer is only read.) -/
theorem smartstring_substr_spec (b : smartstring) (c : CStr) (start length : Int)
    (hc : b.data = some c) (hs : is_int start) (hl : is_int length)
    (hn1 : (c.length : Int) + 1 < 2 ^ 31) :
    (smartstring_substr b start length = none
      ↔ (start < 0 ∨ length < 0 ∨ (c.length : Int) ≤ start)) ∧
    (¬ (start < 0 ∨ length < 0 ∨ (c.length : Int) ≤ start) →
      smartstring_substr b start length
        = some { data := some ((c.take (min (start.toNat + length.toNat) c.length)).drop
                          start.toNat),
                 is_fixed := false,
                 size := ((c.take (min (start.toNat + length.toNat) c.length)).drop
                          start.toNat).length }) ∧
    (¬ (start < 0 ∨ length < 0 ∨ (c.length : Int) ≤ start) → (c.length : Int) < start + length →
      smartstring_substr b start length
        = some { data := some (c.drop start.toNat), is_fixed := false,
                 size := (c.drop start.toNat).length }) ∧
    smartstring_substr b (c.length : Int) 1 = none := by
  obtain ⟨d, f, sz⟩ := b
  simp only at hc
  subst hc
  have hn : (c.length : Int) < 2 ^ 31 := by omega
  have hgen : ∀ s l : Int, is_int s → is_int l →
      ¬ (s < 0 ∨ l < 0 ∨ (c.length : Int) ≤ s) →
      smartstring_substr ⟨some c, f, sz⟩ s l
        = some { data := some ((c.take (min (s.toNat + l.toNat) c.length)).drop s.toNat),
                 is_fixed := false,
                 size := ((c.take (min (s.toNat + l.toNat) c.length)).drop s.toNat).length } := by
    intro s l hs' hl' hok
    rw [substr_ok c f sz s l hs' hl' hn (by omega) (by omega) (by omega)]
    simp only [List.length_drop, List.length_take]
    have : min (min (s.toNat + l.toNat) c.length) c.length = min (s.toNat + l.toNat) c.length := by
      omega
    rw [this]
  have hfail : ∀ s l : Int, is_int s → (s < 0 ∨ l < 0 ∨ (c.length : Int) ≤ s) →
      smartstring_substr ⟨some c, f, sz⟩ s l = none := by
    intro s l hs' hbad
    unfold is_int at hs'
    by_cases hneg : s < 0 ∨ l < 0
    · simp [smartstring_substr, hneg]
    · have e1 : to_size_t s = s.toNat := to_size_t_of_nonneg _ (by omega) hs'.2
      have h3 : s.toNat ≥ strlen c := by unfold strlen; omega
      simp [smartstring_substr, hneg, e1, h3]
  refine ⟨⟨?_, hfail start length hs⟩, hgen start length hs hl, ?_, ?_⟩
  · intro hnone
    by_contra hok
    rw [hgen start length hs hl hok] at hnone
    exact Option.noConfusion hnone
  · intro hok hover
    rw [hgen start length hs hl hok]
    have hmin : min (start.toNat + length.toNat) c.length = c.length := by omega
    rw [hmin, List.take_length]
  · apply hfail
    · unfold is_int; omega
    · omega

theorem smartstring_substr_spec_witness :
    smartstring_substr ⟨some ['0', '1', '2', '3', '4', '5', '6', '7', '8', '9'], false, 10⟩ 8 5
      = some ⟨some ['8', '9'], false, 2⟩ :=
  (smartstring_substr_spec ⟨some ['0', '1', '2', '3', '4', '5', '6', '7', '8', '9'], false, 10⟩
    ['0', '1', '2', '3', '4', '5', '6', '7', '8', '9'] 8 5 rfl (by decide) (by decide)
    (by decide)).2.1 (by decide)

/-! ## Header list -/

/-- C4: lookup after an add of `(k, v)` returns `v` for the key `k` (so the most recent of two
adds under one key wins), returns what the list returned before for every key `k'` other than
`k` (a key that differs by letter case only is another key), and finds nothing in the empty
list. -/
theorem cwist_http_header_get_add (h : List cwist_http_header_node) (k k' v : CStr) :
    cwist_http_header_get (cwist_http_header_add h (some k) (some v)).2 k = some v ∧
    (k' ≠ k →
      cwist_http_header_get (cwist_http_header_add h (some k) (some v)).2 k'
        = cwist_http_header_get h k') ∧
    cwist_http_header_get [] k = none ∧
    cwist_http_header_get
        (cwist_http_header_add (cwist_http_header_add h (some ['K']) (some ['v', '1'])).2
          (some ['K']) (some ['v', '2'])).2 ['K'] = some ['v', '2'] ∧
    cwist_http_header_get (cwist_http_header_add [] (some ['H', 'o', 's', 't']) (some ['x'])).2
        ['h', 'o', 's', 't'] = none := by
  have hadd : ∀ (l : List cwist_http_header_node) (a b : CStr),
      (cwist_http_header_add l (some a) (some b)).2
        = ⟨⟨some a, false, strlen a⟩, ⟨some b, false, strlen b⟩⟩ :: l := by
    intro l a b
    simp [cwist_http_header_add, smartstring_assign, smartstring_create]
  refine ⟨?_, ?_, rfl, ?_, by decide⟩
  · rw [hadd]
    simp [cwist_http_header_get, strcmp_self]
  · intro hne
    rw [hadd]
    have : ¬ (strcmp k k' = 0) := by
      rw [strcmp_eq_zero_iff]
      exact fun e => hne e.symm
    simp [cwist_http_header_get, this]
  · rw [hadd, hadd]
    simp [cwist_http_header_get, strcmp_self]

theorem cwist_http_header_get_add_witness :
    cwist_http_header_get
        (cwist_http_header_add [] (some ['H', 'o', 's', 't']) (some ['x'])).2 ['K']
      = cwist_http_header_get [] ['K'] :=
  (cwist_http_header_get_add [] ['H', 'o', 's', 't'] ['K'] ['x']).2.1 (by decide)


/-! ## Parser: the first line terminator -/

theorem strstr_some_split (needle : CStr) : ∀ (hay : CStr) (n : Nat),
    strstr hay needle = some n → hay = hay.take n ++ needle ++ hay.drop (n + needle.length) := by
  intro hay
  induction hay with
  | nil =>
    intro n h
    by_cases hn : needle = []
    · simp [hn]
    · simp [strstr, hn] at h
  | cons c hay ih =>
    intro n h
    unfold strstr at h
    by_cases hp : needle.isPrefixOf (c :: hay) = true
    · rw [if_pos hp] at h
      have hn : n = 0 := by simpa using h.symm
      subst hn
      obtain ⟨t, ht⟩ := List.isPrefixOf_iff_prefix.mp hp
      have hd : List.drop needle.length (c :: hay) = t := by
        rw [← ht]; simp
      simp only [List.take_zero, List.nil_append, Nat.zero_add, hd]
      exact ht.symm
    · rw [if_neg hp] at h
      cases hr : strstr hay needle with
      | none => simp [hr] at h
      | some m =>
        simp only [hr, Option.map_some', Option.some.injEq] at h
        subst h
        have := ih m hr
        simp only [List.take_succ_cons, List.cons_append, List.cons.injEq, true_and]
        have e : m + 1 + needle.length = (m + needle.length) + 1 := by omega
        rw [e, List.drop_succ_cons]
        exact this

theorem strstr_isSome_of_split (needle : CStr) : ∀ (a b : CStr),
    (strstr (a ++ needle ++ b) needle).isSome = true := by
  intro a
  induction a with
  | nil =>
    intro b
    cases hnb : ([] ++ needle ++ b) with
    | nil =>
      have : needle = [] := by
        simp at hnb; exact hnb.1
      simp [strstr, this]
    | cons c t =>
      have hp : needle.isPrefixOf (c :: t) = true := by
        rw [← hnb]; exact List.isPrefixOf_iff_prefix.mpr ⟨b, by simp⟩
      simp [strstr, hp]
  | cons c a ih =>
    intro b
    simp only [List.cons_append, List.append_assoc]
    unfold strstr
    split
    · rfl
    · have := ih b
      rw [List.append_assoc] at this
      cases hr : strstr (a ++ (needle ++ b)) needle with
      | none => simp [hr] at this
      | some m => rfl

theorem strstr_crlf_le (hay : CStr) (n : Nat) (h : strstr hay CRLF = some n) :
    n + 2 ≤ hay.length := by
  have := congrArg List.length (strstr_some_split CRLF hay n h)
  simp [CRLF] at this
  omega

theorem parse_headers_isSome : ∀ (fuel : Nat) (line_start : CStr)
    (headers : List cwist_http_header_node),
    line_start.length < fuel → (parse_headers fuel line_start headers).isSome = true := by
  intro fuel
  induction fuel with
  | zero => intro ls hs h; omega
  | succ fuel ih =>
    intro ls hs h
    unfold parse_headers
    cases hr : strstr ls CRLF with
    | none => simp
    | some n =>
      by_cases h0 : n = 0
      · simp [h0]
      · simp only [h0, if_false]
        apply ih
        have := strstr_crlf_le ls n hr
        simp only [List.length_drop]
        omega

theorem parse_request_line_fields (l : CStr) (req : cwist_http_request) :
    (parse_request_line l req).method
        = (match (strtok l [' ']).1 with
          | some m => cwist_http_string_to_method m
          | none => req.method) ∧
      (parse_request_line l req).path
        = (match (strtok (strtok l [' ']).2 [' ']).1 with
          | some p => (smartstring_assign req.path (some p)).2
          | none => req.path) ∧
      (parse_request_line l req).version
        = (match (strtok (strtok (strtok l [' ']).2 [' ']).2 [' ']).1 with
          | some v => (smartstring_assign req.version (some v)).2
          | none => req.version) ∧
      (parse_request_line l req).query = req.query ∧
      (parse_request_line l req).headers = req.headers ∧
      (parse_request_line l req).body = req.body := by
  simp only [parse_request_line]
  generalize (strtok l [' ']).1 = t1
  generalize (strtok (strtok l [' ']).2 [' ']).1 = t2
  generalize (strtok (strtok (strtok l [' ']).2 [' ']).2 [' ']).1 = t3
  cases t1 <;> cases t2 <;> cases t3 <;> exact ⟨rfl, rfl, rfl, rfl, rfl, rfl⟩

theorem parse_request_line_present (l : CStr) :
    (parse_request_line l cwist_http_request_create).path.data ≠ none ∧
    (parse_request_line l cwist_http_request_create).version.data ≠ none := by
  obtain ⟨_, hp, hv, _⟩ := parse_request_line_fields l cwist_http_request_create
  rw [hp, hv]
  constructor
  · cases (strtok (strtok l [' ']).2 [' ']).1 <;>
      simp [cwist_http_request_create, smartstring_assign, smartstring_create]
  · cases (strtok (strtok (strtok l [' ']).2 [' ']).2 [' ']).1 <;>
      simp [cwist_http_request_create, smartstring_assign, smartstring_create]

theorem parse_body_path (ls : CStr) (req : cwist_http_request) :
    (parse_body ls req).path = req.path := by
  cases ls <;> rfl

theorem parse_body_version (ls : CStr) (req : cwist_http_request) :
    (parse_body ls req).version = req.version := by
  cases ls <;> rfl

/-! ## Serializer -/

theorem smartstring_append_dynamic (s : smartstring) (d : CStr) (h : s.is_fixed = false) :
    (smartstring_append s (some d)).2
      = { data := some (s.data.getD [] ++ d), is_fixed := false,
          size := (s.data.getD []).length + d.length } := by
  obtain ⟨data, f, sz⟩ := s
  simp only at h
  subst h
  cases data with
  | none => simp [smartstring_append, append_logic, current_len, strlen]
  | some x =>
    cases x with
    | nil => simp [smartstring_append, append_logic, current_len, strlen]
    | cons c x => simp [smartstring_append, append_logic, current_len, strlen]

theorem append_headers_dynamic : ∀ (hs : List cwist_http_header_node) (x : CStr),
    (∀ n ∈ hs, n.key.data ≠ none ∧ n.value.data ≠ none) →
    append_headers hs { data := some x, is_fixed := false, size := x.length }
      = { data := some (x ++ header_block hs), is_fixed := false,
          size := (x ++ header_block hs).length } := by
  intro hs
  induction hs with
  | nil => intro x _; simp [append_headers, header_block]
  | cons n hs ih =>
    intro x hp
    have hn := hp n (List.mem_cons_self _ _)
    obtain ⟨k, hk⟩ := Option.ne_none_iff_exists'.mp hn.1
    obtain ⟨v, hv⟩ := Option.ne_none_iff_exists'.mp hn.2
    have hrest : ∀ n' ∈ hs, n'.key.data ≠ none ∧ n'.value.data ≠ none :=
      fun n' hn' => hp n' (List.mem_cons_of_mem _ hn')
    simp only [append_headers, hk, hv, header_block, Option.getD_some]
    rw [smartstring_append_dynamic _ _ rfl, smartstring_append_dynamic _ _ rfl,
      smartstring_append_dynamic _ _ rfl, smartstring_append_dynamic _ _ rfl]
    simp only [Option.getD_some]
    have := ih (x ++ k ++ [':', ' '] ++ v ++ CRLF) hrest
    simp only [List.length_append, List.append_assoc] at this ⊢
    exact this

theorem send_response_block_of_short (send : Int → CStr → Int) (client_fd : Int)
    (res : cwist_http_response) (hfd : 0 ≤ client_fd)
    (hver : res.version.data ≠ none) (htxt : res.status_text.data ≠ none)
    (hhdr : ∀ n ∈ res.headers, n.key.data ≠ none ∧ n.value.data ≠ none)
    (hlen : (status_line_text res).length ≤ 255) :
    (cwist_http_send_response send client_fd (some res)).2 = some (response_text res) := by
  obtain ⟨ver, hver'⟩ := Option.ne_none_iff_exists'.mp hver
  obtain ⟨txt, htxt'⟩ := Option.ne_none_iff_exists'.mp htxt
  have hfd' : ¬ client_fd < 0 := by omega
  have hsl : status_line res = status_line_text res := by
    simp only [status_line, status_line_text, hver', htxt', Option.getD_some] at hlen ⊢
    exact List.take_of_length_le hlen
  have h1 : (smartstring_append smartstring_create (some (status_line_text res))).2
      = { data := some (status_line_text res), is_fixed := false,
          size := (status_line_text res).length } := by
    rw [smartstring_append_dynamic smartstring_create _ rfl]
    simp [smartstring_create]
  have h2 := append_headers_dynamic res.headers (status_line_text res) hhdr
  have h3 : ∀ x d : CStr,
      (smartstring_append { data := some x, is_fixed := false, size := x.length } (some d)).2
        = { data := some (x ++ d), is_fixed := false, size := (x ++ d).length } := by
    intro x d
    rw [smartstring_append_dynamic _ _ rfl]
    simp
  simp only [cwist_http_send_response, hfd', if_false, hsl, h1, h2, h3]
  cases hb : res.body.data with
  | none =>
    simp only [Option.getD_some, response_text, hb, Option.getD_none, List.append_nil,
      List.take_length]
  | some b =>
    simp only [h3, Option.getD_some, response_text, hb, List.take_length]

/-- C3: for every response whose version, status text and header keys and values hold content
and whose complete status line is at most 255 bytes long, the block that
`cwist_http_send_response` hands to the transport is the status line, then `key: value\r\n`
for each header head first (a header added by `cwist_http_header_add` comes before the older
ones), then `\r\n`, then the body.  Status 404 `Not Found` with header
`Content-Type: text/plain` and body `nope` gives
`HTTP/1.1 404 Not Found\r\nContent-Type: text/plain\r\n\r\nnope`. -/
theorem cwist_http_send_response_block (send : Int → CStr → Int) :
    (∀ (client_fd : Int) (res : cwist_http_response),
      0 ≤ client_fd → res.version.data ≠ none → res.status_text.data ≠ none →
      (∀ n ∈ res.headers, n.key.data ≠ none ∧ n.value.data ≠ none) →
      (status_line_text res).length ≤ 255 →
      (cwist_http_send_response send client_fd (some res)).2 = some (response_text res)) ∧
    (∀ (h : List cwist_http_header_node) (k v : CStr),
      header_block (cwist_http_header_add h (some k) (some v)).2
        = k ++ [':', ' '] ++ v ++ CRLF ++ header_block h) ∧
    (cwist_http_send_response send 3
      (some { cwist_http_response_create with
        status_code := 404,
        status_text := (smartstring_assign smartstring_create (some "Not Found".toList)).2,
        headers := (cwist_http_header_add [] (some "Content-Type".toList)
          (some "text/plain".toList)).2,
        body := (smartstring_assign smartstring_create (some "nope".toList)).2 })).2
      = some "HTTP/1.1 404 Not Found\r\nContent-Type: text/plain\r\n\r\nnope".toList := by
  refine ⟨fun fd res => send_response_block_of_short send fd res, ?_, ?_⟩
  · intro h k v
    simp [cwist_http_header_add, smartstring_assign, smartstring_create, header_block]
  · rw [send_response_block_of_short send 3 _ (by decide) (by decide) (by decide) (by decide)
      (by decide)]
    decide

theorem cwist_http_send_response_block_witness :
    (cwist_http_send_response (fun _ _ => 0) 3 (some cwist_http_response_create)).2
      = some (response_text cwist_http_response_create) :=
  (cwist_http_send_response_block (fun _ _ => 0)).1 3 cwist_http_response_create
    (by decide) (by decide) (by decide) (by decide) (by decide)

set_option maxRecDepth 100000 in
/-- With a status text of 300 bytes the block handed to the transport is not the complete
wire form: `snprintf` stores 255 bytes of the status line only. -/
theorem cwist_http_send_response_long_status_line :
    (cwist_http_send_response (fun _ _ => 0) 3 (some long_status_response)).2
      ≠ some (response_text long_status_response) := by
  decide


/-! ## Parser: a formatted request is read back -/

theorem strstr_crlf_first : ∀ (a b : CStr), '\r' ∉ a →
    strstr (a ++ '\r' :: '\n' :: b) CRLF = some a.length := by
  intro a
  induction a with
  | nil => intro b _; simp [strstr, CRLF, List.isPrefixOf]
  | cons c a ih =>
    intro b h
    have hc : ¬ ('\r' = c) := fun e => h (List.mem_cons.mpr (Or.inl e))
    have ha : '\r' ∉ a := fun e => h (List.mem_cons_of_mem _ e)
    have hp : CRLF.isPrefixOf (c :: (a ++ '\r' :: '\n' :: b)) = false := by
      simp [CRLF, List.isPrefixOf, hc]
    rw [List.cons_append]
    unfold strstr
    rw [if_neg (by rw [hp]; simp), ih b ha]
    rfl

theorem strchr_first : ∀ (k r : CStr) (ch : Char), ch ∉ k →
    strchr (k ++ ch :: r) ch = some k.length := by
  intro k
  induction k with
  | nil => intro r ch _; simp [strchr]
  | cons c k ih =>
    intro r ch h
    have hc : ¬ (c = ch) := fun e => h (List.mem_cons.mpr (Or.inl e.symm))
    have hk : ch ∉ k := fun e => h (List.mem_cons_of_mem _ e)
    simp [strchr, hc, ih r ch hk]

theorem take_length_append (a b : CStr) : (a ++ b).take a.length = a := by
  induction a with
  | nil => simp
  | cons c a ih => simp [ih]

theorem drop_length_append (a b : CStr) (n : Nat) :
    (a ++ b).drop (a.length + n) = b.drop n := by
  induction a with
  | nil => simp
  | cons c a ih =>
    simp only [List.cons_append, List.length_cons]
    have e : a.length + 1 + n = (a.length + n) + 1 := by omega
    rw [e, List.drop_succ_cons, ih]

theorem takeWhile_append_stop (p : Char → Bool) : ∀ (l r : CStr) (y : Char),
    (∀ x ∈ l, p x = true) → p y = false → (l ++ y :: r).takeWhile p = l := by
  intro l
  induction l with
  | nil => intro r y _ hy; simp [List.takeWhile_cons, hy]
  | cons c l ih =>
    intro r y hl hy
    have hc := hl c (List.mem_cons_self _ _)
    simp [List.takeWhile_cons, hc, ih r y (fun x hx => hl x (List.mem_cons_of_mem _ hx)) hy]

theorem dropWhile_append_stop (p : Char → Bool) : ∀ (l r : CStr) (y : Char),
    (∀ x ∈ l, p x = true) → p y = false → (l ++ y :: r).dropWhile p = y :: r := by
  intro l
  induction l with
  | nil => intro r y _ hy; simp [List.dropWhile_cons, hy]
  | cons c l ih =>
    intro r y hl hy
    have hc := hl c (List.mem_cons_self _ _)
    simp [List.dropWhile_cons, hc, ih r y (fun x hx => hl x (List.mem_cons_of_mem _ hx)) hy]

theorem takeWhile_all (p : Char → Bool) : ∀ (l : CStr),
    (∀ x ∈ l, p x = true) → l.takeWhile p = l ∧ l.dropWhile p = [] := by
  intro l
  induction l with
  | nil => intro _; simp
  | cons c l ih =>
    intro hl
    have hc := hl c (List.mem_cons_self _ _)
    have := ih (fun x hx => hl x (List.mem_cons_of_mem _ hx))
    simp [List.takeWhile_cons, List.dropWhile_cons, hc, this]

theorem not_delim_of_not_mem (tok : CStr) (h : ' ' ∉ tok) :
    ∀ x ∈ tok, (!([' '].contains x)) = true := by
  intro x hx
  have : x ≠ ' ' := fun e => h (e ▸ hx)
  simp [this]

theorem strtok_token_then_space (tok rest : CStr) (h0 : tok ≠ []) (h : ' ' ∉ tok) :
    strtok (tok ++ ' ' :: rest) [' '] = (some tok, rest) := by
  cases tok with
  | nil => exact absurd rfl h0
  | cons c t =>
    have hall := not_delim_of_not_mem (c :: t) h
    have hc : [' '].contains c = false := by
      have := hall c (List.mem_cons_self _ _)
      simpa using this
    have hsp : (!([' '].contains ' ')) = false := by decide
    have hne : c ≠ ' ' := fun e => h (e ▸ List.mem_cons_self _ _)
    have h1 : List.dropWhile (fun c => [' '].contains c) (c :: t ++ ' ' :: rest)
        = c :: t ++ ' ' :: rest := by
      simp [List.dropWhile_cons, hne]
    unfold strtok
    rw [h1]
    simp only [List.cons_append]
    have h2 := takeWhile_append_stop (fun x => !([' '].contains x)) (c :: t) rest ' ' hall hsp
    have h3 := dropWhile_append_stop (fun x => !([' '].contains x)) (c :: t) rest ' ' hall hsp
    simp only [List.cons_append] at h2 h3
    rw [h2, h3]
    rfl

theorem strtok_last_token (tok : CStr) (h0 : tok ≠ []) (h : ' ' ∉ tok) :
    strtok tok [' '] = (some tok, []) := by
  cases tok with
  | nil => exact absurd rfl h0
  | cons c t =>
    have hall := not_delim_of_not_mem (c :: t) h
    have hc : [' '].contains c = false := by
      have := hall c (List.mem_cons_self _ _)
      simpa using this
    have hne : c ≠ ' ' := fun e => h (e ▸ List.mem_cons_self _ _)
    have h1 : List.dropWhile (fun c => [' '].contains c) (c :: t) = c :: t := by
      simp [List.dropWhile_cons, hne]
    unfold strtok
    rw [h1]
    have h2 := takeWhile_all (fun x => !([' '].contains x)) (c :: t) hall
    simp only [h2.1, h2.2]
    rfl

theorem parse_header_line_formatted (kv : CStr × CStr)
    (headers : List cwist_http_header_node)
    (hk : ':' ∉ kv.1) (hv : kv.2.head? ≠ some ' ') :
    parse_header_line (kv.1 ++ [':', ' '] ++ kv.2) headers = header_node kv :: headers := by
  obtain ⟨k, v⟩ := kv
  simp only at hk hv
  have e : k ++ [':', ' '] ++ v = k ++ ':' :: (' ' :: v) := by simp
  have hdrop : List.dropWhile (fun c => decide (c = ' ')) (' ' :: v) = v := by
    cases v with
    | nil => simp [List.dropWhile_cons]
    | cons c v =>
      have hc : ¬ (c = ' ') := fun e => hv (by simp [e])
      simp [List.dropWhile_cons, hc]
  unfold parse_header_line
  rw [e, strchr_first k _ ':' hk]
  simp only [take_length_append, drop_length_append, List.drop_succ_cons, List.drop_zero, hdrop]
  simp [cwist_http_header_add, smartstring_assign, smartstring_create, header_node]

theorem parse_headers_formatted : ∀ (hs : List (CStr × CStr)) (fuel : Nat) (b : CStr)
    (acc : List cwist_http_header_node),
    (∀ kv ∈ hs, ':' ∉ kv.1 ∧ '\r' ∉ kv.1 ∧ '\r' ∉ kv.2 ∧ kv.2.head? ≠ some ' ') →
    hs.length < fuel →
    parse_headers fuel (format_headers hs ++ CRLF ++ b) acc
      = some ((hs.map header_node).reverse ++ acc, b) := by
  intro hs
  induction hs with
  | nil =>
    intro fuel b acc _ hf
    obtain ⟨f, rfl⟩ : ∃ f, fuel = f + 1 := ⟨fuel - 1, by simp at hf; omega⟩
    have h0 := strstr_crlf_first [] b (by simp)
    simp only [List.nil_append, List.length_nil] at h0
    have e : format_headers [] ++ CRLF ++ b = '\r' :: '\n' :: b := rfl
    unfold parse_headers
    rw [e, h0]
    simp
  | cons kv hs ih =>
    intro fuel b acc hh hf
    obtain ⟨f, rfl⟩ : ∃ f, fuel = f + 1 := ⟨fuel - 1, by simp at hf; omega⟩
    have hkv := hh kv (List.mem_cons_self _ _)
    have hrest : ∀ kv' ∈ hs, ':' ∉ kv'.1 ∧ '\r' ∉ kv'.1 ∧ '\r' ∉ kv'.2 ∧ kv'.2.head? ≠ some ' ' :=
      fun kv' h' => hh kv' (List.mem_cons_of_mem _ h')
    have hline : '\r' ∉ kv.1 ++ [':', ' '] ++ kv.2 := by
      simp only [List.mem_append, List.mem_cons, List.mem_singleton, not_or]
      refine ⟨⟨hkv.2.1, ?_⟩, hkv.2.2.1⟩
      simp
    have e : format_headers (kv :: hs) ++ CRLF ++ b
        = (kv.1 ++ [':', ' '] ++ kv.2) ++ '\r' :: '\n' :: (format_headers hs ++ CRLF ++ b) := by
      simp [format_headers, CRLF]
    have hlen : (kv.1 ++ [':', ' '] ++ kv.2).length ≠ 0 := by simp
    rw [e]
    unfold parse_headers
    rw [strstr_crlf_first _ _ hline]
    simp only [hlen, if_false, take_length_append, drop_length_append, List.drop_succ_cons,
      List.drop_zero]
    rw [parse_header_line_formatted kv acc hkv.1 hkv.2.2.2,
      ih f b (header_node kv :: acc) hrest (by simp at hf; omega)]
    simp

theorem format_headers_length (hs : List (CStr × CStr)) :
    hs.length ≤ (format_headers hs).length := by
  induction hs with
  | nil => simp
  | cons kv hs ih =>
    simp only [format_headers, List.length_cons, List.length_append]
    omega

theorem parse_request_formatted (m p v : CStr) (hs : List (CStr × CStr)) (b : CStr)
    (hm : m ≠ [] ∧ ' ' ∉ m ∧ '\r' ∉ m) (hp : p ≠ [] ∧ ' ' ∉ p ∧ '\r' ∉ p)
    (hv : v ≠ [] ∧ ' ' ∉ v ∧ '\r' ∉ v)
    (hh : ∀ kv ∈ hs, ':' ∉ kv.1 ∧ '\r' ∉ kv.1 ∧ '\r' ∉ kv.2 ∧ kv.2.head? ≠ some ' ') :
    cwist_http_parse_request (some (format_request m p v hs b))
      = some (parse_body b
          { method := cwist_http_string_to_method m,
            path := { data := some p, is_fixed := false, size := strlen p },
            query := smartstring_create,
            version := { data := some v, is_fixed := false, size := strlen v },
            headers := (hs.map header_node).reverse,
            body := smartstring_create }) := by
  have e : format_request m p v hs b
      = (m ++ ' ' :: (p ++ ' ' :: v)) ++ '\r' :: '\n' :: (format_headers hs ++ CRLF ++ b) := by
    simp [format_request, CRLF]
  have hL : '\r' ∉ m ++ ' ' :: (p ++ ' ' :: v) := by
    simp only [List.mem_append, List.mem_cons, not_or]
    exact ⟨hm.2.2, by decide, hp.2.2, by decide, hv.2.2⟩
  have hfuel : hs.length < strlen (format_request m p v hs b) + 1 := by
    have := format_headers_length hs
    rw [e]
    simp only [strlen, List.length_append, List.length_cons]
    omega
  have hline : parse_request_line (m ++ ' ' :: (p ++ ' ' :: v)) cwist_http_request_create
      = { method := cwist_http_string_to_method m,
          path := { data := some p, is_fixed := false, size := strlen p },
          query := smartstring_create,
          version := { data := some v, is_fixed := false, size := strlen v },
          headers := [],
          body := smartstring_create } := by
    simp only [parse_request_line, strtok_token_then_space m _ hm.1 hm.2.1,
      strtok_token_then_space p _ hp.1 hp.2.1, strtok_last_token v hv.1 hv.2.1]
    simp [cwist_http_request_create, smartstring_assign, smartstring_create]
  have hhead := parse_headers_formatted hs (strlen (format_request m p v hs b) + 1) b [] hh hfuel
  rw [e] at hhead
  simp only [cwist_http_parse_request]
  rw [e, strstr_crlf_first _ _ hL]
  simp only [take_length_append, drop_length_append, List.drop_succ_cons, List.drop_zero, hline,
    hhead, List.append_nil]

/-- C1: parsing undoes formatting.  For a method token `m`, a path `p` and a version `v` that
are non-empty and free of space, CR and LF, headers `(k, v)` whose keys hold no colon, CR or
LF and whose values hold no CR or LF and do not start with a space, and any body `b`: the
parser applied to `m SP p SP v CRLF`, the lines `k: v CRLF`, `CRLF` and `b` returns a request
with method `cwist_http_string_to_method m`, path `p`, version `v`, one header node per pair
(the list, head first, is the input order reversed), an empty query and the body `b` (no body
content when `b` is empty). -/
theorem cwist_http_parse_request_format (m p v : CStr) (hs : List (CStr × CStr)) (b : CStr)
    (hm : m ≠ [] ∧ ' ' ∉ m ∧ '\r' ∉ m ∧ '\n' ∉ m)
    (hp : p ≠ [] ∧ ' ' ∉ p ∧ '\r' ∉ p ∧ '\n' ∉ p)
    (hv : v ≠ [] ∧ ' ' ∉ v ∧ '\r' ∉ v ∧ '\n' ∉ v)
    (hh : ∀ kv ∈ hs, (':' ∉ kv.1 ∧ '\r' ∉ kv.1 ∧ '\n' ∉ kv.1) ∧
      ('\r' ∉ kv.2 ∧ '\n' ∉ kv.2 ∧ kv.2.head? ≠ some ' ')) :
    ∃ req, cwist_http_parse_request (some (format_request m p v hs b)) = some req ∧
      req.method = cwist_http_string_to_method m ∧
      req.path.data = some p ∧
      req.version.data = some v ∧
      req.headers = (hs.map header_node).reverse ∧
      (∀ kv ∈ hs, ∃ n ∈ req.headers, n.key.data = some kv.1 ∧ n.value.data = some kv.2) ∧
      req.query = smartstring_create ∧
      req.body.data.getD [] = b ∧
      (b = [] → req.body = smartstring_create) := by
  have hres := parse_request_formatted m p v hs b ⟨hm.1, hm.2.1, hm.2.2.1⟩
    ⟨hp.1, hp.2.1, hp.2.2.1⟩ ⟨hv.1, hv.2.1, hv.2.2.1⟩
    (fun kv hkv => ⟨(hh kv hkv).1.1, (hh kv hkv).1.2.1, (hh kv hkv).2.1, (hh kv hkv).2.2.2⟩)
  have hmem : ∀ kv ∈ hs, ∃ n ∈ (hs.map header_node).reverse,
      n.key.data = some kv.1 ∧ n.value.data = some kv.2 := by
    intro kv hkv
    refine ⟨header_node kv, ?_, rfl, rfl⟩
    rw [List.mem_reverse]
    exact List.mem_map_of_mem header_node hkv
  refine ⟨_, hres, ?_⟩
  cases b with
  | nil => exact ⟨rfl, rfl, rfl, rfl, hmem, rfl, rfl, fun _ => rfl⟩
  | cons c b =>
    refine ⟨rfl, rfl, rfl, rfl, hmem, rfl, ?_, fun h => absurd h (by simp)⟩
    simp [parse_body, smartstring_assign, smartstring_create]

theorem cwist_http_parse_request_format_witness :
    ∃ req, cwist_http_parse_request (some (format_request "GET".toList "/x".toList
        "HTTP/1.1".toList [("Host".toList, "h".toList)] [])) = some req ∧
      req.method = cwist_http_string_to_method "GET".toList ∧
      req.path.data = some "/x".toList ∧
      req.version.data = some "HTTP/1.1".toList ∧
      req.headers = ([("Host".toList, "h".toList)].map header_node).reverse ∧
      (∀ kv ∈ [("Host".toList, "h".toList)],
        ∃ n ∈ req.headers, n.key.data = some kv.1 ∧ n.value.data = some kv.2) ∧
      req.query = smartstring_create ∧
      req.body.data.getD [] = [] ∧
      (([] : CStr) = [] → req.body = smartstring_create) :=
  cwist_http_parse_request_format "GET".toList "/x".toList "HTTP/1.1".toList
    [("Host".toList, "h".toList)] [] (by decide) (by decide) (by decide) (by decide)


/-! ## smartstring: trim, seek, compare, fixed mode -/

theorem isspace_space : isspace ' ' = true := by decide

theorem rtrim_test_of_space (data : CStr) (e : Nat) (h : e < data.length)
    (hs : isspace data[e] = true) : rtrim_test data data.length e = true := by
  simp [rtrim_test, h, List.getElem?_eq_getElem h, hs]

theorem rtrim_test_of_not_space (data : CStr) (e : Nat) (h : e < data.length)
    (hs : isspace data[e] = false) : rtrim_test data data.length e = false := by
  simp [rtrim_test, List.getElem?_eq_getElem h, hs]

theorem rtrim_loop_stop (data : CStr) (len e : Nat) (h : rtrim_test data len e = false) :
    rtrim_loop data len e = e := by
  cases e <;> simp [rtrim_loop, h]

/-- On a text of whitespace only the loop of `smartstring_rtrim` runs down to index 0 and wraps. -/
theorem rtrim_loop_all_space (data : CStr) (hall : ∀ x ∈ data, isspace x = true) :
    ∀ e, e < data.length → rtrim_loop data data.length e = SIZE_MAX := by
  intro e
  induction e with
  | zero =>
    intro h
    have := rtrim_test_of_space data 0 h (hall _ (List.getElem_mem _))
    simp [rtrim_loop, this]
  | succ e ih =>
    intro h
    have := rtrim_test_of_space data (e + 1) h (hall _ (List.getElem_mem _))
    simp only [rtrim_loop, this, if_true]
    exact ih (by omega)

theorem smartstring_rtrim_all_space (c : CStr) (f : Bool) (sz : Nat) (h0 : c ≠ [])
    (hall : ∀ x ∈ c, isspace x = true) :
    smartstring_rtrim ⟨some c, f, sz⟩
      = (.err_i8 .ERR_SMARTSTRING_OKAY, ⟨some [], f, sz⟩) := by
  have hlen : strlen c ≠ 0 := by
    simpa [strlen] using h0
  have hpos : c.length - 1 < c.length := by
    have : c.length ≠ 0 := hlen
    omega
  have hloop := rtrim_loop_all_space c hall (c.length - 1) hpos
  simp only [smartstring_rtrim, hlen, if_false]
  simp only [strlen, hloop]
  simp [size_t_add, SIZE_MAX]

theorem ltrim_loop_eq_zero (c : CStr) (h : ∀ x, c.head? = some x → isspace x = false) :
    ltrim_loop c = 0 := by
  cases c with
  | nil => rfl
  | cons a c =>
    have := h a rfl
    simp [ltrim_loop, this]

/-- C13: `smartstring_trim` on a buffer whose content is non-empty and consists only of
whitespace does not fail: the trailing-trim phase empties the content and returns
`ERR_SMARTSTRING_OKAY`, so the leading-trim phase is run, on the empty text, where it changes
nothing; the call returns `ERR_SMARTSTRING_OKAY` and the content is the empty text. -/
theorem smartstring_trim_all_space (b : smartstring) (c : CStr) (hc : b.data = some c)
    (h0 : c ≠ []) (hall : ∀ x ∈ c, isspace x = true) :
    (smartstring_rtrim b).1 = .err_i8 .ERR_SMARTSTRING_OKAY ∧
    (smartstring_rtrim b).2.data = some [] ∧
    smartstring_trim b = smartstring_ltrim (smartstring_rtrim b).2 ∧
    (smartstring_ltrim (smartstring_rtrim b).2).2 = (smartstring_rtrim b).2 ∧
    (smartstring_trim b).1 = .err_i8 .ERR_SMARTSTRING_OKAY ∧
    (smartstring_trim b).2.data = some [] := by
  obtain ⟨d, f, sz⟩ := b
  simp only at hc
  subst hc
  have hr := smartstring_rtrim_all_space c f sz h0 hall
  have ht : smartstring_trim ⟨some c, f, sz⟩
      = (.err_i8 .ERR_SMARTSTRING_OKAY, ⟨some [], f, sz⟩) := by
    simp [smartstring_trim, hr, smartstring_ltrim, ltrim_loop]
  refine ⟨by rw [hr], by rw [hr], ?_, ?_, by rw [ht], by rw [ht]⟩
  · simp [smartstring_trim, hr]
  · rw [hr]
    simp [smartstring_ltrim, ltrim_loop]

theorem smartstring_trim_all_space_witness :
    (smartstring_trim ⟨some [' ', '\t', ' '], false, 3⟩).1 = .err_i8 .ERR_SMARTSTRING_OKAY ∧
    (smartstring_trim ⟨some [' ', '\t', ' '], false, 3⟩).2.data = some [] :=
  (smartstring_trim_all_space ⟨some [' ', '\t', ' '], false, 3⟩ [' ', '\t', ' '] rfl
    (by decide) (by decide)).2.2.2.2

/-- On the whitespace-only text of three spaces `smartstring_trim` does not return
`ERR_SMARTSTRING_ZERO_LENGTH`. -/
theorem smartstring_trim_all_space_not_empty_error :
    (smartstring_trim ⟨some [' ', ' ', ' '], false, 3⟩).1
      ≠ .err_i8 .ERR_SMARTSTRING_ZERO_LENGTH := by
  decide

/-- C14: `smartstring_trim` returns `ERR_SMARTSTRING_ZERO_LENGTH` on a buffer that holds the
zero-length text and `ERR_SMARTSTRING_NULL_STRING` on a buffer without content, and in both
cases the buffer is left as it was. -/
theorem smartstring_trim_empty_or_null (f : Bool) (sz : Nat) :
    smartstring_trim ⟨some [], f, sz⟩
      = (.err_i8 .ERR_SMARTSTRING_ZERO_LENGTH, ⟨some [], f, sz⟩) ∧
    smartstring_trim ⟨none, f, sz⟩ = (.err_i8 .ERR_SMARTSTRING_NULL_STRING, ⟨none, f, sz⟩) := by
  constructor <;> simp [smartstring_trim, smartstring_rtrim, strlen]

/-- C12: after `smartstring_assign` of the text `a` followed by one space (length field 2,
equal to the text length) `smartstring_trim` succeeds and leaves the text `a` of length 1,
while the length field is still 2: only the leading-trim phase adjusts the length field. -/
theorem smartstring_trim_trailing_keeps_size :
    (smartstring_assign smartstring_create (some ['a', ' '])).2 = ⟨some ['a', ' '], false, 2⟩ ∧
    smartstring_trim (smartstring_assign smartstring_create (some ['a', ' '])).2
      = (.err_i8 .ERR_SMARTSTRING_OKAY, ⟨some ['a'], false, 2⟩) ∧
    smartstring_trim ⟨some "   hello world   ".toList, false, 17⟩
      = (.err_i8 .ERR_SMARTSTRING_OKAY, ⟨some "hello world".toList, false, 14⟩) := by
  decide

/-- C15: `smartstring_seek` on a buffer with content `c` of length `n`, a destination and an
`int` index `start`: for `0 <= start < n` it succeeds and the destination then holds the tail
of `c` from `start` (`abcdef` at 2 gives `cdef`); for `start < 0` or `start >= n` it returns
`ERR_SMARTSTRING_OUTOFBOUND` and the destination is as before.  (The buffer is only read.) -/
theorem smartstring_seek_spec (b : smartstring) (c dst : CStr) (start : Int)
    (hc : b.data = some c) (hs : is_int start) :
    (0 ≤ start ∧ start < c.length →
      smartstring_seek b (some dst) start
        = (.err_i8 .ERR_SMARTSTRING_OKAY, some (c.drop start.toNat))) ∧
    (start < 0 ∨ (c.length : Int) ≤ start →
      smartstring_seek b (some dst) start = (.err_i8 .ERR_SMARTSTRING_OUTOFBOUND, some dst)) ∧
    smartstring_seek ⟨some "abcdef".toList, false, 6⟩ (some dst) 2
      = (.err_i8 .ERR_SMARTSTRING_OKAY, some "cdef".toList) := by
  unfold is_int at hs
  refine ⟨?_, ?_, ?_⟩
  · rintro ⟨h0, h1⟩
    have e1 : to_size_t start = start.toNat := to_size_t_of_nonneg _ h0 hs.2
    have h2 : ¬ (start < 0 ∨ start.toNat ≥ strlen c) := by unfold strlen; omega
    simp [smartstring_seek, hc, e1, h2]
  · intro h
    by_cases hneg : start < 0
    · simp [smartstring_seek, hc, hneg]
    · have e1 : to_size_t start = start.toNat := to_size_t_of_nonneg _ (by omega) hs.2
      have h2 : start.toNat ≥ strlen c := by unfold strlen; omega
      simp [smartstring_seek, hc, e1, h2]
  · have e1 : to_size_t 2 = 2 := by decide
    simp [smartstring_seek, e1, strlen]

theorem smartstring_seek_spec_witness :
    smartstring_seek ⟨some ['a', 'b', 'c'], false, 3⟩ (some ['x']) 7
      = (.err_i8 .ERR_SMARTSTRING_OUTOFBOUND, some ['x']) :=
  (smartstring_seek_spec ⟨some ['a', 'b', 'c'], false, 3⟩ ['a', 'b', 'c'] ['x'] 7 rfl
    (by decide)).2.1 (by decide)


/-! ### Trimming a text that holds a non-whitespace byte -/

theorem rtrim_test_eq (data : CStr) (len e : Nat) (c : Char) (h : data[e]? = some c) :
    rtrim_test data len e = (decide (e < len) && isspace c) := by
  simp [rtrim_test, h]

/-- From any index inside the trailing whitespace the loop of `smartstring_rtrim` runs down to
the last non-whitespace character. -/
theorem rtrim_loop_trailing (r0 post : CStr) (z : Char) (hz : isspace z = false)
    (hpost : ∀ x ∈ post, isspace x = true) :
    ∀ k, k ≤ post.length →
      rtrim_loop (r0 ++ z :: post) (r0 ++ z :: post).length (r0.length + k) = r0.length := by
  intro k
  induction k with
  | zero =>
    intro _
    have hget : (r0 ++ z :: post)[r0.length]? = some z := by
      rw [List.getElem?_append_right (Nat.le_refl _)]
      simp
    rw [Nat.add_zero]
    apply rtrim_loop_stop
    rw [rtrim_test_eq _ _ _ z hget, hz]
    simp
  | succ k ih =>
    intro hk
    have hk' : k < post.length := by omega
    have hle : r0.length ≤ r0.length + (k + 1) := by omega
    have hget : (r0 ++ z :: post)[r0.length + (k + 1)]? = some (post.get ⟨k, hk'⟩) := by
      rw [List.getElem?_append_right hle]
      have e : r0.length + (k + 1) - r0.length = k + 1 := by omega
      rw [e, List.getElem?_cons_succ, List.getElem?_eq_getElem hk']
      rfl
    have hsp : isspace (post.get ⟨k, hk'⟩) = true := hpost _ (List.get_mem _ _ _)
    have hlt : r0.length + (k + 1) < (r0 ++ z :: post).length := by
      simp only [List.length_append, List.length_cons]; omega
    have htest : rtrim_test (r0 ++ z :: post) (r0 ++ z :: post).length (r0.length + (k + 1))
        = true := by
      rw [rtrim_test_eq _ _ _ _ hget, hsp, decide_eq_true hlt]
      rfl
    have e : r0.length + (k + 1) = (r0.length + k) + 1 := by omega
    rw [e]
    rw [e] at htest
    simp only [rtrim_loop, htest, if_true]
    exact ih (by omega)

theorem smartstring_rtrim_trailing (r0 post : CStr) (z : Char) (f : Bool) (sz : Nat)
    (hz : isspace z = false) (hpost : ∀ x ∈ post, isspace x = true)
    (hlen : (r0 ++ z :: post).length < 2 ^ 64) :
    smartstring_rtrim ⟨some (r0 ++ z :: post), f, sz⟩
      = (.err_i8 .ERR_SMARTSTRING_OKAY, ⟨some (r0 ++ [z]), f, sz⟩) := by
  have hne : strlen (r0 ++ z :: post) ≠ 0 := by simp [strlen]
  have hidx : (r0 ++ z :: post).length - 1 = r0.length + post.length := by
    simp only [List.length_append, List.length_cons]; omega
  have hloop := rtrim_loop_trailing r0 post z hz hpost post.length (Nat.le_refl _)
  rw [← hidx] at hloop
  have hadd : size_t_add r0.length 1 = r0.length + 1 := by
    simp only [List.length_append, List.length_cons] at hlen
    unfold size_t_add
    omega
  simp only [smartstring_rtrim, hne, if_false]
  simp only [strlen, hloop, hadd]
  have htake : List.take (r0.length + 1) (r0 ++ z :: post) = r0 ++ [z] := by
    have e : r0 ++ z :: post = (r0 ++ [z]) ++ post := by simp
    rw [e]
    have e2 : r0.length + 1 = (r0 ++ [z]).length := by simp
    rw [e2, take_length_append]
  rw [htake]

theorem ltrim_loop_leading (pre rest : CStr) (a : Char) (ha : isspace a = false)
    (hpre : ∀ x ∈ pre, isspace x = true) : ltrim_loop (pre ++ a :: rest) = pre.length := by
  induction pre with
  | nil => simp [ltrim_loop, ha]
  | cons p pre ih =>
    have hp := hpre p (List.mem_cons_self _ _)
    simp [ltrim_loop, hp, ih (fun x hx => hpre x (List.mem_cons_of_mem _ hx))]

theorem smartstring_ltrim_leading (pre rest : CStr) (a : Char) (f : Bool) (sz : Nat)
    (ha : isspace a = false) (hpre : ∀ x ∈ pre, isspace x = true) :
    (smartstring_ltrim ⟨some (pre ++ a :: rest), f, sz⟩).1 = .err_i8 .ERR_SMARTSTRING_OKAY ∧
    (smartstring_ltrim ⟨some (pre ++ a :: rest), f, sz⟩).2.data = some (a :: rest) ∧
    (smartstring_ltrim ⟨some (pre ++ a :: rest), f, sz⟩).2.is_fixed = f ∧
    (smartstring_ltrim ⟨some (pre ++ a :: rest), f, sz⟩).2.size
      = if pre = [] then sz else size_t_sub sz pre.length := by
  have hstart := ltrim_loop_leading pre rest a ha hpre
  cases pre with
  | nil =>
    simp only [List.nil_append, List.length_nil] at hstart
    simp [smartstring_ltrim, hstart]
  | cons p pre =>
    have hpos : (p :: pre).length > 0 := by simp
    have hdrop : List.drop (p :: pre).length (p :: pre ++ a :: rest) = a :: rest := by
      simp
    simp only [smartstring_ltrim, hstart, hpos, if_true, hdrop]
    simp


theorem dropWhile_head_not (p : Char → Bool) : ∀ (l : CStr) (x : Char),
    (l.dropWhile p).head? = some x → p x = false := by
  intro l
  induction l with
  | nil => intro x h; simp at h
  | cons a l ih =>
    intro x h
    by_cases ha : p a = true
    · rw [List.dropWhile_cons, if_pos ha] at h
      exact ih x h
    · rw [List.dropWhile_cons, if_neg ha] at h
      simp only [List.head?_cons, Option.some.injEq] at h
      subst h
      simpa using ha

theorem dropWhile_ne_nil (p : Char → Bool) : ∀ (l : CStr),
    (∃ x ∈ l, p x = false) → l.dropWhile p ≠ [] := by
  intro l
  induction l with
  | nil => rintro ⟨x, hx, _⟩; simp at hx
  | cons a l ih =>
    rintro ⟨x, hx, hpx⟩
    by_cases ha : p a = true
    · rw [List.dropWhile_cons, if_pos ha]
      rcases List.mem_cons.mp hx with rfl | hxl
      · rw [ha] at hpx; exact absurd hpx (by simp)
      · exact ih ⟨x, hxl, hpx⟩
    · rw [List.dropWhile_cons, if_neg ha]
      simp

/-- A text that holds a non-whitespace character is leading whitespace, a core that starts and
ends with a non-whitespace character, and trailing whitespace. -/
theorem exists_trim_split (c : CStr) (hx : ∃ x ∈ c, isspace x = false) :
    ∃ (pre r0 post : CStr) (a z : Char) (rest : CStr),
      c = pre ++ (r0 ++ z :: post) ∧ r0 ++ [z] = a :: rest ∧
      (∀ x ∈ pre, isspace x = true) ∧ (∀ x ∈ post, isspace x = true) ∧
      isspace a = false ∧ isspace z = false := by
  -- leading part
  have hc : c.takeWhile isspace ++ c.dropWhile isspace = c := List.takeWhile_append_dropWhile _ _
  have hc1 : c.dropWhile isspace ≠ [] := dropWhile_ne_nil isspace c hx
  obtain ⟨a, rest1, hrest1⟩ := List.exists_cons_of_ne_nil hc1
  have ha : isspace a = false := dropWhile_head_not isspace c a (by rw [hrest1]; rfl)
  -- trailing part of a :: rest1
  have hrev : (a :: rest1).reverse.takeWhile isspace ++ (a :: rest1).reverse.dropWhile isspace
      = (a :: rest1).reverse := List.takeWhile_append_dropWhile _ _
  have hr1 : (a :: rest1).reverse.dropWhile isspace ≠ [] :=
    dropWhile_ne_nil isspace _ ⟨a, by simp, ha⟩
  obtain ⟨z, r0rev, hz0⟩ := List.exists_cons_of_ne_nil hr1
  have hz : isspace z = false := dropWhile_head_not isspace _ z (by rw [hz0]; rfl)
  have hsplit : a :: rest1
      = r0rev.reverse ++ z :: ((a :: rest1).reverse.takeWhile isspace).reverse := by
    have := congrArg List.reverse hrev
    rw [List.reverse_append, List.reverse_reverse, hz0, List.reverse_cons,
      List.append_assoc] at this
    exact this.symm
  have hpost : ∀ x ∈ ((a :: rest1).reverse.takeWhile isspace).reverse, isspace x = true := by
    intro x hxm
    exact List.mem_takeWhile_imp (List.mem_reverse.mp hxm)
  -- the core starts with a
  have hcore : ∃ rest, r0rev.reverse ++ [z] = a :: rest := by
    cases hr : r0rev.reverse with
    | nil =>
      rw [hr] at hsplit
      simp only [List.nil_append, List.cons.injEq] at hsplit
      exact ⟨[], by rw [hsplit.1]; rfl⟩
    | cons a' t =>
      rw [hr] at hsplit
      simp only [List.cons_append, List.cons.injEq] at hsplit
      exact ⟨t ++ [z], by rw [hsplit.1]; rfl⟩
  obtain ⟨rest, hrest⟩ := hcore
  refine ⟨c.takeWhile isspace, r0rev.reverse,
    ((a :: rest1).reverse.takeWhile isspace).reverse, a, z, rest, ?_, hrest, ?_, hpost, ha, hz⟩
  · rw [← hsplit, ← hrest1, hc]
  · intro x hxm
    exact List.mem_takeWhile_imp hxm

theorem smartstring_trim_split (pre r0 post rest : CStr) (a z : Char) (f : Bool) (sz : Nat)
    (hcore : r0 ++ [z] = a :: rest)
    (hpre : ∀ x ∈ pre, isspace x = true) (hpost : ∀ x ∈ post, isspace x = true)
    (ha : isspace a = false) (hz : isspace z = false)
    (hlen : (pre ++ (r0 ++ z :: post)).length < 2 ^ 64) :
    (smartstring_trim ⟨some (pre ++ (r0 ++ z :: post)), f, sz⟩).1
      = .err_i8 .ERR_SMARTSTRING_OKAY ∧
    (smartstring_trim ⟨some (pre ++ (r0 ++ z :: post)), f, sz⟩).2.data = some (r0 ++ [z]) ∧
    (smartstring_trim ⟨some (pre ++ (r0 ++ z :: post)), f, sz⟩).2.is_fixed = f ∧
    (smartstring_trim ⟨some (pre ++ (r0 ++ z :: post)), f, sz⟩).2.size
      = if pre = [] then sz else size_t_sub sz pre.length := by
  have e : pre ++ (r0 ++ z :: post) = (pre ++ r0) ++ z :: post := by simp
  have hr : smartstring_rtrim ⟨some (pre ++ (r0 ++ z :: post)), f, sz⟩
      = (.err_i8 .ERR_SMARTSTRING_OKAY, ⟨some (pre ++ a :: rest), f, sz⟩) := by
    rw [e, smartstring_rtrim_trailing (pre ++ r0) post z f sz hz hpost (by rw [← e]; exact hlen)]
    rw [List.append_assoc, hcore]
  have hl := smartstring_ltrim_leading pre rest a f sz ha hpre
  simp only [smartstring_trim, hr, ne_eq, not_true_eq_false, if_false]
  rw [hcore]
  exact hl

/-- C11: for every buffer whose content `c` holds at least one non-whitespace byte (and is
shorter than `2 ^ 64` bytes, as every text in memory), `smartstring_trim` succeeds and leaves
the content `r` where `c` is `pre ++ r ++ post`, `pre` and `post` are whitespace only and `r`
starts and ends with a non-whitespace byte: the leading and trailing whitespace is removed
and the bytes between are untouched.  The text `   hello world   ` becomes `hello world`. -/
theorem smartstring_trim_content (b : smartstring) (c : CStr) (hc : b.data = some c)
    (hx : ∃ x ∈ c, isspace x = false) (hlen : c.length < 2 ^ 64) :
    (∃ pre r post : CStr, c = pre ++ r ++ post ∧
      (∀ x ∈ pre, isspace x = true) ∧ (∀ x ∈ post, isspace x = true) ∧
      r ≠ [] ∧ (∀ x, r.head? = some x → isspace x = false) ∧
      (∀ x, r.getLast? = some x → isspace x = false) ∧
      (smartstring_trim b).1 = .err_i8 .ERR_SMARTSTRING_OKAY ∧
      (smartstring_trim b).2.data = some r ∧
      (smartstring_trim b).2.is_fixed = b.is_fixed) ∧
    (smartstring_trim ⟨some "   hello world   ".toList, false, 17⟩).2.data
      = some "hello world".toList := by
  refine ⟨?_, by decide⟩
  obtain ⟨d, f, sz⟩ := b
  simp only at hc
  subst hc
  obtain ⟨pre, r0, post, a, z, rest, hsplit, hcore, hpre, hpost, ha, hz⟩ :=
    exists_trim_split c hx
  subst hsplit
  have ht := smartstring_trim_split pre r0 post rest a z f sz hcore hpre hpost ha hz hlen
  refine ⟨pre, r0 ++ [z], post, by simp, hpre, hpost, by simp, ?_, ?_, ht.1, ht.2.1, ht.2.2.1⟩
  · intro x hxh
    rw [hcore] at hxh
    simp only [List.head?_cons, Option.some.injEq] at hxh
    rw [← hxh]; exact ha
  · intro x hxl
    rw [List.getLast?_concat] at hxl
    rw [← Option.some.inj hxl]; exact hz

theorem smartstring_trim_content_witness :
    ∃ pre r post : CStr, [' ', 'a', 'b', '\t'] = pre ++ r ++ post ∧
      (∀ x ∈ pre, isspace x = true) ∧ (∀ x ∈ post, isspace x = true) ∧
      r ≠ [] ∧ (∀ x, r.head? = some x → isspace x = false) ∧
      (∀ x, r.getLast? = some x → isspace x = false) ∧
      (smartstring_trim ⟨some [' ', 'a', 'b', '\t'], true, 4⟩).1
        = .err_i8 .ERR_SMARTSTRING_OKAY ∧
      (smartstring_trim ⟨some [' ', 'a', 'b', '\t'], true, 4⟩).2.data = some r ∧
      (smartstring_trim ⟨some [' ', 'a', 'b', '\t'], true, 4⟩).2.is_fixed = true :=
  (smartstring_trim_content ⟨some [' ', 'a', 'b', '\t'], true, 4⟩ [' ', 'a', 'b', '\t'] rfl
    ⟨'a', by decide, by decide⟩ (by decide)).1


/-! ### Comparison -/

theorem strcmp_neg_iff : ∀ (s t : CStr), strcmp s t < 0 ↔ List.Lex (· < ·) s t := by
  intro s
  induction s with
  | nil =>
    intro t
    cases t with
    | nil =>
      simp only [strcmp, lt_self_iff_false, false_iff]
      intro h; cases h
    | cons b t =>
      simp only [strcmp, Int.reduceNeg, Int.reduceLT, true_iff]
      exact List.Lex.nil
  | cons a s ih =>
    intro t
    cases t with
    | nil =>
      simp only [strcmp, Int.reduceLT, false_iff]
      intro h; cases h
    | cons b t =>
      by_cases hab : a = b
      · subst hab
        simp only [strcmp, if_true, ih t]
        constructor
        · intro h
          exact List.Lex.cons h
        · intro h
          cases h with
          | cons h3 => exact h3
          | rel h1 => exact absurd h1 (lt_irrefl a)
      · by_cases hlt : a < b
        · simp only [strcmp, hab, if_false, hlt, if_true, Int.reduceNeg, Int.reduceLT, true_iff]
          exact List.Lex.rel hlt
        · simp only [strcmp, hab, if_false, hlt, Int.reduceLT, false_iff]
          intro h
          cases h with
          | cons _ => exact hab rfl
          | rel h1 => exact hlt h1

theorem strcmp_pos_iff : ∀ (s t : CStr), 0 < strcmp s t ↔ List.Lex (· < ·) t s := by
  intro s
  induction s with
  | nil =>
    intro t
    cases t with
    | nil =>
      simp only [strcmp, lt_self_iff_false, false_iff]
      intro h; cases h
    | cons b t =>
      simp only [strcmp, Int.reduceNeg, Int.reduceLT, false_iff]
      intro h; cases h
  | cons a s ih =>
    intro t
    cases t with
    | nil =>
      simp only [strcmp, Int.reduceLT, true_iff]
      exact List.Lex.nil
    | cons b t =>
      by_cases hab : a = b
      · subst hab
        simp only [strcmp, if_true, ih t]
        constructor
        · intro h
          exact List.Lex.cons h
        · intro h
          cases h with
          | cons h3 => exact h3
          | rel h1 => exact absurd h1 (lt_irrefl a)
      · by_cases hlt : a < b
        · simp only [strcmp, hab, if_false, hlt, if_true, Int.reduceNeg, Int.reduceLT, false_iff]
          intro h
          cases h with
          | cons _ => exact hab rfl
          | rel h1 => exact absurd h1 (lt_asymm hlt)
        · simp only [strcmp, hab, if_false, hlt, Int.reduceLT, true_iff]
          have hba : b < a := lt_of_le_of_ne (not_lt.mp hlt) (fun e => hab e.symm)
          exact List.Lex.rel hba

/-- C16: `smartstring_compare` orders by bytes, lexicographically, with an absent text below
every present one.  With content `c` and text `t` both present the result is 0 iff `c = t`,
negative iff `c` is below `t` and positive iff `t` is below `c` in the lexicographic order
(`List.Lex`) of the byte order, so a proper
prefix compares below the longer text; absent content against an absent text gives 0, absent
content against a present text a negative result, present content against an absent text a
positive result. -/
theorem smartstring_compare_order (f : Bool) (sz : Nat) (c t : CStr) :
    (smartstring_compare ⟨some c, f, sz⟩ (some t) = 0 ↔ c = t) ∧
    (smartstring_compare ⟨some c, f, sz⟩ (some t) < 0 ↔ List.Lex (· < ·) c t) ∧
    (0 < smartstring_compare ⟨some c, f, sz⟩ (some t) ↔ List.Lex (· < ·) t c) ∧
    (t ≠ [] → smartstring_compare ⟨some c, f, sz⟩ (some (c ++ t)) < 0) ∧
    smartstring_compare ⟨none, f, sz⟩ none = 0 ∧
    smartstring_compare ⟨none, f, sz⟩ (some t) < 0 ∧
    0 < smartstring_compare ⟨some c, f, sz⟩ none := by
  refine ⟨?_, ?_, ?_, ?_, rfl, by simp [smartstring_compare], by simp [smartstring_compare]⟩
  · simp only [smartstring_compare]; exact strcmp_eq_zero_iff c t
  · simp only [smartstring_compare]; exact strcmp_neg_iff c t
  · simp only [smartstring_compare]; exact strcmp_pos_iff c t
  · intro ht
    simp only [smartstring_compare]
    induction c with
    | nil =>
      cases t with
      | nil => exact absurd rfl ht
      | cons b t => simp [strcmp]
    | cons a c ih => simpa [strcmp] using ih

theorem smartstring_compare_order_witness :
    smartstring_compare ⟨some ['h', 'e'], false, 2⟩ (some (['h', 'e'] ++ ['l', 'l', 'o'])) < 0 :=
  (smartstring_compare_order false 2 ['h', 'e'] ['l', 'l', 'o']).2.2.2.1 (by decide)

/-- C17: for every present non-empty text `t`, `smartstring_compare` on a freshly created
buffer (no content) and on a buffer that holds the empty text have the same sign: both are
negative.  Against the empty text the two differ: the buffer that holds the empty text
compares equal (0), the freshly created buffer compares below it (-1). -/
theorem smartstring_compare_create_vs_empty (t : CStr) (f : Bool) (sz : Nat) :
    (t ≠ [] →
      Int.sign (smartstring_compare smartstring_create (some t))
        = Int.sign (smartstring_compare ⟨some [], f, sz⟩ (some t)) ∧
      smartstring_compare smartstring_create (some t) < 0 ∧
      smartstring_compare ⟨some [], f, sz⟩ (some t) < 0) ∧
    smartstring_compare ⟨some [], f, sz⟩ (some []) = 0 ∧
    smartstring_compare smartstring_create (some []) = -1 := by
  refine ⟨?_, rfl, rfl⟩
  intro ht
  cases t with
  | nil => exact absurd rfl ht
  | cons b t => simp [smartstring_compare, smartstring_create, strcmp]

theorem smartstring_compare_create_vs_empty_witness :
    smartstring_compare smartstring_create (some ['a']) < 0 :=
  ((smartstring_compare_create_vs_empty ['a'] false 0).1 (by decide)).2.1

/-- Comparing a freshly created buffer with the empty text does not give 0. -/
theorem smartstring_compare_create_empty_text_ne_zero :
    smartstring_compare smartstring_create (some []) ≠ 0 := by
  decide


/-! ### Fixed mode, and the length field in dynamic mode -/

/-- C18: `smartstring_assign` on a fixed buffer of capacity `b.size`, for every text `t`: it
fails iff `strlen t` exceeds the capacity, and then the buffer is as before; otherwise it
succeeds, capacity and mode stay, and the content becomes exactly `t` when the buffer has an
allocation (`data` not `NULL`), while a buffer without one is left without content. -/
theorem smartstring_assign_fixed (b : smartstring) (t : CStr) (hb : b.is_fixed = true) :
    ((smartstring_assign b (some t)).1 ≠ .err_i8 .ERR_SMARTSTRING_OKAY ↔ strlen t > b.size) ∧
    (strlen t > b.size → (smartstring_assign b (some t)).2 = b) ∧
    (strlen t ≤ b.size →
      (smartstring_assign b (some t)).1 = .err_i8 .ERR_SMARTSTRING_OKAY ∧
      (smartstring_assign b (some t)).2.size = b.size ∧
      (smartstring_assign b (some t)).2.is_fixed = true ∧
      (b.data ≠ none → (smartstring_assign b (some t)).2.data = some t) ∧
      (b.data = none → (smartstring_assign b (some t)).2 = b)) := by
  obtain ⟨d, f, sz⟩ := b
  simp only at hb
  subst hb
  by_cases h : strlen t > sz
  · simp [smartstring_assign, h]
  · have hle : strlen t ≤ sz := by omega
    cases d with
    | none => simp [smartstring_assign, h, hle]
    | some old => simp [smartstring_assign, h, hle]

theorem smartstring_assign_fixed_witness :
    (smartstring_assign ⟨some ['o', 'l', 'd'], true, 5⟩ (some ['a', 'b'])).2.data
      = some ['a', 'b'] :=
  ((smartstring_assign_fixed ⟨some ['o', 'l', 'd'], true, 5⟩ ['a', 'b'] rfl).2.2
    (by decide)).2.2.2.1 (by decide)

/-- On a fixed buffer of capacity 5 without an allocation, assigning a text of length 2
succeeds and the content is not that text. -/
theorem smartstring_assign_fixed_no_allocation :
    (smartstring_assign ⟨none, true, 5⟩ (some ['a', 'b'])).1 = .err_i8 .ERR_SMARTSTRING_OKAY ∧
    (smartstring_assign ⟨none, true, 5⟩ (some ['a', 'b'])).2.data ≠ some ['a', 'b'] := by
  decide

/-- C19: `smartstring_append` on a fixed buffer of capacity `b.size` that holds the text `s`,
for every text `t`: it fails iff `strlen s + strlen t` exceeds the capacity, and then the
buffer is as before (nothing is cut); otherwise it succeeds, the content becomes `s ++ t` and
capacity and mode stay. -/
theorem smartstring_append_fixed (b : smartstring) (s t : CStr) (hb : b.is_fixed = true)
    (hs : b.data = some s) :
    ((smartstring_append b (some t)).1 ≠ .err_i8 .ERR_SMARTSTRING_OKAY
      ↔ strlen s + strlen t > b.size) ∧
    (strlen s + strlen t > b.size → (smartstring_append b (some t)).2 = b) ∧
    (strlen s + strlen t ≤ b.size →
      (smartstring_append b (some t)).1 = .err_i8 .ERR_SMARTSTRING_OKAY ∧
      (smartstring_append b (some t)).2.data = some (s ++ t) ∧
      (smartstring_append b (some t)).2.size = b.size ∧
      (smartstring_append b (some t)).2.is_fixed = true) := by
  obtain ⟨d, f, sz⟩ := b
  simp only at hb hs
  subst hb hs
  have e : smartstring_append ⟨some s, true, sz⟩ (some t)
      = if s.length + t.length > sz then
          (.err_json [("err", "Cannot append: would exceed fixed size")], ⟨some s, true, sz⟩)
        else (.err_i8 .ERR_SMARTSTRING_OKAY, ⟨some (s ++ t), true, sz⟩) := by
    cases s with
    | nil => simp [smartstring_append, current_len, append_logic, strlen]
    | cons c s => simp [smartstring_append, current_len, append_logic, strlen]
  simp only [strlen]
  by_cases h : s.length + t.length > sz
  · rw [e, if_pos h]
    simp [h]
  · have hle : s.length + t.length ≤ sz := by omega
    rw [e, if_neg h]
    simp [h, hle]

theorem smartstring_append_fixed_witness :
    (smartstring_append ⟨some ['a', 'b'], true, 3⟩ (some ['c', 'd'])).2
      = ⟨some ['a', 'b'], true, 3⟩ :=
  (smartstring_append_fixed ⟨some ['a', 'b'], true, 3⟩ ['a', 'b'] ['c', 'd'] rfl rfl).2.1
    (by decide)

/-- C20: on a dynamic buffer in any state, every `smartstring_assign` (of a text, or of an
absent text, which leaves the empty text) and every `smartstring_append` of a text succeeds
and leaves the length field equal to the text length of the content, also when the buffer
comes out of a raw `smartstring_change_size`.  Assigning `12345` gives length 5. -/
theorem smartstring_size_after_assign_append (b : smartstring) (hb : b.is_fixed = false) :
    (∀ data : Option CStr,
      (smartstring_assign b data).1 = .err_i8 .ERR_SMARTSTRING_OKAY ∧
      (smartstring_assign b data).2.data = some (data.getD []) ∧
      (smartstring_assign b data).2.size = strlen (data.getD [])) ∧
    (∀ t : CStr,
      (smartstring_append b (some t)).1 = .err_i8 .ERR_SMARTSTRING_OKAY ∧
      ∃ d, (smartstring_append b (some t)).2.data = some d ∧
        (smartstring_append b (some t)).2.size = strlen d) ∧
    (∀ (grant : Nat → Bool) (new_size : Nat) (blow_data : Bool) (e : cwist_error_t)
        (b1 : smartstring) (t : CStr),
      smartstring_change_size grant b new_size blow_data = .returned e b1 →
      (smartstring_assign b1 (some t)).2.size = strlen t ∧
      ∃ d, (smartstring_append b1 (some t)).2.data = some d ∧
        (smartstring_append b1 (some t)).2.size = strlen d) ∧
    (smartstring_assign smartstring_create (some "12345".toList)).2.size = 5 := by
  have hassign : ∀ (s : smartstring) (data : Option CStr), s.is_fixed = false →
      (smartstring_assign s data).1 = .err_i8 .ERR_SMARTSTRING_OKAY ∧
      (smartstring_assign s data).2.data = some (data.getD []) ∧
      (smartstring_assign s data).2.size = strlen (data.getD []) := by
    intro s data hs
    cases data <;> simp [smartstring_assign, hs, strlen]
  have happend : ∀ (s : smartstring) (t : CStr), s.is_fixed = false →
      (smartstring_append s (some t)).1 = .err_i8 .ERR_SMARTSTRING_OKAY ∧
      ∃ d, (smartstring_append s (some t)).2.data = some d ∧
        (smartstring_append s (some t)).2.size = strlen d := by
    intro s t hs
    refine ⟨by simp [smartstring_append, hs], s.data.getD [] ++ t, ?_⟩
    rw [smartstring_append_dynamic s t hs]
    simp [strlen]
  refine ⟨fun data => hassign b data hb, fun t => happend b t hb, ?_, by decide⟩
  intro grant n fl e b1 t h
  have hfix : b1.is_fixed = false := by
    rcases change_size_returned_cases grant b n fl e b1 h with h1 | ⟨_, x, h1, _⟩
    · rw [h1]; exact hb
    · rw [h1]
  exact ⟨(hassign _ (some t) hfix).2.2, (happend _ t hfix).2⟩

theorem smartstring_size_after_assign_append_witness :
    (smartstring_assign ⟨some ['x'], false, 40⟩ none).2.size = strlen ((none : Option CStr).getD []) :=
  ((smartstring_size_after_assign_append ⟨some ['x'], false, 40⟩ rfl).1 none).2.2


/-! ## Methods -/

/-- C22: `cwist_http_string_to_method` maps exactly the seven upper-case names to their
methods and every other string (such as `get`) to `CWIST_HTTP_UNKNOWN`, and it inverts
`cwist_http_method_to_string` on all eight method values. -/
theorem cwist_http_string_to_method_exact (s : CStr) :
    (cwist_http_string_to_method s = .CWIST_HTTP_GET ↔ s = "GET".toList) ∧
    (cwist_http_string_to_method s = .CWIST_HTTP_POST ↔ s = "POST".toList) ∧
    (cwist_http_string_to_method s = .CWIST_HTTP_PUT ↔ s = "PUT".toList) ∧
    (cwist_http_string_to_method s = .CWIST_HTTP_DELETE ↔ s = "DELETE".toList) ∧
    (cwist_http_string_to_method s = .CWIST_HTTP_PATCH ↔ s = "PATCH".toList) ∧
    (cwist_http_string_to_method s = .CWIST_HTTP_HEAD ↔ s = "HEAD".toList) ∧
    (cwist_http_string_to_method s = .CWIST_HTTP_OPTIONS ↔ s = "OPTIONS".toList) ∧
    (cwist_http_string_to_method s = .CWIST_HTTP_UNKNOWN ↔
      s ≠ "GET".toList ∧ s ≠ "POST".toList ∧ s ≠ "PUT".toList ∧ s ≠ "DELETE".toList ∧
      s ≠ "PATCH".toList ∧ s ≠ "HEAD".toList ∧ s ≠ "OPTIONS".toList) ∧
    cwist_http_string_to_method "get".toList = .CWIST_HTTP_UNKNOWN ∧
    (∀ m : cwist_http_method_t,
      cwist_http_string_to_method (cwist_http_method_to_string m) = m) := by
  have hlit : "GET".toList = ['G', 'E', 'T'] ∧ "POST".toList = ['P', 'O', 'S', 'T'] ∧
      "PUT".toList = ['P', 'U', 'T'] ∧ "DELETE".toList = ['D', 'E', 'L', 'E', 'T', 'E'] ∧
      "PATCH".toList = ['P', 'A', 'T', 'C', 'H'] ∧ "HEAD".toList = ['H', 'E', 'A', 'D'] ∧
      "OPTIONS".toList = ['O', 'P', 'T', 'I', 'O', 'N', 'S'] := by decide
  obtain ⟨e1, e2, e3, e4, e5, e6, e7⟩ := hlit
  rw [e1, e2, e3, e4, e5, e6, e7]
  have hall : ∀ m : cwist_http_method_t,
      cwist_http_string_to_method (cwist_http_method_to_string m) = m := by
    intro m; cases m <;> decide
  refine ⟨?_, ?_, ?_, ?_, ?_, ?_, ?_, ?_, by decide, hall⟩
  all_goals
    simp only [cwist_http_string_to_method, strcmp_eq_zero_iff]
    by_cases h1 : s = ['G', 'E', 'T']
    · subst h1; decide
    by_cases h2 : s = ['P', 'O', 'S', 'T']
    · subst h2; decide
    by_cases h3 : s = ['P', 'U', 'T']
    · subst h3; decide
    by_cases h4 : s = ['D', 'E', 'L', 'E', 'T', 'E']
    · subst h4; decide
    by_cases h5 : s = ['P', 'A', 'T', 'C', 'H']
    · subst h5; decide
    by_cases h6 : s = ['H', 'E', 'A', 'D']
    · subst h6; decide
    by_cases h7 : s = ['O', 'P', 'T', 'I', 'O', 'N', 'S']
    · subst h7; decide
    simp [h1, h2, h3, h4, h5, h6, h7]


/-! ## Parser: request line -/

theorem no_crlf_iff_strstr (l : CStr) : no_crlf l ↔ strstr l CRLF = none := by
  constructor
  · intro h
    cases hr : strstr l CRLF with
    | none => rfl
    | some n => exact absurd ⟨_, _, strstr_some_split CRLF l n hr⟩ h
  · rintro h ⟨x, y, rfl⟩
    have := strstr_isSome_of_split CRLF x y
    rw [h] at this
    exact Bool.noConfusion this

theorem no_crlf_tail (c : Char) (l : CStr) (h : no_crlf (c :: l)) : no_crlf l := by
  rintro ⟨x, y, rfl⟩
  exact h ⟨c :: x, y, by simp⟩

theorem strstr_crlf_at_end : ∀ (l rest : CStr), no_crlf l →
    strstr (l ++ '\r' :: '\n' :: rest) CRLF = some l.length := by
  intro l
  induction l with
  | nil => intro rest _; simp [strstr, CRLF, List.isPrefixOf]
  | cons c l ih =>
    intro rest h
    have hl := no_crlf_tail c l h
    have hp : CRLF.isPrefixOf (c :: (l ++ '\r' :: '\n' :: rest)) = false := by
      cases l with
      | nil => simp [CRLF, List.isPrefixOf]
      | cons d l =>
        by_cases hc : '\r' = c ∧ '\n' = d
        · exact absurd ⟨[], l, by simp [CRLF, hc.1.symm, hc.2.symm]⟩ h
        · simp only [CRLF, List.cons_append, List.isPrefixOf, Bool.and_true]
          simpa using hc
    rw [List.cons_append]
    unfold strstr
    rw [if_neg (by rw [hp]; simp), ih rest hl]
    rfl

theorem dropWhile_append_all (p : Char → Bool) : ∀ (sp s : CStr),
    (∀ x ∈ sp, p x = true) → (sp ++ s).dropWhile p = s.dropWhile p := by
  intro sp
  induction sp with
  | nil => intro s _; rfl
  | cons c sp ih =>
    intro s h
    have hc := h c (List.mem_cons_self _ _)
    rw [List.cons_append, List.dropWhile_cons, if_pos hc]
    exact ih s (fun x hx => h x (List.mem_cons_of_mem _ hx))

theorem strtok_skip_spaces (sp s : CStr) (hsp : ∀ x ∈ sp, x = ' ') :
    strtok (sp ++ s) [' '] = strtok s [' '] := by
  have h : ∀ x ∈ sp, (fun c => [' '].contains c) x = true := by
    intro x hx; simp [hsp x hx]
  unfold strtok
  rw [dropWhile_append_all _ sp s h]

theorem strtok_spaces (sp : CStr) (hsp : ∀ x ∈ sp, x = ' ') :
    strtok sp [' '] = (none, []) := by
  have := strtok_skip_spaces sp [] hsp
  rw [List.append_nil] at this
  rw [this]
  rfl

/-- One call of `strtok`: leading spaces are skipped and the token ends at the next space or
at the end of the line. -/
theorem strtok_step (sp tok tail : CStr) (hsp : ∀ x ∈ sp, x = ' ') (h0 : tok ≠ [])
    (ht : ' ' ∉ tok) (htail : tail = [] ∨ tail.head? = some ' ') :
    strtok (sp ++ tok ++ tail) [' '] = (some tok, tail.drop 1) := by
  rw [List.append_assoc, strtok_skip_spaces sp _ hsp]
  cases tail with
  | nil => rw [List.append_nil]; exact strtok_last_token tok h0 ht
  | cons c tail =>
    rcases htail with h | h
    · exact absurd h (by simp)
    · simp only [List.head?_cons, Option.some.injEq] at h
      subst h
      exact strtok_token_then_space tok tail h0 ht

theorem parse_body_method (ls : CStr) (req : cwist_http_request) :
    (parse_body ls req).method = req.method := by
  cases ls <;> rfl

/-- The request a successful parse returns takes method, path and version from the request
line alone. -/
theorem parse_request_of_line (line after : CStr) (hl : no_crlf line) :
    ∃ req, cwist_http_parse_request (some (line ++ CRLF ++ after)) = some req ∧
      req.method = (parse_request_line line cwist_http_request_create).method ∧
      req.path = (parse_request_line line cwist_http_request_create).path ∧
      req.version = (parse_request_line line cwist_http_request_create).version := by
  have e : line ++ CRLF ++ after = line ++ '\r' :: '\n' :: after := by simp [CRLF]
  have hstr := strstr_crlf_at_end line after hl
  have h2 := parse_headers_isSome (strlen (line ++ '\r' :: '\n' :: after) + 1) after
    (parse_request_line line cwist_http_request_create).headers
    (by simp only [strlen, List.length_append, List.length_cons]; omega)
  obtain ⟨⟨hs, ls⟩, hr⟩ := Option.isSome_iff_exists.mp h2
  have hres : cwist_http_parse_request (some (line ++ CRLF ++ after))
      = some (parse_body ls
          { parse_request_line line cwist_http_request_create with headers := hs }) := by
    rw [e]
    simp only [cwist_http_parse_request, hstr, take_length_append, drop_length_append,
      List.drop_succ_cons, List.drop_zero, hr]
  exact ⟨_, hres, by rw [parse_body_method], by rw [parse_body_path],
    by rw [parse_body_version]⟩

theorem parse_request_line_no_token (sp : CStr) (hsp : ∀ x ∈ sp, x = ' ')
    (req : cwist_http_request) : parse_request_line sp req = req := by
  have h1 := strtok_spaces sp hsp
  have h2 : strtok [] [' '] = (none, []) := rfl
  simp only [parse_request_line, h1, h2]

/-- C23: a request whose first line has no method token (the line is empty or holds spaces
only) parses to a request whose method is the default `CWIST_HTTP_GET`, with the default path
`/` and version `HTTP/1.1`: when `strtok` finds no token nothing is stored. -/
theorem cwist_http_parse_request_no_method (sp after : CStr) (hsp : ∀ x ∈ sp, x = ' ') :
    ∃ req, cwist_http_parse_request (some (sp ++ CRLF ++ after)) = some req ∧
      req.method = .CWIST_HTTP_GET ∧
      req.path.data = some ['/'] ∧
      req.version.data = some ['H', 'T', 'T', 'P', '/', '1', '.', '1'] := by
  have hl : no_crlf sp := by
    rintro ⟨x, y, rfl⟩
    have := hsp '\r' (by simp [CRLF])
    exact absurd this (by decide)
  obtain ⟨req, hreq, hm, hp, hv⟩ := parse_request_of_line sp after hl
  rw [parse_request_line_no_token sp hsp] at hm hp hv
  exact ⟨req, hreq, hm, by rw [hp]; rfl, by rw [hv]; rfl⟩

theorem cwist_http_parse_request_no_method_witness :
    ∃ req, cwist_http_parse_request (some ([' ', ' '] ++ CRLF ++ ['x'])) = some req ∧
      req.method = .CWIST_HTTP_GET ∧
      req.path.data = some ['/'] ∧
      req.version.data = some ['H', 'T', 'T', 'P', '/', '1', '.', '1'] :=
  cwist_http_parse_request_no_method [' ', ' '] ['x'] (by decide)

/-- The empty first line `\r\n` parses to a request whose method is not
`CWIST_HTTP_UNKNOWN`. -/
theorem cwist_http_parse_request_empty_line_method :
    (cwist_http_parse_request (some "\r\n".toList)).map (fun req => req.method)
      ≠ some .CWIST_HTTP_UNKNOWN := by
  decide


theorem spaces_tail (sp s : CStr) (hsp : ∀ x ∈ sp, x = ' ') (h0 : sp ≠ []) :
    (sp ++ s = [] ∨ (sp ++ s).head? = some ' ') ∧
    ∃ sp', (∀ x ∈ sp', x = ' ') ∧ (sp ++ s).drop 1 = sp' ++ s := by
  cases sp with
  | nil => exact absurd rfl h0
  | cons c sp =>
    have hc := hsp c (List.mem_cons_self _ _)
    subst hc
    exact ⟨Or.inr rfl, sp, fun x hx => hsp x (List.mem_cons_of_mem _ hx), rfl⟩

theorem spaces_only_tail (sp : CStr) (hsp : ∀ x ∈ sp, x = ' ') :
    (sp = [] ∨ sp.head? = some ' ') ∧ ∀ x ∈ sp.drop 1, x = ' ' := by
  cases sp with
  | nil => exact ⟨Or.inl rfl, by simp⟩
  | cons c sp =>
    have hc := hsp c (List.mem_cons_self _ _)
    subst hc
    exact ⟨Or.inr rfl, fun x hx => hsp x (List.mem_cons_of_mem _ hx)⟩

/-- The request line with one token. -/
theorem parse_request_line_one (sp0 t1 sp1 : CStr) (req : cwist_http_request)
    (h0 : ∀ x ∈ sp0, x = ' ') (ht1 : t1 ≠ [] ∧ ' ' ∉ t1) (h1 : ∀ x ∈ sp1, x = ' ') :
    parse_request_line (sp0 ++ t1 ++ sp1) req
      = { req with method := cwist_http_string_to_method t1 } := by
  obtain ⟨htail, hrest⟩ := spaces_only_tail sp1 h1
  have s1 := strtok_step sp0 t1 sp1 h0 ht1.1 ht1.2 htail
  have s2 := strtok_spaces (sp1.drop 1) hrest
  have s3 : strtok [] [' '] = (none, []) := rfl
  simp only [parse_request_line, s1, s2, s3]

/-- The request line with two tokens. -/
theorem parse_request_line_two (sp0 t1 sp1 t2 sp2 : CStr) (req : cwist_http_request)
    (h0 : ∀ x ∈ sp0, x = ' ') (ht1 : t1 ≠ [] ∧ ' ' ∉ t1)
    (h1 : (∀ x ∈ sp1, x = ' ') ∧ sp1 ≠ []) (ht2 : t2 ≠ [] ∧ ' ' ∉ t2)
    (h2 : ∀ x ∈ sp2, x = ' ') :
    parse_request_line (sp0 ++ t1 ++ (sp1 ++ (t2 ++ sp2))) req
      = { req with method := cwist_http_string_to_method t1,
                   path := (smartstring_assign req.path (some t2)).2 } := by
  obtain ⟨htail1, sp1', hsp1', hdrop1⟩ := spaces_tail sp1 (t2 ++ sp2) h1.1 h1.2
  have s1 := strtok_step sp0 t1 (sp1 ++ (t2 ++ sp2)) h0 ht1.1 ht1.2 htail1
  rw [hdrop1] at s1
  obtain ⟨htail2, hrest2⟩ := spaces_only_tail sp2 h2
  have s2 := strtok_step sp1' t2 sp2 hsp1' ht2.1 ht2.2 htail2
  rw [List.append_assoc] at s2
  have s3 := strtok_spaces (sp2.drop 1) hrest2
  simp only [parse_request_line, s1, s2, s3]

/-- The request line with three tokens, and anything after the third. -/
theorem parse_request_line_three (sp0 t1 sp1 t2 sp2 t3 rest : CStr) (req : cwist_http_request)
    (h0 : ∀ x ∈ sp0, x = ' ') (ht1 : t1 ≠ [] ∧ ' ' ∉ t1)
    (h1 : (∀ x ∈ sp1, x = ' ') ∧ sp1 ≠ []) (ht2 : t2 ≠ [] ∧ ' ' ∉ t2)
    (h2 : (∀ x ∈ sp2, x = ' ') ∧ sp2 ≠ []) (ht3 : t3 ≠ [] ∧ ' ' ∉ t3)
    (hrest : rest = [] ∨ rest.head? = some ' ') :
    parse_request_line (sp0 ++ t1 ++ (sp1 ++ (t2 ++ (sp2 ++ (t3 ++ rest))))) req
      = { req with method := cwist_http_string_to_method t1,
                   path := (smartstring_assign req.path (some t2)).2,
                   version := (smartstring_assign req.version (some t3)).2 } := by
  obtain ⟨htail1, sp1', hsp1', hdrop1⟩ :=
    spaces_tail sp1 (t2 ++ (sp2 ++ (t3 ++ rest))) h1.1 h1.2
  have s1 := strtok_step sp0 t1 (sp1 ++ (t2 ++ (sp2 ++ (t3 ++ rest)))) h0 ht1.1 ht1.2 htail1
  rw [hdrop1] at s1
  obtain ⟨htail2, sp2', hsp2', hdrop2⟩ := spaces_tail sp2 (t3 ++ rest) h2.1 h2.2
  have s2 := strtok_step sp1' t2 (sp2 ++ (t3 ++ rest)) hsp1' ht2.1 ht2.2 htail2
  rw [hdrop2, List.append_assoc] at s2
  have s3 := strtok_step sp2' t3 rest hsp2' ht3.1 ht3.2 hrest
  rw [List.append_assoc] at s3
  simp only [parse_request_line, s1, s2, s3]

/-- C21: request-line handling.  For an input whose text before the first `\r\n` is `line`:
the tokens are the maximal runs of non-space characters of `line` (`sp0`, `sp1`, `sp2` are runs
of spaces, `t1`, `t2`, `t3` non-empty and free of spaces).  Without a token the request keeps
the defaults `GET`, `/`, `HTTP/1.1`; with one token the method is
`cwist_http_string_to_method t1`; with two the path is `t2` as well; with three the version is
`t3` as well, and whatever follows the third token (`rest`, empty or starting with a space)
has no effect. -/
theorem cwist_http_parse_request_line_tokens (line after : CStr) (hl : no_crlf line) :
    ∃ req, cwist_http_parse_request (some (line ++ CRLF ++ after)) = some req ∧
      (∀ sp0 : CStr, (∀ x ∈ sp0, x = ' ') → line = sp0 →
        req.method = .CWIST_HTTP_GET ∧ req.path.data = some "/".toList ∧
        req.version.data = some "HTTP/1.1".toList) ∧
      (∀ sp0 t1 sp1 : CStr, (∀ x ∈ sp0, x = ' ') → (t1 ≠ [] ∧ ' ' ∉ t1) →
        (∀ x ∈ sp1, x = ' ') → line = sp0 ++ t1 ++ sp1 →
        req.method = cwist_http_string_to_method t1 ∧ req.path.data = some "/".toList ∧
        req.version.data = some "HTTP/1.1".toList) ∧
      (∀ sp0 t1 sp1 t2 sp2 : CStr, (∀ x ∈ sp0, x = ' ') → (t1 ≠ [] ∧ ' ' ∉ t1) →
        ((∀ x ∈ sp1, x = ' ') ∧ sp1 ≠ []) → (t2 ≠ [] ∧ ' ' ∉ t2) → (∀ x ∈ sp2, x = ' ') →
        line = sp0 ++ t1 ++ sp1 ++ t2 ++ sp2 →
        req.method = cwist_http_string_to_method t1 ∧ req.path.data = some t2 ∧
        req.version.data = some "HTTP/1.1".toList) ∧
      (∀ sp0 t1 sp1 t2 sp2 t3 rest : CStr, (∀ x ∈ sp0, x = ' ') → (t1 ≠ [] ∧ ' ' ∉ t1) →
        ((∀ x ∈ sp1, x = ' ') ∧ sp1 ≠ []) → (t2 ≠ [] ∧ ' ' ∉ t2) →
        ((∀ x ∈ sp2, x = ' ') ∧ sp2 ≠ []) → (t3 ≠ [] ∧ ' ' ∉ t3) →
        (rest = [] ∨ rest.head? = some ' ') →
        line = sp0 ++ t1 ++ sp1 ++ t2 ++ sp2 ++ t3 ++ rest →
        req.method = cwist_http_string_to_method t1 ∧ req.path.data = some t2 ∧
        req.version.data = some t3) := by
  obtain ⟨req, hreq, hm, hp, hv⟩ := parse_request_of_line line after hl
  refine ⟨req, hreq, ?_, ?_, ?_, ?_⟩
  · intro sp0 h0 e
    subst e
    rw [parse_request_line_no_token _ h0] at hm hp hv
    exact ⟨hm, by rw [hp]; rfl, by rw [hv]; rfl⟩
  · intro sp0 t1 sp1 h0 ht1 h1 e
    subst e
    rw [parse_request_line_one sp0 t1 sp1 _ h0 ht1 h1] at hm hp hv
    exact ⟨hm, by rw [hp]; rfl, by rw [hv]; rfl⟩
  · intro sp0 t1 sp1 t2 sp2 h0 ht1 h1 ht2 h2 e
    have e' : line = sp0 ++ t1 ++ (sp1 ++ (t2 ++ sp2)) := by rw [e]; simp
    subst e'
    rw [parse_request_line_two sp0 t1 sp1 t2 sp2 _ h0 ht1 h1 ht2 h2] at hm hp hv
    refine ⟨hm, ?_, by rw [hv]; rfl⟩
    rw [hp]
    simp [smartstring_assign, cwist_http_request_create, smartstring_create]
  · intro sp0 t1 sp1 t2 sp2 t3 rest h0 ht1 h1 ht2 h2 ht3 hrest e
    have e' : line = sp0 ++ t1 ++ (sp1 ++ (t2 ++ (sp2 ++ (t3 ++ rest)))) := by rw [e]; simp
    subst e'
    rw [parse_request_line_three sp0 t1 sp1 t2 sp2 t3 rest _ h0 ht1 h1 ht2 h2 ht3 hrest]
      at hm hp hv
    refine ⟨hm, ?_, ?_⟩
    · rw [hp]
      simp [smartstring_assign, cwist_http_request_create, smartstring_create]
    · rw [hv]
      simp [smartstring_assign, cwist_http_request_create, smartstring_create]


theorem cwist_http_parse_request_line_tokens_witness :
    ∃ req, cwist_http_parse_request (some ("GET /x V1  extra more".toList ++ CRLF ++ [])) = some req ∧
      req.method = cwist_http_string_to_method "GET".toList ∧
      req.path.data = some "/x".toList ∧ req.version.data = some "V1".toList :=
  match cwist_http_parse_request_line_tokens "GET /x V1  extra more".toList []
      ((no_crlf_iff_strstr _).mpr (by decide)) with
  | ⟨req, hreq, _, _, _, h4⟩ =>
    ⟨req, hreq, h4 [] "GET".toList [' '] "/x".toList [' '] "V1".toList "  extra more".toList
      (by decide) (by decide) (by decide) (by decide) (by decide) (by decide) (by decide)
      (by decide)⟩

/-! ## Parser: header lines and body -/

theorem strchr_none : ∀ (l : CStr) (ch : Char), ch ∉ l → strchr l ch = none := by
  intro l
  induction l with
  | nil => intro ch _; rfl
  | cons c l ih =>
    intro ch h
    have hc : ¬ (c = ch) := fun e => h (List.mem_cons.mpr (Or.inl e.symm))
    have hl : ch ∉ l := fun e => h (List.mem_cons_of_mem _ e)
    simp [strchr, hc, ih ch hl]

/-- What the header loop does with one line of a given shape. -/
theorem parse_header_line_shaped (h : header_line) (hs : h.shaped)
    (headers : List cwist_http_header_node) :
    parse_header_line h.text headers
      = match h.entry with
        | some n => n :: headers
        | none => headers := by
  cases h with
  | plain line =>
    simp only [header_line.shaped] at hs
    simp only [header_line.text, header_line.entry, parse_header_line, strchr_none line ':' hs]
  | field key spaces value =>
    simp only [header_line.shaped] at hs
    obtain ⟨hk, hsp, hv⟩ := hs
    have e : key ++ [':'] ++ spaces ++ value = key ++ ':' :: (spaces ++ value) := by simp
    have hall : ∀ x ∈ spaces, (fun c => decide (c = ' ')) x = true := by
      intro x hx; simp [hsp x hx]
    have hdrop : List.dropWhile (fun c => decide (c = ' ')) (spaces ++ value) = value := by
      rw [dropWhile_append_all _ spaces value hall]
      cases value with
      | nil => rfl
      | cons c v =>
        have hc : ¬ (c = ' ') := fun e => hv (by simp [e])
        simp [List.dropWhile_cons, hc]
    simp only [header_line.text, header_line.entry, parse_header_line]
    rw [e, strchr_first key _ ':' hk]
    simp only [take_length_append, drop_length_append, List.drop_succ_cons, List.drop_zero, hdrop]
    simp [cwist_http_header_add, smartstring_assign, smartstring_create, header_node]

theorem foldl_parse_header_line_shaped : ∀ (hls : List header_line)
    (acc : List cwist_http_header_node), (∀ h ∈ hls, h.shaped) →
    (hls.map header_line.text).foldl (fun a l => parse_header_line l a) acc
      = (hls.filterMap header_line.entry).reverse ++ acc := by
  intro hls
  induction hls with
  | nil => intro acc _; rfl
  | cons h hls ih =>
    intro acc hsh
    have hh := hsh h (List.mem_cons_self _ _)
    simp only [List.map_cons, List.foldl_cons]
    rw [parse_header_line_shaped h hh acc, ih _ (fun x hx => hsh x (List.mem_cons_of_mem _ hx))]
    cases he : h.entry with
    | none => simp [List.filterMap_cons, he]
    | some n => simp [List.filterMap_cons, he]

/-- The header loop on a sequence of non-empty lines, each with its terminator, followed
either by an empty line and a body or by an unterminated rest: every line goes through
`parse_header_line`, in order, and the loop ends at the body. -/
theorem parse_headers_lines : ∀ (ls : List CStr) (fuel : Nat) (tl body : CStr)
    (acc : List cwist_http_header_node),
    (∀ l ∈ ls, l ≠ [] ∧ no_crlf l) →
    (tl = CRLF ++ body ∨ (no_crlf tl ∧ body = tl)) →
    ls.length < fuel →
    parse_headers fuel (lines_text ls ++ tl) acc
      = some (ls.foldl (fun a l => parse_header_line l a) acc, body) := by
  intro ls
  induction ls with
  | nil =>
    intro fuel tl body acc _ htl hf
    obtain ⟨f, rfl⟩ : ∃ f, fuel = f + 1 := ⟨fuel - 1, by simp at hf; omega⟩
    simp only [lines_text, List.nil_append, List.foldl_nil]
    unfold parse_headers
    rcases htl with h | ⟨h, hb⟩
    · have h0 := strstr_crlf_at_end [] body (by rintro ⟨x, y, hxy⟩; simp [CRLF] at hxy)
      have e : tl = '\r' :: '\n' :: body := by rw [h]; rfl
      rw [e]
      simp only [List.nil_append, List.length_nil] at h0
      rw [h0]
      simp
    · rw [(no_crlf_iff_strstr tl).mp h, hb]
  | cons l ls ih =>
    intro fuel tl body acc hls htl hf
    obtain ⟨f, rfl⟩ : ∃ f, fuel = f + 1 := ⟨fuel - 1, by simp at hf; omega⟩
    have hl := hls l (List.mem_cons_self _ _)
    have e : lines_text (l :: ls) ++ tl = l ++ '\r' :: '\n' :: (lines_text ls ++ tl) := by
      simp [lines_text, CRLF]
    have hlen : l.length ≠ 0 := by
      intro h0; exact hl.1 (List.length_eq_zero.mp h0)
    rw [e]
    unfold parse_headers
    rw [strstr_crlf_at_end l _ hl.2]
    simp only [hlen, if_false, take_length_append, drop_length_append, List.drop_succ_cons,
      List.drop_zero, List.foldl_cons]
    exact ih f tl body _ (fun x hx => hls x (List.mem_cons_of_mem _ hx)) htl
      (by simp at hf; omega)

theorem lines_text_length (ls : List CStr) : ls.length ≤ (lines_text ls).length := by
  induction ls with
  | nil => simp
  | cons l ls ih =>
    simp only [lines_text, List.length_cons, List.length_append, CRLF]
    omega

/-- The parser on an input of the shape request line, terminator, terminated non-empty lines,
and either an empty line with a body or an unterminated rest. -/
theorem parse_request_lines (first : CStr) (ls : List CStr) (tl body : CStr)
    (hfirst : no_crlf first) (hls : ∀ l ∈ ls, l ≠ [] ∧ no_crlf l)
    (htl : tl = CRLF ++ body ∨ (no_crlf tl ∧ body = tl)) :
    cwist_http_parse_request (some (first ++ CRLF ++ lines_text ls ++ tl))
      = some (parse_body body
          { parse_request_line first cwist_http_request_create with
            headers := ls.foldl (fun a l => parse_header_line l a) [] }) := by
  have e : first ++ CRLF ++ lines_text ls ++ tl
      = first ++ '\r' :: '\n' :: (lines_text ls ++ tl) := by simp [CRLF]
  have hfuel : ls.length < strlen (first ++ '\r' :: '\n' :: (lines_text ls ++ tl)) + 1 := by
    have := lines_text_length ls
    simp only [strlen, List.length_append, List.length_cons]
    omega
  have hh := parse_headers_lines ls _ tl body [] hls htl hfuel
  have hhd : (parse_request_line first cwist_http_request_create).headers = [] :=
    (parse_request_line_fields first cwist_http_request_create).2.2.2.2.1
  rw [e]
  simp only [cwist_http_parse_request, strstr_crlf_at_end first _ hfirst, take_length_append,
    drop_length_append, List.drop_succ_cons, List.drop_zero, hhd, hh]

theorem parse_body_headers (ls : CStr) (req : cwist_http_request) :
    (parse_body ls req).headers = req.headers := by
  cases ls <;> rfl

theorem parse_body_data (ls : CStr) (req : cwist_http_request)
    (hb : req.body = smartstring_create) :
    (parse_body ls req).body.data.getD [] = ls ∧
    ((parse_body ls req).body.data = none ↔ ls = []) ∧
    (ls ≠ [] → (parse_body ls req).body.data = some ls) := by
  cases ls with
  | nil => simp [parse_body, hb, smartstring_create]
  | cons c ls => simp [parse_body, hb, smartstring_create, smartstring_assign]

/-- C24: header parsing.  For an input made of a request line, the header lines `hls` (each
non-empty and free of `\r\n`, followed by its `\r\n`) and then either an empty line with a body
or an unterminated rest: the header list of the parsed request, head first, is the reverse of
the entries of the lines that hold a colon.  For such a line the key is the text before the
first colon, as it stands, and the value is the text after that colon without its leading
spaces; lines without a colon add nothing and do not make the parse fail.  Tabs, trailing
spaces and later colons stay in the value. -/
theorem cwist_http_parse_request_headers (first : CStr) (hls : List header_line)
    (tl body : CStr) (hfirst : no_crlf first)
    (hsh : ∀ h ∈ hls, h.shaped ∧ h.text ≠ [] ∧ no_crlf h.text)
    (htl : tl = CRLF ++ body ∨ (no_crlf tl ∧ body = tl)) :
    (∃ req, cwist_http_parse_request
          (some (first ++ CRLF ++ lines_text (hls.map header_line.text) ++ tl)) = some req ∧
        req.headers = (hls.filterMap header_line.entry).reverse) ∧
    (∀ key spaces value : CStr,
      (header_line.field key spaces value).entry
        = some { key := { data := some key, is_fixed := false, size := strlen key },
                 value := { data := some value, is_fixed := false, size := strlen value } }) ∧
    (cwist_http_parse_request
        (some "GET / HTTP/1.1\r\nA:  \tb: c \r\nno colon\r\n k :v\r\n\r\nx: y".toList)).map
        (fun req => req.headers.map (fun n => (n.key.data, n.value.data)))
      = some [(some " k ".toList, some "v".toList), (some "A".toList, some "\tb: c ".toList)] := by
  refine ⟨?_, fun _ _ _ => rfl, by decide⟩
  have hlines : ∀ l ∈ hls.map header_line.text, l ≠ [] ∧ no_crlf l := by
    intro l hl
    obtain ⟨h, hh, rfl⟩ := List.mem_map.mp hl
    exact (hsh h hh).2
  have hres := parse_request_lines first (hls.map header_line.text) tl body hfirst hlines htl
  refine ⟨_, hres, ?_⟩
  rw [parse_body_headers]
  simp only
  rw [foldl_parse_header_line_shaped hls [] (fun h hh => (hsh h hh).1)]
  simp


theorem cwist_http_parse_request_headers_witness :
    ∃ req, cwist_http_parse_request
          (some ("GET /".toList ++ CRLF
            ++ lines_text ([header_line.field "K".toList " ".toList "v".toList].map
                header_line.text) ++ "tail".toList)) = some req ∧
        req.headers
          = ([header_line.field "K".toList " ".toList "v".toList].filterMap
              header_line.entry).reverse :=
  (cwist_http_parse_request_headers "GET /".toList
    [header_line.field "K".toList " ".toList "v".toList] "tail".toList "tail".toList
    ((no_crlf_iff_strstr _).mpr (by decide))
    (fun h hh => by
      rw [List.mem_singleton] at hh
      subst hh
      exact ⟨⟨by decide, by decide, by decide⟩, by decide,
        (no_crlf_iff_strstr _).mpr (by decide)⟩)
    (Or.inr ⟨(no_crlf_iff_strstr _).mpr (by decide), rfl⟩)).1

/-! ### Inputs without an empty line -/

theorem no_crlf_nil : no_crlf [] := by
  rintro ⟨x, y, h⟩
  have := congrArg List.length h
  simp [CRLF] at this
  omega

theorem no_blank_line_of_strstr (raw : CStr) (h : strstr raw (CRLF ++ CRLF) = none) :
    ¬ ∃ a b : CStr, raw = a ++ CRLF ++ CRLF ++ b := by
  rintro ⟨a, b, hab⟩
  have hs := strstr_isSome_of_split (CRLF ++ CRLF) a b
  rw [← List.append_assoc a CRLF CRLF, ← hab, h] at hs
  exact Bool.noConfusion hs

theorem no_crlf_take_of_strstr : ∀ (hay : CStr) (n : Nat),
    strstr hay CRLF = some n → no_crlf (hay.take n) := by
  intro hay
  induction hay with
  | nil => intro n h; simp [strstr, CRLF] at h
  | cons c hay ih =>
    intro n h
    unfold strstr at h
    by_cases hp : CRLF.isPrefixOf (c :: hay) = true
    · rw [if_pos hp] at h
      have hn : n = 0 := by simpa using h.symm
      subst hn
      exact no_crlf_nil
    · rw [if_neg hp] at h
      cases hr : strstr hay CRLF with
      | none => simp [hr] at h
      | some m =>
        simp only [hr, Option.map_some', Option.some.injEq] at h
        subst h
        have hm := (no_crlf_iff_strstr _).mp (ih m hr)
        rw [List.take_succ_cons, no_crlf_iff_strstr]
        unfold strstr
        have hp' : ¬ (CRLF.isPrefixOf (c :: List.take m hay) = true) := by
          intro hq
          apply hp
          cases m with
          | zero => simp [CRLF, List.isPrefixOf] at hq
          | succ m =>
            cases hay with
            | nil => simp [CRLF, List.isPrefixOf] at hq
            | cons d hay =>
              simp only [List.take_succ_cons, CRLF, List.isPrefixOf, Bool.and_true,
                Bool.and_eq_true, beq_iff_eq] at hq ⊢
              exact hq
        rw [if_neg hp', hm]
        rfl

/-- Every text is a sequence of terminated non-empty lines followed by an empty line and a
rest, or by a rest without a terminator. -/
theorem exists_lines_split : ∀ (k : Nat) (s : CStr), s.length ≤ k →
    ∃ (ls : List CStr) (tl : CStr), s = lines_text ls ++ tl ∧
      (∀ l ∈ ls, l ≠ [] ∧ no_crlf l) ∧ ((∃ body, tl = CRLF ++ body) ∨ no_crlf tl) := by
  intro k
  induction k with
  | zero =>
    intro s hs
    have : s = [] := List.length_eq_zero.mp (by omega)
    subst this
    exact ⟨[], [], rfl, by simp, Or.inr no_crlf_nil⟩
  | succ k ih =>
    intro s hs
    cases hr : strstr s CRLF with
    | none => exact ⟨[], s, rfl, by simp, Or.inr ((no_crlf_iff_strstr s).mpr hr)⟩
    | some n =>
      have hsplit := strstr_some_split CRLF s n hr
      by_cases h0 : n = 0
      · subst h0
        refine ⟨[], s, rfl, by simp, Or.inl ⟨s.drop (0 + CRLF.length), ?_⟩⟩
        simpa using hsplit
      · have hle := strstr_crlf_le s n hr
        obtain ⟨ls, tl, hrest, hls, htl⟩ := ih (s.drop (n + CRLF.length))
          (by simp only [List.length_drop, CRLF, List.length_cons, List.length_nil]; omega)
        refine ⟨s.take n :: ls, tl, ?_, ?_, htl⟩
        · rw [lines_text, List.append_assoc, ← hrest]
          exact hsplit
        · intro l hl
          rcases List.mem_cons.mp hl with rfl | hl'
          · refine ⟨?_, no_crlf_take_of_strstr s n hr⟩
            intro he
            have := congrArg List.length he
            simp only [List.length_take, List.length_nil] at this
            omega
          · exact hls l hl'

theorem lines_text_end : ∀ (ls : List CStr) (first : CStr),
    ∃ x, first ++ CRLF ++ lines_text ls = x ++ CRLF := by
  intro ls
  induction ls with
  | nil => intro first; exact ⟨first, by simp [lines_text]⟩
  | cons l ls ih =>
    intro first
    obtain ⟨x, hx⟩ := ih (first ++ CRLF ++ l)
    exact ⟨x, by rw [← hx]; simp [lines_text]⟩

/-- C28: an input that holds a `\r\n` but no `\r\n\r\n` is a request line, terminated
non-empty lines `ls` and an unterminated rest `t` (the text after the last `\r\n`).  Every line
of `ls`, in order, goes through the header-line step of the parser; `t` does not, also when it
holds a colon, and is the body as it stands; the body is without content exactly when `t` is
empty, and then the input ends with `\r\n`. -/
theorem cwist_http_parse_request_no_blank_line (raw : CStr)
    (hcr : ∃ a b : CStr, raw = a ++ CRLF ++ b)
    (hno : ¬ ∃ a b : CStr, raw = a ++ CRLF ++ CRLF ++ b) :
    (∃ (first : CStr) (ls : List CStr) (t : CStr) (req : cwist_http_request),
      raw = first ++ CRLF ++ lines_text ls ++ t ∧
      no_crlf first ∧ (∀ l ∈ ls, l ≠ [] ∧ no_crlf l) ∧ no_crlf t ∧
      cwist_http_parse_request (some raw) = some req ∧
      req.headers = ls.foldl (fun a l => parse_header_line l a) [] ∧
      req.body.data.getD [] = t ∧
      (req.body.data = none ↔ t = []) ∧
      (req.body.data = none → ∃ x, raw = x ++ CRLF)) ∧
    (cwist_http_parse_request (some "GET /\r\nA: b\r\nC: d".toList)).map
        (fun req => (req.headers.map (fun n => (n.key.data, n.value.data)), req.body.data))
      = some ([(some "A".toList, some "b".toList)], some "C: d".toList) := by
  refine ⟨?_, by decide⟩
  obtain ⟨a, b, hab⟩ := hcr
  have h1 := strstr_isSome_of_split CRLF a b
  rw [← hab] at h1
  obtain ⟨n, hn⟩ := Option.isSome_iff_exists.mp h1
  have hsplit := strstr_some_split CRLF raw n hn
  have hfirst := no_crlf_take_of_strstr raw n hn
  obtain ⟨ls, tl, hrest, hls, htl⟩ := exists_lines_split _ (raw.drop (n + CRLF.length))
    (Nat.le_refl _)
  have hraw : raw = raw.take n ++ CRLF ++ lines_text ls ++ tl := by
    rw [List.append_assoc (raw.take n ++ CRLF), ← hrest]
    exact hsplit
  have ht : no_crlf tl := by
    rcases htl with ⟨body, hb⟩ | h
    · exfalso
      obtain ⟨x, hx⟩ := lines_text_end ls (raw.take n)
      apply hno
      refine ⟨x, body, ?_⟩
      rw [hraw, hx, hb]
      simp
    · exact h
  have hres := parse_request_lines (raw.take n) ls tl tl hfirst hls (Or.inr ⟨ht, rfl⟩)
  rw [← hraw] at hres
  have hbody : (parse_request_line (raw.take n) cwist_http_request_create).body
      = smartstring_create :=
    (parse_request_line_fields _ _).2.2.2.2.2
  have hb := parse_body_data tl
    { parse_request_line (raw.take n) cwist_http_request_create with
      headers := ls.foldl (fun a l => parse_header_line l a) [] } hbody
  refine ⟨raw.take n, ls, tl, _, hraw, hfirst, hls, ht, hres, ?_, hb.1, hb.2.1, ?_⟩
  · rw [parse_body_headers]
  · intro hnone
    have htl0 : tl = [] := hb.2.1.mp hnone
    obtain ⟨x, hx⟩ := lines_text_end ls (raw.take n)
    exact ⟨x, by rw [hraw, htl0, List.append_nil, hx]⟩

theorem cwist_http_parse_request_no_blank_line_witness :
    ∃ (first : CStr) (ls : List CStr) (t : CStr) (req : cwist_http_request),
      "GET /\r\nA: b\r\nC: d".toList = first ++ CRLF ++ lines_text ls ++ t ∧
      no_crlf first ∧ (∀ l ∈ ls, l ≠ [] ∧ no_crlf l) ∧ no_crlf t ∧
      cwist_http_parse_request (some "GET /\r\nA: b\r\nC: d".toList) = some req ∧
      req.headers = ls.foldl (fun a l => parse_header_line l a) [] ∧
      req.body.data.getD [] = t ∧
      (req.body.data = none ↔ t = []) ∧
      (req.body.data = none → ∃ x, "GET /\r\nA: b\r\nC: d".toList = x ++ CRLF) :=
  (cwist_http_parse_request_no_blank_line "GET /\r\nA: b\r\nC: d".toList
    ⟨"GET /".toList, "A: b\r\nC: d".toList, by decide⟩
    (no_blank_line_of_strstr _ (by decide))).1


/-! ### The body after the first empty line -/

theorem strstr_le_of_split (needle : CStr) : ∀ (x y : CStr),
    ∃ n, strstr (x ++ needle ++ y) needle = some n ∧ n ≤ x.length := by
  intro x
  induction x with
  | nil =>
    intro y
    cases hnb : ([] ++ needle ++ y) with
    | nil =>
      have : needle = [] := by
        simp at hnb; exact hnb.1
      exact ⟨0, by simp [strstr, this], Nat.le_refl _⟩
    | cons c t =>
      have hp : needle.isPrefixOf (c :: t) = true := by
        rw [← hnb]; exact List.isPrefixOf_iff_prefix.mpr ⟨y, by simp⟩
      exact ⟨0, by unfold strstr; rw [if_pos hp], Nat.le_refl _⟩
  | cons c x ih =>
    intro y
    obtain ⟨n, hn, hle⟩ := ih y
    simp only [List.cons_append, List.append_assoc] at hn ⊢
    by_cases hp : needle.isPrefixOf (c :: (x ++ (needle ++ y))) = true
    · exact ⟨0, by unfold strstr; rw [if_pos hp], Nat.zero_le _⟩
    · refine ⟨n + 1, ?_, by simp only [List.length_cons]; omega⟩
      unfold strstr
      rw [if_neg hp, hn]
      rfl

theorem strstr_first (needle hay : CStr) (n : Nat) (x y : CStr)
    (h : strstr hay needle = some n) (hsplit : hay = x ++ needle ++ y) : n ≤ x.length := by
  obtain ⟨n', hn', hle⟩ := strstr_le_of_split needle x y
  rw [← hsplit, h] at hn'
  have : n = n' := Option.some.inj hn'
  omega

theorem strstr_drop (needle : CStr) : ∀ (k : Nat) (hay : CStr) (m : Nat),
    strstr hay needle = some m → k ≤ m →
    strstr (hay.drop k) needle = some (m - k) := by
  intro k
  induction k with
  | zero => intro hay m h _; simpa using h
  | succ k ih =>
    intro hay m h hk
    cases hay with
    | nil =>
      unfold strstr at h
      split at h
      · have : m = 0 := by simpa using h.symm
        omega
      · exact absurd h (by simp)
    | cons c hay =>
      unfold strstr at h
      split at h
      · have : m = 0 := by simpa using h.symm
        omega
      · cases hr : strstr hay needle with
        | none => simp [hr] at h
        | some m' =>
          simp only [hr, Option.map_some', Option.some.injEq] at h
          subst h
          rw [List.drop_succ_cons, ih hay m' hr (by omega)]
          congr 1
          omega

theorem strstr_length_le (needle hay : CStr) (n : Nat) (h0 : 0 < needle.length)
    (h : strstr hay needle = some n) : n + needle.length ≤ hay.length := by
  have := congrArg List.length (strstr_some_split needle hay n h)
  simp only [List.length_append, List.length_take, List.length_drop] at this
  omega

/-- Where the first `\r\n\r\n` of a text that follows a line terminator can lie: right at the
terminator (the text starts with `\r\n`), or at offset 2 or later. -/
theorem blank_offset_cases (s : CStr) (m : Nat)
    (h : strstr (CRLF ++ s) (CRLF ++ CRLF) = some m) :
    (m = 0 ∧ ∃ y, s = CRLF ++ y) ∨
    (2 ≤ m ∧ ∃ x y, s = x ++ CRLF ++ (CRLF ++ y) ∧ x.length = m - 2) := by
  have hsplit := strstr_some_split _ _ _ h
  have hlen := strstr_length_le _ _ _ (by decide) h
  match m, hsplit, hlen with
  | 0, hsplit, _ =>
    left
    refine ⟨rfl, (CRLF ++ s).drop (0 + (CRLF ++ CRLF).length), ?_⟩
    simp only [CRLF, List.cons_append, List.nil_append, List.take_zero, List.cons.injEq,
      true_and] at hsplit ⊢
    exact hsplit
  | 1, hsplit, _ =>
    simp [CRLF] at hsplit
  | k + 2, hsplit, hlen =>
    right
    refine ⟨by omega, s.take k, (CRLF ++ s).drop (k + 2 + (CRLF ++ CRLF).length), ?_, ?_⟩
    · simp only [CRLF, List.cons_append, List.nil_append, List.take_succ_cons, List.cons.injEq,
        true_and, List.append_assoc] at hsplit ⊢
      exact hsplit
    · simp only [CRLF, List.cons_append, List.nil_append, List.length_cons, List.length_nil]
        at hlen
      simp only [List.length_take]
      omega

/-- The header loop on a text that follows a line terminator and holds an empty line: it ends
with `line_start` right after the first empty line. -/
theorem parse_headers_blank_line : ∀ (fuel : Nat) (s : CStr)
    (acc : List cwist_http_header_node) (m : Nat),
    s.length < fuel → strstr (CRLF ++ s) (CRLF ++ CRLF) = some m →
    ∃ hs, parse_headers fuel s acc = some (hs, (CRLF ++ s).drop (m + 4)) := by
  intro fuel
  induction fuel with
  | zero => intro s acc m hf _; omega
  | succ fuel ih =>
    intro s acc m hf hm
    rcases blank_offset_cases s m hm with ⟨hm0, y, hy⟩ | ⟨hm2, x, y, hxy, hxlen⟩
    · -- the text starts with the empty line
      subst hm0
      have h0 := strstr_crlf_at_end [] y no_crlf_nil
      simp only [List.nil_append, List.length_nil] at h0
      have e : s = '\r' :: '\n' :: y := by rw [hy]; rfl
      subst e
      unfold parse_headers
      rw [h0]
      exact ⟨acc, by simp [CRLF]⟩
    · -- a header line comes first
      obtain ⟨n, hn, hnle⟩ := strstr_le_of_split CRLF x (CRLF ++ y)
      rw [← hxy] at hn
      have hsplit := strstr_some_split CRLF s n hn
      have hlen := strstr_crlf_le s n hn
      by_cases hn0 : n = 0
      · -- an empty line at the start would put the first empty line at offset 0
        exfalso
        subst hn0
        have hs2 : CRLF ++ s = [] ++ (CRLF ++ CRLF) ++ s.drop 2 := by
          simp only [List.take_zero, List.nil_append, Nat.zero_add] at hsplit
          have e2 : CRLF.length = 2 := rfl
          rw [e2] at hsplit
          rw [List.nil_append, List.append_assoc, ← hsplit]
        have := strstr_first _ _ _ _ _ hm hs2
        simp at this
        omega
      · have hdrop : (CRLF ++ s).drop (n + 2) = CRLF ++ s.drop (n + 2) := by
          have e2 : CRLF.length = 2 := rfl
          rw [e2] at hsplit
          have e3 : CRLF ++ s = (CRLF ++ s.take n) ++ (CRLF ++ s.drop (n + 2)) := by
            rw [List.append_assoc, ← List.append_assoc (s.take n), ← hsplit]
          have e4 : (CRLF ++ s.take n).length = n + 2 := by
            simp only [List.length_append, List.length_take, CRLF, List.length_cons,
              List.length_nil]
            omega
          have := drop_length_append (CRLF ++ s.take n) (CRLF ++ s.drop (n + 2)) 0
          rw [e4, ← e3] at this
          simpa using this
        have hm' := strstr_drop (CRLF ++ CRLF) (n + 2) (CRLF ++ s) m hm (by omega)
        rw [hdrop] at hm'
        obtain ⟨hs, hres⟩ := ih (s.drop (n + 2)) (parse_header_line (s.take n) acc)
          (m - (n + 2)) (by simp only [List.length_drop]; omega) hm'
        refine ⟨hs, ?_⟩
        unfold parse_headers
        rw [hn]
        simp only [hn0, if_false]
        rw [hres, ← hdrop, List.drop_drop]
        congr 3
        omega


theorem first_blank_of_strstr (raw : CStr) (n : Nat)
    (h : strstr raw (CRLF ++ CRLF) = some n) :
    raw = raw.take n ++ CRLF ++ CRLF ++ raw.drop (n + 4) ∧ (raw.take n).length = n ∧
    ∀ x y : CStr, raw = x ++ CRLF ++ CRLF ++ y → (raw.take n).length ≤ x.length := by
  have hsplit := strstr_some_split _ _ _ h
  have hlen := strstr_length_le _ _ _ (by decide) h
  have htake : (raw.take n).length = n := by
    simp only [List.length_take]; omega
  refine ⟨?_, htake, ?_⟩
  · rw [List.append_assoc (raw.take n)]
    exact hsplit
  · intro x y hxy
    rw [htake]
    exact strstr_first _ _ _ x y h (by rw [hxy, List.append_assoc x])

theorem parse_request_body_at (raw : CStr) (n : Nat)
    (h : strstr raw (CRLF ++ CRLF) = some n) :
    ∃ req, cwist_http_parse_request (some raw) = some req ∧
      req.body.data.getD [] = raw.drop (n + 4) ∧
      (req.body.data = none ↔ raw.drop (n + 4) = []) ∧
      (raw.drop (n + 4) ≠ [] → req.body.data = some (raw.drop (n + 4))) := by
  obtain ⟨hraw, _, _⟩ := first_blank_of_strstr raw n h
  -- the request line ends at or before the first empty line
  obtain ⟨n0, hn0, hle⟩ := strstr_le_of_split CRLF (raw.take n) (CRLF ++ raw.drop (n + 4))
  rw [← List.append_assoc, ← hraw] at hn0
  have hlen := strstr_length_le _ _ _ (by decide) h
  have hle' : n0 ≤ n := by
    simp only [List.length_take] at hle; omega
  have hsplit0 := strstr_some_split CRLF raw n0 hn0
  have hlen0 := strstr_crlf_le raw n0 hn0
  have hdrop : raw.drop n0 = CRLF ++ raw.drop (n0 + 2) := by
    have e2 : CRLF.length = 2 := rfl
    rw [e2] at hsplit0
    have e4 : (raw.take n0).length = n0 := by
      simp only [List.length_take]; omega
    have := drop_length_append (raw.take n0) (CRLF ++ raw.drop (n0 + 2)) 0
    rw [e4, ← List.append_assoc, ← hsplit0] at this
    simpa using this
  have hm := strstr_drop (CRLF ++ CRLF) n0 raw n h hle'
  rw [hdrop] at hm
  obtain ⟨hs, hres⟩ := parse_headers_blank_line (strlen raw + 1) (raw.drop (n0 + 2))
    (parse_request_line (raw.take n0) cwist_http_request_create).headers (n - n0)
    (by simp only [List.length_drop, strlen]; omega) hm
  have hbody : (CRLF ++ raw.drop (n0 + 2)).drop (n - n0 + 4) = raw.drop (n + 4) := by
    rw [← hdrop, List.drop_drop]
    congr 1
    omega
  rw [hbody] at hres
  have hparse : cwist_http_parse_request (some raw)
      = some (parse_body (raw.drop (n + 4))
          { parse_request_line (raw.take n0) cwist_http_request_create with headers := hs }) := by
    simp only [cwist_http_parse_request, hn0, hres]
  have hb := parse_body_data (raw.drop (n + 4))
    { parse_request_line (raw.take n0) cwist_http_request_create with headers := hs }
    (parse_request_line_fields _ _).2.2.2.2.2
  exact ⟨_, hparse, hb.1, hb.2.1, hb.2.2⟩

/-- C25: body extraction.  When the input is `a`, `\r\n\r\n`, `b` and this is its first
`\r\n\r\n` (no other occurrence starts earlier), the body of the parsed request is `b` as it
stands, later line terminators, empty lines and colons included, and the body buffer has no
content exactly when `b` is empty.  Every input that holds `\r\n\r\n` has such a first
occurrence. -/
theorem cwist_http_parse_request_body (raw a b : CStr)
    (hraw : raw = a ++ CRLF ++ CRLF ++ b)
    (hfirst : ∀ x y : CStr, raw = x ++ CRLF ++ CRLF ++ y → a.length ≤ x.length) :
    (∃ req, cwist_http_parse_request (some raw) = some req ∧
      req.body.data.getD [] = b ∧
      (req.body.data = none ↔ b = []) ∧
      (b ≠ [] → req.body.data = some b)) ∧
    (∀ s : CStr, (∃ x y : CStr, s = x ++ CRLF ++ CRLF ++ y) →
      ∃ a' b' : CStr, s = a' ++ CRLF ++ CRLF ++ b' ∧
        ∀ x y : CStr, s = x ++ CRLF ++ CRLF ++ y → a'.length ≤ x.length) ∧
    (cwist_http_parse_request (some "GET /\r\nA: b\r\n\r\nx\r\n\r\ny: z\r\n".toList)).map
        (fun req => req.body.data)
      = some (some "x\r\n\r\ny: z\r\n".toList) := by
  refine ⟨?_, ?_, by decide⟩
  · obtain ⟨n, hn, hle⟩ := strstr_le_of_split (CRLF ++ CRLF) a b
    rw [← List.append_assoc, ← hraw] at hn
    obtain ⟨hsplit, htake, _⟩ := first_blank_of_strstr raw n hn
    have hge : a.length ≤ n := by
      have := hfirst _ _ hsplit
      omega
    have hna : n = a.length := by omega
    have hb : raw.drop (n + 4) = b := by
      rw [hna, hraw]
      have := drop_length_append a (CRLF ++ CRLF ++ b) 4
      simp only [List.append_assoc] at this ⊢
      rw [this]
      rfl
    have := parse_request_body_at raw n hn
    rw [hb] at this
    exact this
  · rintro s ⟨x, y, hxy⟩
    obtain ⟨n, hn, _⟩ := strstr_le_of_split (CRLF ++ CRLF) x y
    rw [← List.append_assoc, ← hxy] at hn
    obtain ⟨hsplit, _, hmin⟩ := first_blank_of_strstr s n hn
    exact ⟨s.take n, s.drop (n + 4), hsplit, hmin⟩

theorem cwist_http_parse_request_body_witness :
    ∃ req, cwist_http_parse_request (some "G\r\nA: b\r\n\r\nx\r\n\r\ny".toList) = some req ∧
      req.body.data.getD [] = "x\r\n\r\ny".toList ∧
      (req.body.data = none ↔ "x\r\n\r\ny".toList = []) ∧
      ("x\r\n\r\ny".toList ≠ [] → req.body.data = some "x\r\n\r\ny".toList) :=
  (cwist_http_parse_request_body "G\r\nA: b\r\n\r\nx\r\n\r\ny".toList "G\r\nA: b".toList
    "x\r\n\r\ny".toList (by decide)
    (fun x y hxy =>
      strstr_first (CRLF ++ CRLF) "G\r\nA: b\r\n\r\nx\r\n\r\ny".toList 7 x y (by decide)
        (by rw [hxy, List.append_assoc x]))).1


/-! ## Serialized responses read back, and the 255-byte status line -/

theorem digitChar_plain (k : Nat) (hk : k < 10) :
    Nat.digitChar k ≠ ' ' ∧ Nat.digitChar k ≠ '\r' := by
  interval_cases k <;> decide

theorem toDigitsCore_plain : ∀ (fuel n : Nat) (ds : List Char),
    (∀ c ∈ ds, c ≠ ' ' ∧ c ≠ '\r') →
    ∀ c ∈ Nat.toDigitsCore 10 fuel n ds, c ≠ ' ' ∧ c ≠ '\r' := by
  intro fuel
  induction fuel with
  | zero => intro n ds h c hc; exact h c (by simpa [Nat.toDigitsCore] using hc)
  | succ fuel ih =>
    intro n ds h c hc
    have hd := digitChar_plain (n % 10) (Nat.mod_lt _ (by decide))
    have hds : ∀ c ∈ Nat.digitChar (n % 10) :: ds, c ≠ ' ' ∧ c ≠ '\r' := by
      intro c hc
      rcases List.mem_cons.mp hc with rfl | h'
      · exact hd
      · exact h c h'
    unfold Nat.toDigitsCore at hc
    simp only at hc
    split at hc
    · exact hds c hc
    · exact ih _ _ hds c hc

theorem toDigitsCore_ne_nil : ∀ (fuel n : Nat) (ds : List Char),
    ds ≠ [] → Nat.toDigitsCore 10 fuel n ds ≠ [] := by
  intro fuel
  induction fuel with
  | zero => intro n ds h; simpa [Nat.toDigitsCore] using h
  | succ fuel ih =>
    intro n ds _
    unfold Nat.toDigitsCore
    simp only
    split
    · simp
    · exact ih _ _ (by simp)

theorem fmt_d_plain (n : Int) : fmt_d n ≠ [] ∧ ' ' ∉ fmt_d n ∧ '\r' ∉ fmt_d n := by
  have hcore : ∀ k : Nat, Nat.toDigits 10 k ≠ [] ∧
      ∀ c ∈ Nat.toDigits 10 k, c ≠ ' ' ∧ c ≠ '\r' := by
    intro k
    constructor
    · unfold Nat.toDigits Nat.toDigitsCore
      simp only
      split
      · simp
      · exact toDigitsCore_ne_nil _ _ _ (by simp)
    · exact toDigitsCore_plain _ _ [] (by simp)
  unfold fmt_d
  split
  · refine ⟨by simp, ?_, ?_⟩
    · intro h
      rcases List.mem_cons.mp h with h' | h'
      · exact absurd h' (by decide)
      · exact ((hcore _).2 _ h').1 rfl
    · intro h
      rcases List.mem_cons.mp h with h' | h'
      · exact absurd h' (by decide)
      · exact ((hcore _).2 _ h').2 rfl
  · exact ⟨(hcore _).1, fun h => ((hcore _).2 _ h).1 rfl, fun h => ((hcore _).2 _ h).2 rfl⟩

/-- C26: for a response without headers and body whose version and status text are non-empty
and free of space, CR and LF, and whose complete status line is at most 255 bytes long: the
block built by `cwist_http_send_response` is `version SP code SP text CRLF CRLF`, the parser
accepts it, and the request it returns has the method `cwist_http_string_to_method version`,
the decimal status code as path, the status text as version, no headers and no body. -/
theorem cwist_http_parse_serialized_response (send : Int → CStr → Int) (client_fd : Int)
    (res : cwist_http_response) (ver txt : CStr)
    (hfd : 0 ≤ client_fd)
    (hver : res.version.data = some ver) (htxt : res.status_text.data = some txt)
    (hv : ver ≠ [] ∧ ' ' ∉ ver ∧ '\r' ∉ ver ∧ '\n' ∉ ver)
    (ht : txt ≠ [] ∧ ' ' ∉ txt ∧ '\r' ∉ txt ∧ '\n' ∉ txt)
    (hhdr : res.headers = []) (hbody : res.body.data.getD [] = [])
    (hlen : (status_line_text res).length ≤ 255) :
    ∃ blk req,
      (cwist_http_send_response send client_fd (some res)).2 = some blk ∧
      blk = ver ++ [' '] ++ fmt_d res.status_code ++ [' '] ++ txt ++ CRLF ++ CRLF ∧
      cwist_http_parse_request (some blk) = some req ∧
      req.method = cwist_http_string_to_method ver ∧
      req.path.data = some (fmt_d res.status_code) ∧
      req.version.data = some txt ∧
      req.headers = [] ∧
      req.body.data = none := by
  have hblock := send_response_block_of_short send client_fd res hfd
    (by rw [hver]; simp) (by rw [htxt]; simp) (by rw [hhdr]; simp) hlen
  have hd := fmt_d_plain res.status_code
  have hform : response_text res
      = format_request ver (fmt_d res.status_code) txt [] [] := by
    simp [response_text, status_line_text, format_request, format_headers, header_block, hver,
      htxt, hhdr, hbody]
  have hparse := parse_request_formatted ver (fmt_d res.status_code) txt [] []
    ⟨hv.1, hv.2.1, hv.2.2.1⟩ hd ⟨ht.1, ht.2.1, ht.2.2.1⟩ (by simp)
  refine ⟨_, _, hblock, ?_, by rw [hform]; exact hparse, rfl, rfl, rfl, rfl, rfl⟩
  rw [hform]
  simp [format_request, format_headers]

theorem cwist_http_parse_serialized_response_witness :
    ∃ blk req,
      (cwist_http_send_response (fun _ _ => 0) 3 (some cwist_http_response_create)).2
        = some blk ∧
      blk = "HTTP/1.1".toList ++ [' '] ++ fmt_d cwist_http_response_create.status_code ++ [' ']
        ++ "OK".toList ++ CRLF ++ CRLF ∧
      cwist_http_parse_request (some blk) = some req ∧
      req.method = cwist_http_string_to_method "HTTP/1.1".toList ∧
      req.path.data = some (fmt_d cwist_http_response_create.status_code) ∧
      req.version.data = some "OK".toList ∧
      req.headers = [] ∧
      req.body.data = none :=
  cwist_http_parse_serialized_response (fun _ _ => 0) 3 cwist_http_response_create
    "HTTP/1.1".toList "OK".toList (by decide) (by decide) (by decide) (by decide) (by decide)
    (by decide) (by decide) (by decide)

set_option maxRecDepth 100000 in
/-- For the response with a status text of 300 bytes the block is built and parsed, and the
version of the parsed request is the first 242 bytes of that status text, not the text. -/
theorem cwist_http_parse_serialized_response_long_status :
    ((cwist_http_send_response (fun _ _ => 0) 3 (some long_status_response)).2.bind
        (fun blk => cwist_http_parse_request (some blk))).map (fun req => req.version.data)
      = some (some (List.replicate 242 'a')) ∧
    ((cwist_http_send_response (fun _ _ => 0) 3 (some long_status_response)).2.bind
        (fun blk => cwist_http_parse_request (some blk))).map (fun req => req.version.data)
      ≠ some long_status_response.status_text.data := by
  decide

theorem append_headers_sent : ∀ (hs : List cwist_http_header_node) (x : CStr),
    append_headers hs { data := some x, is_fixed := false, size := x.length }
      = { data := some (x ++ header_block_sent hs), is_fixed := false,
          size := (x ++ header_block_sent hs).length } := by
  intro hs
  induction hs with
  | nil => intro x; simp [append_headers, header_block_sent]
  | cons n hs ih =>
    intro x
    cases hk : n.key.data with
    | none => simp only [append_headers, header_block_sent, hk]; exact ih x
    | some k =>
      cases hv : n.value.data with
      | none => simp only [append_headers, header_block_sent, hk, hv]; exact ih x
      | some v =>
        simp only [append_headers, hk, hv, header_block_sent]
        rw [smartstring_append_dynamic _ _ rfl, smartstring_append_dynamic _ _ rfl,
          smartstring_append_dynamic _ _ rfl, smartstring_append_dynamic _ _ rfl]
        simp only [Option.getD_some]
        have := ih (x ++ k ++ [':', ' '] ++ v ++ CRLF)
        simp only [List.length_append, List.append_assoc] at this ⊢
        exact this

theorem send_response_block_general (send : Int → CStr → Int) (client_fd : Int)
    (res : cwist_http_response) (hfd : 0 ≤ client_fd) :
    (cwist_http_send_response send client_fd (some res)).2
      = some ((status_line_full res).take 255 ++ header_block_sent res.headers ++ CRLF
          ++ res.body.data.getD []) := by
  have hfd' : ¬ client_fd < 0 := by omega
  have hsl : status_line res = (status_line_full res).take 255 := rfl
  have h1 : ∀ d : CStr, (smartstring_append smartstring_create (some d)).2
      = { data := some d, is_fixed := false, size := d.length } := by
    intro d
    rw [smartstring_append_dynamic smartstring_create _ rfl]
    simp [smartstring_create]
  have h3 : ∀ x d : CStr,
      (smartstring_append { data := some x, is_fixed := false, size := x.length } (some d)).2
        = { data := some (x ++ d), is_fixed := false, size := (x ++ d).length } := by
    intro x d
    rw [smartstring_append_dynamic _ _ rfl]
    simp
  simp only [cwist_http_send_response, hfd', if_false, hsl, h1, append_headers_sent, h3]
  cases hb : res.body.data with
  | none => simp only [Option.getD_some, Option.getD_none, List.append_nil, List.take_length]
  | some b => simp only [h3, Option.getD_some, List.take_length]

/-- C29: the status line in the block built by `cwist_http_send_response` is limited to 255
bytes.  For every response the block is the first `min (L, 255)` bytes of the complete status
line (of length `L`), then the header lines, `\r\n` and the body.  The status-line part is the
complete `\r\n`-terminated line iff `L <= 255`, and then the block starts with it; a longer
line is cut after 255 bytes, and what is dropped is not empty and ends with the terminating
LF. -/
theorem cwist_http_send_response_status_line_limit (send : Int → CStr → Int)
    (client_fd : Int) (res : cwist_http_response) (hfd : 0 ≤ client_fd) :
    (cwist_http_send_response send client_fd (some res)).2
      = some ((status_line_full res).take (min (status_line_full res).length 255)
          ++ header_block_sent res.headers ++ CRLF ++ res.body.data.getD []) ∧
    ((status_line_full res).take (min (status_line_full res).length 255) = status_line_full res
      ↔ (status_line_full res).length ≤ 255) ∧
    ((status_line_full res).length ≤ 255 →
      ∃ t, (cwist_http_send_response send client_fd (some res)).2
        = some (status_line_full res ++ t)) ∧
    ((status_line_full res).length > 255 →
      ∃ dropped, dropped ≠ [] ∧ dropped.getLast? = some '\n' ∧
        status_line_full res
          = (status_line_full res).take (min (status_line_full res).length 255) ++ dropped) := by
  have hgen := send_response_block_general send client_fd res hfd
  have htake : (status_line_full res).take (min (status_line_full res).length 255)
      = (status_line_full res).take 255 := by
    by_cases h : (status_line_full res).length ≤ 255
    · rw [Nat.min_eq_left h, List.take_length, List.take_of_length_le h]
    · rw [Nat.min_eq_right (by omega)]
  have hend : ∃ pre, status_line_full res = pre ++ ['\r', '\n'] :=
    ⟨res.version.data.getD ['H', 'T', 'T', 'P', '/', '1', '.', '1'] ++ [' ']
      ++ fmt_d res.status_code ++ [' '] ++ res.status_text.data.getD ['O', 'K'], rfl⟩
  refine ⟨by rw [htake]; exact hgen, ?_, ?_, ?_⟩
  · rw [htake]
    constructor
    · intro h
      have := congrArg List.length h
      simp only [List.length_take] at this
      omega
    · intro h
      exact List.take_of_length_le h
  · intro h
    rw [hgen, List.take_of_length_le h]
    exact ⟨header_block_sent res.headers ++ CRLF ++ res.body.data.getD [], by simp⟩
  · intro h
    rw [htake]
    refine ⟨(status_line_full res).drop 255, ?_, ?_, (List.take_append_drop _ _).symm⟩
    · intro h0
      have := congrArg List.length h0
      simp only [List.length_drop, List.length_nil] at this
      omega
    · obtain ⟨pre, hpre⟩ := hend
      have hlen : (pre ++ ['\r', '\n']).length > 255 := by rw [← hpre]; exact h
      rw [hpre]
      simp only [List.length_append, List.length_cons, List.length_nil] at hlen
      by_cases hp : 255 ≤ pre.length
      · rw [List.drop_append_of_le_length hp, List.getLast?_append]
        simp
      · have hp' : pre.length = 254 := by omega
        have e : 255 = pre.length + 1 := by omega
        rw [e, drop_length_append]
        simp

theorem cwist_http_send_response_status_line_limit_witness :
    ∃ t, (cwist_http_send_response (fun _ _ => 0) 3 (some cwist_http_response_create)).2
      = some (status_line_full cwist_http_response_create ++ t) :=
  (cwist_http_send_response_status_line_limit (fun _ _ => 0) 3 cwist_http_response_create
    (by decide)).2.2.1 (by decide)

set_option maxRecDepth 100000 in
/-- With a status text of 242 bytes the complete status line has 257 bytes, and the block,
which has no header, still is that complete line: the `\r\n` that ends the headers follows the
255 bytes kept. -/
theorem cwist_http_send_response_terminator_cut :
    (status_line_full cut_terminator_response).length = 257 ∧
    (cwist_http_send_response (fun _ _ => 0) 3 (some cut_terminator_response)).2
      = some (status_line_full cut_terminator_response) := by
  decide

/-! ## The buffer invariant -/

theorem ltrim_loop_le (d : CStr) : ltrim_loop d ≤ d.length := by
  induction d with
  | nil => simp [ltrim_loop]
  | cons c d ih =>
    simp only [ltrim_loop, List.length_cons]
    split <;> omega

/-- C27: the buffer invariant `text length <= length field` holds for a freshly created
buffer and is kept by `smartstring_assign`, `smartstring_append`, `smartstring_rtrim`,
`smartstring_ltrim` and `smartstring_trim`, in both modes and whatever the call returns, and by
`smartstring_change_size` whenever the call returns with the buffer in hand (success, or a
failure that leaves it as it was); under it the subtraction `size -= start` of
`smartstring_ltrim` does not wrap (the length field being a `size_t`, below `2 ^ 64`).
`smartstring_change_size` with `new_size = SIZE_MAX` on a buffer that holds a text is the
exception: the request `new_size + 1` wraps to 0, `realloc` releases the block, and the call
returns `ERR_SMARTSTRING_RESIZE_TOO_LARGE` with `data` pointing to the released block, for
either value of the flag and whatever the allocator grants. -/
theorem buffer_inv_preserved :
    buffer_inv smartstring_create ∧
    (∀ b : smartstring, buffer_inv b →
      (∀ data : Option CStr, buffer_inv (smartstring_assign b data).2) ∧
      (∀ data : Option CStr, buffer_inv (smartstring_append b data).2) ∧
      (∀ (grant : Nat → Bool) (new_size : Nat) (blow_data : Bool) (e : cwist_error_t)
          (b1 : smartstring),
        smartstring_change_size grant b new_size blow_data = .returned e b1 →
        buffer_inv b1) ∧
      buffer_inv (smartstring_rtrim b).2 ∧
      (b.size < 2 ^ 64 →
        buffer_inv (smartstring_ltrim b).2 ∧
        buffer_inv (smartstring_trim b).2 ∧
        (∀ d, b.data = some d →
          ltrim_loop d ≤ b.size ∧
          size_t_sub b.size (ltrim_loop d) = b.size - ltrim_loop d))) ∧
    (∀ (grant : Nat → Bool) (c : CStr) (sz : Nat) (blow_data : Bool), strlen c ≤ SIZE_MAX →
      smartstring_change_size grant ⟨some c, false, sz⟩ SIZE_MAX blow_data
        = .dangling (.err_i8 .ERR_SMARTSTRING_RESIZE_TOO_LARGE)) := by
  have hsub : ∀ sz start : Nat, start ≤ sz → sz < 2 ^ 64 →
      size_t_sub sz start = sz - start := by
    intro sz start h1 h2
    unfold size_t_sub
    omega
  have hrtrim : ∀ b : smartstring, buffer_inv b →
      buffer_inv (smartstring_rtrim b).2 ∧ (smartstring_rtrim b).2.size = b.size := by
    intro b hb
    obtain ⟨d, f, sz⟩ := b
    cases d with
    | none => exact ⟨hb, rfl⟩
    | some d =>
      simp only [buffer_inv, current_len, strlen] at hb
      by_cases h0 : d.length = 0
      · have e : smartstring_rtrim ⟨some d, f, sz⟩
            = (.err_i8 .ERR_SMARTSTRING_ZERO_LENGTH, ⟨some d, f, sz⟩) := by
          simp [smartstring_rtrim, strlen, h0]
        rw [e]
        exact ⟨by simpa [buffer_inv, current_len, strlen] using hb, rfl⟩
      · have e : smartstring_rtrim ⟨some d, f, sz⟩
            = (.err_i8 .ERR_SMARTSTRING_OKAY,
                ⟨some (d.take (size_t_add (rtrim_loop d d.length (d.length - 1)) 1)), f, sz⟩) := by
          simp [smartstring_rtrim, strlen, h0]
        rw [e]
        refine ⟨?_, rfl⟩
        simp only [buffer_inv, current_len, strlen, List.length_take]
        omega
  have hltrim : ∀ b : smartstring, buffer_inv b → b.size < 2 ^ 64 →
      buffer_inv (smartstring_ltrim b).2 := by
    intro b hb hsz
    obtain ⟨d, f, sz⟩ := b
    cases d with
    | none => exact hb
    | some d =>
      simp only [buffer_inv, current_len, strlen] at hb
      have hle := ltrim_loop_le d
      by_cases h0 : ltrim_loop d > 0
      · simp only [smartstring_ltrim, h0, if_true, buffer_inv, current_len, strlen,
          List.length_drop]
        rw [hsub sz (ltrim_loop d) (by omega) hsz]
        omega
      · simp only [smartstring_ltrim, h0, if_false]
        simpa [buffer_inv, current_len, strlen] using hb
  refine ⟨by simp [buffer_inv, current_len, smartstring_create], ?_, ?_⟩
  swap
  · intro grant c sz fl hc
    have h1 : size_t_add SIZE_MAX 1 = 0 := by decide
    have h2 : ¬ (SIZE_MAX < current_len ⟨some c, false, sz⟩ ∧ fl = false) := by
      intro h
      have : current_len ⟨some c, false, sz⟩ = strlen c := rfl
      omega
    simp only [smartstring_change_size, Bool.false_eq_true, if_false]
    rw [if_neg h2]
    simp only [h1, realloc, if_true]
    rw [if_pos (by decide)]
  intro b hb
  refine ⟨?_, ?_, ?_, (hrtrim b hb).1, ?_⟩
  · intro data
    obtain ⟨d, f, sz⟩ := b
    simp only [buffer_inv, current_len] at hb
    cases f with
    | false => cases data <;> simp [smartstring_assign, buffer_inv, current_len, strlen]
    | true =>
      by_cases h : (match data with | some t => strlen t | none => 0) > sz
      · simp only [smartstring_assign, if_true, h]
        exact hb
      · cases d with
        | none =>
          simp only [smartstring_assign, if_true, h, if_false]
          exact hb
        | some old =>
          simp only [smartstring_assign, if_true, h, if_false, buffer_inv, current_len]
          cases data with
          | none => simp [strlen]
          | some t => simpa using h
  · intro data
    cases data with
    | none => exact hb
    | some t =>
      obtain ⟨d, f, sz⟩ := b
      cases f with
      | false =>
        rw [smartstring_append_dynamic _ _ rfl]
        simp [buffer_inv, current_len, strlen]
      | true =>
        cases d with
        | none =>
          by_cases h : 0 + strlen t > sz
          · simp only [smartstring_append, current_len, if_true, h]; exact hb
          · simp only [smartstring_append, current_len, if_true, h, if_false, append_logic]
            exact hb
        | some old =>
          by_cases h : strlen old + strlen t > sz
          · simp only [smartstring_append, current_len, if_true, h]; exact hb
          · simp only [smartstring_append, current_len, if_true, h, if_false, append_logic,
              buffer_inv]
            simp only [strlen] at h ⊢
            split_ifs <;> simp only [List.length_append, List.length_nil] <;> omega
  · intro grant n fl e b1 h
    rcases change_size_returned_cases grant b n fl e b1 h with h1 | ⟨_, x, h1, hx⟩
    · rw [h1]; exact hb
    · rw [h1]; exact hx
  · intro hsz
    have hr := hrtrim b hb
    refine ⟨hltrim b hb hsz, ?_, ?_⟩
    · simp only [smartstring_trim]
      split
      · exact hr.1
      · exact hltrim _ hr.1 (by rw [hr.2]; exact hsz)
    · intro d hd
      have hle := ltrim_loop_le d
      have hlen : d.length ≤ b.size := by
        simpa [buffer_inv, current_len, hd, strlen] using hb
      exact ⟨by omega, hsub _ _ (by omega) hsz⟩

theorem buffer_inv_preserved_witness :
    buffer_inv (smartstring_trim ⟨some [' ', 'a', ' '], true, 5⟩).2 :=
  ((buffer_inv_preserved.2.1 ⟨some [' ', 'a', ' '], true, 5⟩
    (by unfold buffer_inv; decide)).2.2.2.2 (by decide)).2.1

/-! ## The populated request -/

theorem tokens_from_eq : ∀ (l cur : CStr),
    tokens_from cur l
      = (if cur ++ l.takeWhile (fun x => !([' '].contains x)) = [] then []
          else [cur ++ l.takeWhile (fun x => !([' '].contains x))])
        ++ tokens_from [] ((l.dropWhile (fun x => !([' '].contains x))).drop 1) := by
  intro l
  induction l with
  | nil => intro cur; simp [tokens_from]
  | cons c l ih =>
    intro cur
    by_cases hc : c = ' '
    · subst hc
      by_cases h0 : cur = [] <;> simp [tokens_from, h0]
    · rw [tokens_from, if_neg hc, ih]
      simp [hc]

theorem tokens_from_dropWhile : ∀ l : CStr,
    tokens_from [] l = tokens_from [] (l.dropWhile (fun c => [' '].contains c)) := by
  intro l
  induction l with
  | nil => rfl
  | cons c l ih =>
    by_cases hc : c = ' '
    · subst hc
      simp only [tokens_from, if_true]
      rw [ih]
      simp
    · simp [hc]

theorem strtok_none_rest (s : CStr) (h : (strtok s [' ']).1 = none) :
    (strtok s [' ']).2 = [] := by
  unfold strtok at h ⊢
  split
  · rfl
  · rename_i h1
    rw [h1] at h
    simp at h

theorem request_tokens_strtok (s : CStr) :
    request_tokens s
      = match (strtok s [' ']).1 with
        | none => []
        | some t => t :: request_tokens (strtok s [' ']).2 := by
  unfold request_tokens
  rw [tokens_from_dropWhile s]
  unfold strtok
  cases h : s.dropWhile (fun c => [' '].contains c) with
  | nil => simp [tokens_from]
  | cons c s1 =>
    have hc := dropWhile_head_not (fun c => [' '].contains c) s c (by rw [h]; rfl)
    have hc1 : c ≠ ' ' := by
      intro e
      simp [e] at hc
    rw [tokens_from_eq]
    simp [hc1]

theorem request_tokens_get (s : CStr) :
    (request_tokens s)[0]? = (strtok s [' ']).1 ∧
    (request_tokens s)[1]? = (strtok (strtok s [' ']).2 [' ']).1 ∧
    (request_tokens s)[2]? = (strtok (strtok (strtok s [' ']).2 [' ']).2 [' ']).1 := by
  have h0 : ∀ s : CStr, (request_tokens s)[0]? = (strtok s [' ']).1 := by
    intro s
    rw [request_tokens_strtok s]
    cases (strtok s [' ']).1 <;> simp
  have hnil : request_tokens [] = [] := rfl
  have htail : ∀ s : CStr, (request_tokens s).tail = request_tokens (strtok s [' ']).2 := by
    intro s
    rw [request_tokens_strtok s]
    cases h : (strtok s [' ']).1 with
    | none => rw [strtok_none_rest s h, hnil]; rfl
    | some t => rfl
  have hidx : ∀ l : List CStr, l[1]? = l.tail[0]? ∧ l[2]? = l.tail.tail[0]? := by
    intro l
    cases l with
    | nil => simp
    | cons a l => cases l <;> simp
  refine ⟨h0 s, ?_, ?_⟩
  · rw [(hidx _).1, htail, h0]
  · rw [(hidx _).2, htail, htail, h0]

theorem strchr_colon_spec : ∀ l : CStr,
    (strchr l ':' = none ∧ ':' ∉ l) ∨
    (∃ k, strchr l ':' = some k ∧ ':' ∈ l ∧ l.take k = l.takeWhile (fun c => c != ':') ∧
      l.drop k = l.dropWhile (fun c => c != ':')) := by
  intro l
  induction l with
  | nil => left; simp [strchr]
  | cons c l ih =>
    by_cases hc : c = ':'
    · right
      subst hc
      exact ⟨0, by simp [strchr], by simp, by simp, by simp⟩
    · rcases ih with ⟨h1, h2⟩ | ⟨k, h1, h2, h3, h4⟩
      · left
        refine ⟨by simp [strchr, hc, h1], ?_⟩
        intro hmem
        rcases List.mem_cons.mp hmem with h | h
        · exact hc h.symm
        · exact h2 h
      · right
        refine ⟨k + 1, by simp [strchr, hc, h1], List.mem_cons_of_mem _ h2, ?_, ?_⟩
        · simp [hc, h3]
        · simp [hc, h4]

theorem parse_header_line_of_line (l : CStr) (headers : List cwist_http_header_node) :
    parse_header_line l headers
      = match header_of_line l with
        | some kv => header_node kv :: headers
        | none => headers := by
  rcases strchr_colon_spec l with ⟨h1, h2⟩ | ⟨k, h1, h2, h3, h4⟩
  · simp [parse_header_line, header_of_line, h1, h2]
  · have h5 : l.drop (k + 1) = (l.dropWhile (fun c => c != ':')).drop 1 := by
      rw [← h4, List.drop_drop]
    simp only [parse_header_line, header_of_line, h1, h2, if_true, h3, h5]
    simp [cwist_http_header_add, smartstring_assign, smartstring_create, header_node]

theorem foldl_parse_header_line_of_line : ∀ (ls : List CStr)
    (acc : List cwist_http_header_node),
    ls.foldl (fun a l => parse_header_line l a) acc
      = ((ls.filterMap header_of_line).map header_node).reverse ++ acc := by
  intro ls
  induction ls with
  | nil => intro acc; rfl
  | cons l ls ih =>
    intro acc
    rw [List.foldl_cons, ih, parse_header_line_of_line]
    cases h : header_of_line l with
    | none => simp [List.filterMap_cons, h]
    | some kv => simp [List.filterMap_cons, h]

theorem parse_body_query (ls : CStr) (req : cwist_http_request) :
    (parse_body ls req).query = req.query := by
  cases ls <;> rfl

theorem parse_body_body (ls : CStr) (req : cwist_http_request)
    (hb : req.body = smartstring_create) :
    (parse_body ls req).body = if ls = [] then smartstring_create else text_buffer ls := by
  cases ls with
  | nil => simp [parse_body, hb]
  | cons c l =>
    simp [parse_body, hb, smartstring_assign, smartstring_create, text_buffer]

theorem parse_request_populated (first : CStr) (ls : List CStr) (tl body : CStr)
    (hfirst : no_crlf first) (hls : ∀ l ∈ ls, l ≠ [] ∧ no_crlf l)
    (htl : tl = CRLF ++ body ∨ (no_crlf tl ∧ body = tl)) :
    ∃ req, cwist_http_parse_request (some (first ++ CRLF ++ lines_text ls ++ tl)) = some req ∧
      req.method = (match (request_tokens first)[0]? with
        | some m => cwist_http_string_to_method m
        | none => .CWIST_HTTP_GET) ∧
      req.path = text_buffer (((request_tokens first)[1]?).getD ['/']) ∧
      req.version
        = text_buffer (((request_tokens first)[2]?).getD ['H', 'T', 'T', 'P', '/', '1', '.', '1']) ∧
      req.query = smartstring_create ∧
      req.headers = ((ls.filterMap header_of_line).map header_node).reverse ∧
      req.body = (if body = [] then smartstring_create else text_buffer body) := by
  have hf := parse_request_line_fields first cwist_http_request_create
  obtain ⟨t0, t1, t2⟩ := request_tokens_get first
  refine ⟨_, parse_request_lines first ls tl body hfirst hls htl, ?_, ?_, ?_, ?_, ?_, ?_⟩
  · rw [parse_body_method, t0]
    exact hf.1
  · rw [parse_body_path, t1]
    show (parse_request_line first cwist_http_request_create).path = _
    rw [hf.2.1]
    cases (strtok (strtok first [' ']).2 [' ']).1 <;>
      simp [cwist_http_request_create, smartstring_assign, smartstring_create, text_buffer]
  · rw [parse_body_version, t2]
    show (parse_request_line first cwist_http_request_create).version = _
    rw [hf.2.2.1]
    cases (strtok (strtok (strtok first [' ']).2 [' ']).2 [' ']).1 <;>
      simp [cwist_http_request_create, smartstring_assign, smartstring_create, text_buffer]
  · rw [parse_body_query]
    exact hf.2.2.2.1
  · rw [parse_body_headers]
    show ls.foldl (fun a l => parse_header_line l a) [] = _
    rw [foldl_parse_header_line_of_line, List.append_nil]
  · rw [parse_body_body]
    exact hf.2.2.2.2.2

/-- C2: `cwist_http_parse_request` returns no request exactly when the input holds no `\r\n`.
With one, the input is a first line, the non-empty `\r\n`-terminated lines `ls` that follow it,
and then either an empty line with the rest `body`, or a rest `body` without a terminator; the
request returned has every field set from these parts: the method, path and version from the
first, second and third token of the first line (`GET`, `/` and `HTTP/1.1` where the token is
missing), an untouched query, one header per line of `ls` that holds a colon (the last line
first), and the body buffer holding `body` (a fresh buffer when `body` is empty). -/
theorem cwist_http_parse_request_fails_iff (raw : CStr) :
    (cwist_http_parse_request (some raw) = none ↔ ¬ ∃ a b : CStr, raw = a ++ CRLF ++ b) ∧
    ((∃ a b : CStr, raw = a ++ CRLF ++ b) →
      ∃ (req : cwist_http_request) (first : CStr) (ls : List CStr) (tl body : CStr),
        cwist_http_parse_request (some raw) = some req ∧
        raw = first ++ CRLF ++ lines_text ls ++ tl ∧
        no_crlf first ∧ (∀ l ∈ ls, l ≠ [] ∧ no_crlf l) ∧
        (tl = CRLF ++ body ∨ (no_crlf tl ∧ body = tl)) ∧
        req.method = (match (request_tokens first)[0]? with
          | some m => cwist_http_string_to_method m
          | none => .CWIST_HTTP_GET) ∧
        req.path = text_buffer (((request_tokens first)[1]?).getD ['/']) ∧
        req.version
          = text_buffer
              (((request_tokens first)[2]?).getD ['H', 'T', 'T', 'P', '/', '1', '.', '1']) ∧
        req.query = smartstring_create ∧
        req.headers = ((ls.filterMap header_of_line).map header_node).reverse ∧
        req.body = (if body = [] then smartstring_create else text_buffer body)) := by
  have hsome : (∃ a b : CStr, raw = a ++ CRLF ++ b) →
      ∃ (req : cwist_http_request) (first : CStr) (ls : List CStr) (tl body : CStr),
        cwist_http_parse_request (some raw) = some req ∧
        raw = first ++ CRLF ++ lines_text ls ++ tl ∧
        no_crlf first ∧ (∀ l ∈ ls, l ≠ [] ∧ no_crlf l) ∧
        (tl = CRLF ++ body ∨ (no_crlf tl ∧ body = tl)) ∧
        req.method = (match (request_tokens first)[0]? with
          | some m => cwist_http_string_to_method m
          | none => .CWIST_HTTP_GET) ∧
        req.path = text_buffer (((request_tokens first)[1]?).getD ['/']) ∧
        req.version
          = text_buffer
              (((request_tokens first)[2]?).getD ['H', 'T', 'T', 'P', '/', '1', '.', '1']) ∧
        req.query = smartstring_create ∧
        req.headers = ((ls.filterMap header_of_line).map header_node).reverse ∧
        req.body = (if body = [] then smartstring_create else text_buffer body) := by
    rintro ⟨a, b, hab⟩
    have h1 := strstr_isSome_of_split CRLF a b
    rw [← hab] at h1
    obtain ⟨n, hn⟩ := Option.isSome_iff_exists.mp h1
    have hsplit := strstr_some_split CRLF raw n hn
    have hfirst := no_crlf_take_of_strstr raw n hn
    obtain ⟨ls, tl, hrest, hls, htl⟩ :=
      exists_lines_split (raw.drop (n + CRLF.length)).length (raw.drop (n + CRLF.length))
        (Nat.le_refl _)
    have hraw : raw = raw.take n ++ CRLF ++ lines_text ls ++ tl := by
      rw [List.append_assoc (raw.take n ++ CRLF), ← hrest]
      exact hsplit
    have hbody : ∃ body, tl = CRLF ++ body ∨ (no_crlf tl ∧ body = tl) := by
      rcases htl with ⟨body, h⟩ | h
      · exact ⟨body, Or.inl h⟩
      · exact ⟨tl, Or.inr ⟨h, rfl⟩⟩
    obtain ⟨body, hb⟩ := hbody
    obtain ⟨req, hreq, hfields⟩ := parse_request_populated (raw.take n) ls tl body hfirst hls hb
    rw [← hraw] at hreq
    exact ⟨req, raw.take n, ls, tl, body, hreq, hraw, hfirst, hls, hb, hfields⟩
  refine ⟨⟨?_, ?_⟩, hsome⟩
  · intro hnone hex
    obtain ⟨req, _, _, _, _, hreq, _⟩ := hsome hex
    rw [hreq] at hnone
    exact Option.noConfusion hnone
  · intro hno
    cases hr : strstr raw CRLF with
    | none => simp [cwist_http_parse_request, hr]
    | some n =>
      exact absurd ⟨raw.take n, raw.drop (n + CRLF.length), strstr_some_split CRLF raw n hr⟩ hno

theorem cwist_http_parse_request_fails_iff_witness :
    ∃ (req : cwist_http_request) (first : CStr) (ls : List CStr) (tl body : CStr),
      cwist_http_parse_request (some "POST /x\r\nHost: h\r\nnone\r\n\r\nhi".toList) = some req ∧
      "POST /x\r\nHost: h\r\nnone\r\n\r\nhi".toList = first ++ CRLF ++ lines_text ls ++ tl ∧
      no_crlf first ∧ (∀ l ∈ ls, l ≠ [] ∧ no_crlf l) ∧
      (tl = CRLF ++ body ∨ (no_crlf tl ∧ body = tl)) ∧
      req.method = (match (request_tokens first)[0]? with
        | some m => cwist_http_string_to_method m
        | none => .CWIST_HTTP_GET) ∧
      req.path = text_buffer (((request_tokens first)[1]?).getD ['/']) ∧
      req.version
        = text_buffer
            (((request_tokens first)[2]?).getD ['H', 'T', 'T', 'P', '/', '1', '.', '1']) ∧
      req.query = smartstring_create ∧
      req.headers = ((ls.filterMap header_of_line).map header_node).reverse ∧
      req.body = (if body = [] then smartstring_create else text_buffer body) :=
  (cwist_http_parse_request_fails_iff "POST /x\r\nHost: h\r\nnone\r\n\r\nhi".toList).2
    ⟨"POST /x".toList, "Host: h\r\nnone\r\n\r\nhi".toList, by decide⟩

end Cwistaw
